import Mathlib

/-!
# Indigo box: the `SecureBox` puzzle and the GF(2) solver `openBox`

A shallow embedding of `src/Indigo_box.cpp`.

* `std::vector<std::vector<T>>` is a list of lists; `v[i][j]` is `get2`, the
  assignment `v[i][j] = e` is `set2`.
* Every `for` loop with a counter running over `0 .. n-1` is a left fold over
  `List.range n` whose accumulator is the state the loop body mutates.
* The sizes `y`, `x` are `uint32_t`. Their products (`x * y`, `i * x + j`) are
  taken modulo `2 ^ 32`. The loop counters stay below `ySize`, `xSize` or
  `extendedMatrixSize`, all below `2 ^ 32`, and are plain natural numbers.
* `openBox` reads and writes its matrix, `B` and the snapshot inside their
  bounds, and calls `toggle` inside the grid; only the read `X[i * x + j]` can
  leave its vector, when `x * y` has wrapped, and that read is modelled as
  undefined behaviour. The statements on `toggle` are about positions inside
  the grid.
* The generator `rng` is an input: the constructor takes the values drawn for
  the calls of `toggle` in `shuffle`.
* The `while` loop of `openBox` is run with a bound `fuel` on the number of
  tests of its condition.
-/

namespace IndigoBox

/-! ## Vectors of vectors -/

/-- The read `m[i][j]`; `d` stands for the value of a read outside the vector. -/
def get2 {α : Type} (d : α) (m : List (List α)) (i j : Nat) : α :=
  (m.getD i []).getD j d

/-- The assignment `m[i][j] = v`. -/
def set2 {α : Type} (m : List (List α)) (i j : Nat) (v : α) : List (List α) :=
  m.set i ((m.getD i []).set j v)

/-- A vector of `y` rows, each of `x` entries. -/
def Shaped {α : Type} (m : List (List α)) (y x : Nat) : Prop :=
  m.length = y ∧ ∀ i, i < y → (m.getD i []).length = x

/-! ## The puzzle: `class SecureBox` -/

/-- The members of `SecureBox` that the methods read: `box`, `ySize`, `xSize`. -/
structure SecureBox where
  box : List (List Bool)
  ySize : Nat
  xSize : Nat
deriving DecidableEq

namespace SecureBox

/-- The value of `box[y][x]`. -/
def cell (s : SecureBox) (y x : Nat) : Bool := get2 false s.box y x

/-- The statement `box[y][x] = !box[y][x];`. -/
def flip (s : SecureBox) (y x : Nat) : SecureBox :=
  { s with box := set2 s.box y x (!get2 false s.box y x) }

/-- `SecureBox::toggle(y, x)`: the explicit negation of `box[y][x]`, then the
loop over the row `y`, then the loop over the column `x`. -/
def toggle (s : SecureBox) (y x : Nat) : SecureBox :=
  let s1 := s.flip y x
  let s2 := (List.range s1.xSize).foldl (fun b i => b.flip y i) s1
  (List.range s2.ySize).foldl (fun b i => b.flip i x) s2

/-- `SecureBox::isLocked()`: the outer loop runs over the columns, the inner
one over the rows, and the first `true` cell ends the search with `true`. -/
def isLocked (s : SecureBox) : Bool :=
  (List.range s.xSize).any (fun x => (List.range s.ySize).any (fun y => s.cell y x))

/-- `SecureBox::getState()`: a copy of `box`. -/
def getState (s : SecureBox) : List (List Bool) := s.box

/-- The state of the object right after `box.resize(y)` and `it.resize(x)`:
every cell value-initialised to `false`. -/
def blank (y x : Nat) : SecureBox :=
  { box := List.replicate y (List.replicate x false), ySize := y, xSize := x }

/-- `SecureBox::shuffle()`. The values drawn from `rng` for the successive calls
`toggle(rng() % ySize, rng() % xSize)` are the pairs of `draws`; their number is
the `rng() % 1000` of the loop header. -/
def shuffle (s : SecureBox) (draws : List (Nat × Nat)) : SecureBox :=
  draws.foldl (fun b p => b.toggle (p.1 % b.ySize) (p.2 % b.xSize)) s

/-- The constructor `SecureBox(y, x)`. A draw reduced modulo a zero size is a
division by zero, which leaves no defined object. -/
def mk0 (y x : Nat) (draws : List (Nat × Nat)) : Option SecureBox :=
  if draws ≠ [] ∧ (y = 0 ∨ x = 0) then none else some ((blank y x).shuffle draws)

/-- The class invariant: `box` has `ySize` rows of `xSize` cells. -/
def WF (s : SecureBox) : Prop := Shaped s.box s.ySize s.xSize

/-- The number of times, modulo two, that the three passes of `toggle r c`
negate the cell `(i, j)`: the explicit negation, the row loop, the column loop. -/
def passes (s : SecureBox) (r c i j : Nat) : Bool :=
  (decide (i = r ∧ j = c) ^^ decide (i = r ∧ j < s.xSize)) ^^ decide (i < s.ySize ∧ j = c)

end SecureBox

/-! ## The solver: `openBox` -/

/-- The value `size_t extendedMatrixSize = x * y;`: a product of two `uint32_t`. -/
def extendedMatrixSize (y x : Nat) : Nat := (x * y) % 2 ^ 32

/-- The body of the inner encoder loop for the row `i` and the column `j`: the
three `if` statements that store a `1` in `extendedMatrix[i][j]`. -/
def encodeEntry (x i : Nat) (A : List (List Nat)) (j : Nat) : List (List Nat) :=
  let iy := i / x
  let ix := i % x
  let jy := j / x
  let jx := j % x
  let A1 := if i = j then set2 A i j 1 else A
  let A2 := if jy = iy then set2 A1 i j 1 else A1
  if jx = ix then set2 A2 i j 1 else A2

/-- The body of the outer encoder loop for the row `i`: the store to `B[i]`,
then the inner loop over `j`. -/
def encodeRow (n x : Nat) (state : List (List Bool)) (AB : List (List Nat) × List Nat)
    (i : Nat) : List (List Nat) × List Nat :=
  ((List.range n).foldl (encodeEntry x i) AB.1,
    AB.2.set i (if get2 false state (i / x) (i % x) then 1 else 0))

/-- The iterations `i = 0 .. n-1` of the outer encoder loop, in order, started on
the zero-filled `extendedMatrix` and `B` of size `n`. -/
def encodeRows (n x : Nat) (state : List (List Bool)) : List (List Nat) × List Nat :=
  (List.range n).foldl (encodeRow n x state)
    (List.replicate n (List.replicate n 0), List.replicate n 0)

/-- The loop "Creating Extended Matrix". Its counters `i` and `j` are `int`: a
loop `for (int j = 0; j < n; j++)` ends on the increment that brings `j` to `n`,
so with `n` above `INT_MAX = 2 ^ 31 - 1` the increment at `INT_MAX` overflows,
which is undefined behaviour and leaves no matrix. Up to `INT_MAX` the loops
run their `n` iterations each. -/
def encode (n x : Nat) (state : List (List Bool)) : Option (List (List Nat) × List Nat) :=
  if n < 2 ^ 31 then some (encodeRows n x state) else none

/-- The pair `extendedMatrix`, `B` that the elimination works on in place. -/
structure Sys where
  A : List (List Nat)
  B : List Nat
deriving DecidableEq

/-- The effect of `std::swap(v[i], v[k])`. -/
def swapAt {α : Type} (d : α) (v : List α) (i k : Nat) : List α :=
  (v.set i (v.getD k d)).set k (v.getD i d)

/-- The pivot search: the first `i` in `row .. n-1` with `extendedMatrix[i][col]`
nonzero has its row and its entry of `B` swapped with those of `row`, and the
search stops there; without such an `i` nothing changes. -/
def pivotSearch (n col row : Nat) (s : Sys) : Sys :=
  match (List.range' row (n - row)).find? (fun i => get2 0 s.A i col != 0) with
  | some i => { A := swapAt [] s.A i row, B := swapAt 0 s.B i row }
  | none => s

/-- The innermost loop `extendedMatrix[i][j] ^= extendedMatrix[row][j]`. -/
def xorRow (n : Nat) (A : List (List Nat)) (i row : Nat) : List (List Nat) :=
  (List.range n).foldl (fun M j => set2 M i j (get2 0 M i j ^^^ get2 0 M row j)) A

/-- The body of the elimination loop for the row `i`. -/
def eliminateStep (n col row : Nat) (s : Sys) (i : Nat) : Sys :=
  if i ≠ row ∧ get2 0 s.A i col ≠ 0 then
    { A := xorRow n s.A i row, B := s.B.set i (s.B.getD i 0 ^^^ s.B.getD row 0) }
  else s

/-- The elimination loop over all the rows `i` in `0 .. n-1`. -/
def eliminate (n col row : Nat) (s : Sys) : Sys :=
  (List.range n).foldl (eliminateStep n col row) s

/-- One iteration of the loop "Gaussian method" for the column `col`, on the
loop variable `row` and the system. The loop condition `row < n` is tested
here: once it fails no later iteration changes anything, which is the exit of
the loop. -/
def gaussStep (n : Nat) (st : Nat × Sys) (col : Nat) : Nat × Sys :=
  if st.1 < n then
    let s1 := pivotSearch n col st.1 st.2
    if get2 0 s1.A st.1 col = 0 then (st.1, s1)
    else (st.1 + 1, eliminate n col st.1 s1)
  else st

/-- The loop "Gaussian method": `col` runs over `0 .. n-1`, `row` starts at `0`. -/
def gauss (n : Nat) (s : Sys) : Nat × Sys :=
  (List.range n).foldl (gaussStep n) (0, s)

/-- The initial value `int i = extendedMatrixSize - 1` of the counter of the
extraction loop: the difference is taken in `size_t`, where `0 - 1` wraps to
`2 ^ 64 - 1`, and is then converted to the 32-bit `int`, which keeps its low 32
bits as a two's complement number. It is `n - 1` for `1 ≤ n ≤ 2 ^ 31`, and
negative for `n = 0` and for `2 ^ 31 < n < 2 ^ 32`. -/
def extractStart (n : Nat) : Int :=
  let d : Nat := (n + (2 ^ 64 - 1)) % 2 ^ 64
  let w : Nat := d % 2 ^ 32
  if w < 2 ^ 31 then (w : Int) else (w : Int) - 2 ^ 32

/-- The extraction loop `for (int i = extendedMatrixSize - 1; i >= 0; i--)`, on
the zero-filled `X`: `i` runs from `extractStart n` down to `0`, and not at all
when `extractStart n` is negative. -/
def extract (n : Nat) (s : Sys) : List Nat :=
  (List.range (extractStart n + 1).toNat).reverse.foldl
    (fun X i => if get2 0 s.A i i ≠ 0 then X.set i (s.B.getD i 0) else X)
    (List.replicate n 0)

/-- The loop "Solution". The index `i * x + j` is a `uint32_t`; a read of `X`
past its end is undefined behaviour. Next to the box the calls of `toggle`
are recorded, in the order they are issued. -/
def applyPlan (y x : Nat) (X : List Nat) (box : SecureBox) :
    Option (SecureBox × List (Nat × Nat)) :=
  (List.range y).foldlM (fun acc i =>
    (List.range x).foldlM (fun acc j =>
      match X.get? ((i * x + j) % 2 ^ 32) with
      | none => none
      | some v => some (if v ≠ 0 then (acc.1.toggle i j, acc.2 ++ [(i, j)]) else acc))
      acc) (box, [])

/-- One run of the body of the `while` loop: a toggle at every cell that is
`true` in the snapshot `state`. -/
def fallbackRound (y x : Nat) (state : List (List Bool)) (box : SecureBox) : SecureBox :=
  (List.range y).foldl (fun b i =>
    (List.range x).foldl (fun b j => if get2 false state i j then b.toggle i j else b) b) box

/-- The loop `while (box.isLocked())`, cut off after `fuel` tests of its
condition: `none` when the condition has been true `fuel` times. -/
def whileLocked (y x : Nat) (state : List (List Bool)) : Nat → SecureBox → Option SecureBox
  | 0, _ => none
  | fuel + 1, box =>
    if box.isLocked then whileLocked y x state fuel (fallbackRound y x state box)
    else some box

/-- How a run of `openBox` ends. -/
inductive Outcome where
  | returned (result : Bool) (box : SecureBox)
  | undefinedBehaviour
  | stillLooping
deriving DecidableEq

/-- The plan `X` that `openBox` computes from the snapshot `state` of a
`y` by `x` box: encoder, elimination, extraction. There is none when the
encoder has undefined behaviour. -/
def plan (y x : Nat) (state : List (List Bool)) : Option (List Nat) :=
  let n := extendedMatrixSize y x
  match encode n x state with
  | none => none
  | some AB => some (extract n (gauss n { A := AB.1, B := AB.2 }).2)

/-- The part of `openBox` after the construction of the box. -/
def solveBox (fuel y x : Nat) (box : SecureBox) : Outcome :=
  let state := box.getState
  match plan y x state with
  | none => Outcome.undefinedBehaviour
  | some X =>
    match applyPlan y x X box with
    | none => Outcome.undefinedBehaviour
    | some r =>
      match whileLocked y x state fuel r.1 with
      | none => Outcome.stillLooping
      | some b => Outcome.returned b.isLocked b

/-- `openBox(y, x)`: the swap of the dimensions, the construction of the box
from the draws of the generator, and the solver, whose `while` loop is given
`fuel` tests of its condition. -/
def openBox (fuel y x : Nat) (draws : List (Nat × Nat)) : Outcome :=
  let y1 := if y > x then x else y
  let x1 := if y > x then y else x
  match SecureBox.mk0 y1 x1 draws with
  | none => Outcome.undefinedBehaviour
  | some box => solveBox fuel y1 x1 box

/-! ## Vocabulary for the statements -/

/-- The bit the encoder stores in `B[i]`: `state[i / x][i % x] ? 1 : 0`. -/
def lockedBit (x : Nat) (state : List (List Bool)) (i : Nat) : Nat :=
  if get2 false state (i / x) (i % x) then 1 else 0

/-- The entry the encoder leaves in `extendedMatrix[i][j]`: the disjunction of
the conditions of its three `if` statements. -/
def affectsBit (x i j : Nat) : Nat :=
  if i = j ∨ j / x = i / x ∨ j % x = i % x then 1 else 0

/-- The product over GF(2) of a row and a vector, over the indices `0 .. n-1`. -/
def dot2 (n : Nat) (row X : List Nat) : Nat :=
  ((List.range n).map (fun k => row.getD k 0 * X.getD k 0)).sum % 2

/-- Every entry is a bit. -/
def Bits (v : List Nat) : Prop := ∀ k, v.getD k 0 < 2

/-- The equation `A * X = B` over GF(2), for a system of `n` rows. -/
def Solves (n : Nat) (s : Sys) (X : List Nat) : Prop :=
  ∀ i, i < n → dot2 n (s.A.getD i []) X = s.B.getD i 0

/-- A system of `n` equations in `n` unknowns whose entries are bits. -/
def SquareBits (n : Nat) (s : Sys) : Prop :=
  Shaped s.A n n ∧ s.B.length = n ∧ (∀ i j, get2 0 s.A i j < 2) ∧ Bits s.B

/-- The test `i != row && extendedMatrix[i][col]` of the elimination loop, on
the row `a` of the system `s`. -/
def elimHit (s : Sys) (col row a : Nat) : Prop := a ≠ row ∧ get2 0 s.A a col ≠ 0

instance elimHitDecidable (s : Sys) (col row a : Nat) : Decidable (elimHit s col row a) :=
  inferInstanceAs (Decidable (a ≠ row ∧ get2 0 s.A a col ≠ 0))

/-- The index that `std::swap(v[i], v[k])` brings to the place `a`. -/
def swapIdx (i k a : Nat) : Nat := if a = k then i else if a = i then k else a

/-- The invariant of the loop "Gaussian method" at the head of the iteration
for the column `col`, with `st` the pair of `row` and the system, and `s0` the
system at entry: the system is square with bit entries and has the solutions
of `s0`; `row` is at most `col`; the rows from `row` on are zero in the columns
before `col`; and as long as no column has lacked a pivot the columns before
`col` are those of the identity matrix. -/
def GInv (n : Nat) (s0 : Sys) (col : Nat) (st : Nat × Sys) : Prop :=
  SquareBits n st.2 ∧ (∀ X, Solves n s0 X ↔ Solves n st.2 X) ∧ st.1 ≤ col ∧
  (∀ i j, st.1 ≤ i → i < n → j < col → get2 0 st.2.A i j = 0) ∧
  (st.1 = col → ∀ i j, i < n → j < col → get2 0 st.2.A i j = if i = j then 1 else 0)

/-- A system of `n` equations in `n` unknowns over GF(2), as the vectors hold
it: `n` rows of `n` bits and `n` bits of right-hand side. -/
def IsSystem (n : Nat) (s : Sys) : Prop :=
  s.A.length = n ∧ (∀ r ∈ s.A, r.length = n ∧ ∀ a ∈ r, a < 2) ∧
  s.B.length = n ∧ ∀ b ∈ s.B, b < 2

instance isSystemDecidable (n : Nat) (s : Sys) : Decidable (IsSystem n s) :=
  inferInstanceAs (Decidable (s.A.length = n ∧ (∀ r ∈ s.A, r.length = n ∧ ∀ a ∈ r, a < 2) ∧
    s.B.length = n ∧ ∀ b ∈ s.B, b < 2))

instance shapedDecidable {α : Type} (m : List (List α)) (y x : Nat) :
    Decidable (Shaped m y x) :=
  inferInstanceAs (Decidable (m.length = y ∧ ∀ i, i < y → (m.getD i []).length = x))

instance wfDecidable (s : SecureBox) : Decidable s.WF :=
  inferInstanceAs (Decidable (Shaped s.box s.ySize s.xSize))

/-- A sequence of calls of `toggle`, issued in order at the positions of `l`. -/
def SecureBox.toggles (s : SecureBox) (l : List (Nat × Nat)) : SecureBox :=
  l.foldl (fun b p => b.toggle p.1 p.2) s

/-- Every position of `l` lies inside the grid of `s`. -/
def SecureBox.Inside (s : SecureBox) (l : List (Nat × Nat)) : Prop :=
  ∀ p ∈ l, p.1 < s.ySize ∧ p.2 < s.xSize

/-- A 2 by 3 box used to instantiate the statements. -/
def demoBox : SecureBox :=
  { box := [[true, false, false], [false, false, true]], ySize := 2, xSize := 3 }

/-- A system of two equations used to instantiate the statements. -/
def demoSys : Sys := { A := [[1, 1], [0, 1]], B := [1, 1] }

/-- The calls of `toggle` that the plan `X` asks for on the row `i`, columns
`0 .. m-1`: one at `(i, j)` for each `j` with `X[i * x + j]` nonzero. -/
def rowCalls (x : Nat) (X : List Nat) (i m : Nat) : List (Nat × Nat) :=
  ((List.range m).filter (fun j => X.getD (i * x + j) 0 != 0)).map (fun j => (i, j))

/-- The calls of `toggle` that the plan `X` asks for among the flattened indices
`0 .. N-1`: one at `(k / x, k % x)` for each `k` with `X[k]` nonzero, by
increasing `k`. -/
def planCalls (x : Nat) (X : List Nat) (N : Nat) : List (Nat × Nat) :=
  ((List.range N).filter (fun k => X.getD k 0 != 0)).map (fun k => (k / x, k % x))

/-- The 4 by 5 box that the constructor builds when the generator draws the one
toggle `(2, 0)`: the row `2` and the column `0` are locked. -/
def hangBox : SecureBox :=
  { box := [[true, false, false, false, false], [true, false, false, false, false],
      [true, true, true, true, true], [true, false, false, false, false]],
    ySize := 4, xSize := 5 }

/-- The 4 by 5 box whose column `0` alone is locked. -/
def hangBox2 : SecureBox :=
  { box := [[true, false, false, false, false], [true, false, false, false, false],
      [true, false, false, false, false], [true, false, false, false, false]],
    ySize := 4, xSize := 5 }

/-- Some cell of the grid is locked. -/
def SecureBox.SomeLocked (s : SecureBox) : Prop :=
  ∃ r c, r < s.ySize ∧ c < s.xSize ∧ s.cell r c = true

/-- Every cell of the grid is unlocked. -/
def SecureBox.AllUnlocked (s : SecureBox) : Prop :=
  ∀ r c, r < s.ySize → c < s.xSize → s.cell r c = false

/-- The box has `y` rows of `x` cells and its size fields say so. -/
def SecureBox.Sized (s : SecureBox) (y x : Nat) : Prop :=
  s.WF ∧ s.ySize = y ∧ s.xSize = x

/-- The system the encoder builds from `hangBox`. -/
def hangSys : Sys :=
  { A := [[1, 1, 1, 1, 1, 1, 0, 0, 0, 0, 1, 0, 0, 0, 0, 1, 0, 0, 0, 0],
      [1, 1, 1, 1, 1, 0, 1, 0, 0, 0, 0, 1, 0, 0, 0, 0, 1, 0, 0, 0],
      [1, 1, 1, 1, 1, 0, 0, 1, 0, 0, 0, 0, 1, 0, 0, 0, 0, 1, 0, 0],
      [1, 1, 1, 1, 1, 0, 0, 0, 1, 0, 0, 0, 0, 1, 0, 0, 0, 0, 1, 0],
      [1, 1, 1, 1, 1, 0, 0, 0, 0, 1, 0, 0, 0, 0, 1, 0, 0, 0, 0, 1],
      [1, 0, 0, 0, 0, 1, 1, 1, 1, 1, 1, 0, 0, 0, 0, 1, 0, 0, 0, 0],
      [0, 1, 0, 0, 0, 1, 1, 1, 1, 1, 0, 1, 0, 0, 0, 0, 1, 0, 0, 0],
      [0, 0, 1, 0, 0, 1, 1, 1, 1, 1, 0, 0, 1, 0, 0, 0, 0, 1, 0, 0],
      [0, 0, 0, 1, 0, 1, 1, 1, 1, 1, 0, 0, 0, 1, 0, 0, 0, 0, 1, 0],
      [0, 0, 0, 0, 1, 1, 1, 1, 1, 1, 0, 0, 0, 0, 1, 0, 0, 0, 0, 1],
      [1, 0, 0, 0, 0, 1, 0, 0, 0, 0, 1, 1, 1, 1, 1, 1, 0, 0, 0, 0],
      [0, 1, 0, 0, 0, 0, 1, 0, 0, 0, 1, 1, 1, 1, 1, 0, 1, 0, 0, 0],
      [0, 0, 1, 0, 0, 0, 0, 1, 0, 0, 1, 1, 1, 1, 1, 0, 0, 1, 0, 0],
      [0, 0, 0, 1, 0, 0, 0, 0, 1, 0, 1, 1, 1, 1, 1, 0, 0, 0, 1, 0],
      [0, 0, 0, 0, 1, 0, 0, 0, 0, 1, 1, 1, 1, 1, 1, 0, 0, 0, 0, 1],
      [1, 0, 0, 0, 0, 1, 0, 0, 0, 0, 1, 0, 0, 0, 0, 1, 1, 1, 1, 1],
      [0, 1, 0, 0, 0, 0, 1, 0, 0, 0, 0, 1, 0, 0, 0, 1, 1, 1, 1, 1],
      [0, 0, 1, 0, 0, 0, 0, 1, 0, 0, 0, 0, 1, 0, 0, 1, 1, 1, 1, 1],
      [0, 0, 0, 1, 0, 0, 0, 0, 1, 0, 0, 0, 0, 1, 0, 1, 1, 1, 1, 1],
      [0, 0, 0, 0, 1, 0, 0, 0, 0, 1, 0, 0, 0, 0, 1, 1, 1, 1, 1, 1]],
    B := [1, 0, 0, 0, 0, 1, 0, 0, 0, 0, 1, 1, 1, 1, 1, 1, 0, 0, 0, 0] }

/-- The system the elimination leaves of `hangSys`. -/
def hangReduced : Sys :=
  { A := [[1, 0, 0, 0, 0, 0, 0, 0, 0, 1, 0, 0, 0, 0, 1, 0, 0, 0, 0, 1],
      [0, 1, 0, 0, 0, 0, 0, 0, 0, 1, 0, 0, 0, 0, 1, 0, 0, 0, 0, 1],
      [0, 0, 1, 0, 0, 0, 0, 0, 0, 1, 0, 0, 0, 0, 1, 0, 0, 0, 0, 1],
      [0, 0, 0, 1, 0, 0, 0, 0, 0, 1, 0, 0, 0, 0, 1, 0, 0, 0, 0, 1],
      [0, 0, 0, 0, 1, 0, 0, 0, 0, 1, 0, 0, 0, 0, 1, 0, 0, 0, 0, 1],
      [0, 0, 0, 0, 0, 1, 0, 0, 0, 1, 0, 0, 0, 0, 0, 0, 0, 0, 0, 0],
      [0, 0, 0, 0, 0, 0, 1, 0, 0, 1, 0, 0, 0, 0, 0, 0, 0, 0, 0, 0],
      [0, 0, 0, 0, 0, 0, 0, 1, 0, 1, 0, 0, 0, 0, 0, 0, 0, 0, 0, 0],
      [0, 0, 0, 0, 0, 0, 0, 0, 1, 1, 0, 0, 0, 0, 0, 0, 0, 0, 0, 0],
      [0, 0, 0, 0, 0, 0, 0, 0, 0, 0, 1, 0, 0, 0, 1, 0, 0, 0, 0, 0],
      [0, 0, 0, 0, 0, 0, 0, 0, 0, 0, 0, 1, 0, 0, 1, 0, 0, 0, 0, 0],
      [0, 0, 0, 0, 0, 0, 0, 0, 0, 0, 0, 0, 1, 0, 1, 0, 0, 0, 0, 0],
      [0, 0, 0, 0, 0, 0, 0, 0, 0, 0, 0, 0, 0, 1, 1, 0, 0, 0, 0, 0],
      [0, 0, 0, 0, 0, 0, 0, 0, 0, 0, 0, 0, 0, 0, 0, 1, 0, 0, 0, 1],
      [0, 0, 0, 0, 0, 0, 0, 0, 0, 0, 0, 0, 0, 0, 0, 0, 1, 0, 0, 1],
      [0, 0, 0, 0, 0, 0, 0, 0, 0, 0, 0, 0, 0, 0, 0, 0, 0, 1, 0, 1],
      [0, 0, 0, 0, 0, 0, 0, 0, 0, 0, 0, 0, 0, 0, 0, 0, 0, 0, 1, 1],
      [0, 0, 0, 0, 0, 0, 0, 0, 0, 0, 0, 0, 0, 0, 0, 0, 0, 0, 0, 0],
      [0, 0, 0, 0, 0, 0, 0, 0, 0, 0, 0, 0, 0, 0, 0, 0, 0, 0, 0, 0],
      [0, 0, 0, 0, 0, 0, 0, 0, 0, 0, 0, 0, 0, 0, 0, 0, 0, 0, 0, 0]],
    B := [0, 0, 0, 0, 0, 0, 0, 0, 0, 1, 0, 0, 0, 0, 0, 0, 0, 0, 0, 0] }

/-- The positions at which one run of the body of the `while` loop calls
`toggle`, in the order of the calls: the cells `(i, j)` that are `true` in the
snapshot `state`, row by row. The current box does not enter. -/
def snapshotCalls (y x : Nat) (state : List (List Bool)) : List (Nat × Nat) :=
  (List.range y).foldl (fun l i =>
    l ++ ((List.range x).filter (fun j => get2 false state i j)).map (fun j => (i, j))) []

/-- The plan that combines two plans entry by entry with exclusive or. -/
def xorPlan (X1 X2 : List Nat) : List Nat := List.zipWith (fun a b => a ^^^ b) X1 X2

/-- The relation kept by three runs of the loop "Solution" from the box `S`, on
the plans `X1`, `X2` and their exclusive or: the three boxes have the size of
`S`, and each cell of the third is the exclusive or of that cell in `S`, in the
first and in the second. -/
def Affine3 (y x : Nat) (S : SecureBox) (a b c : SecureBox × List (Nat × Nat)) : Prop :=
  a.1.Sized y x ∧ b.1.Sized y x ∧ c.1.Sized y x ∧
  ∀ r k, r < y → k < x → c.1.cell r k = ((S.cell r k ^^ a.1.cell r k) ^^ b.1.cell r k)


/-- One iteration of the loop "Gaussian method", with a record kept next to it:
the column `col` is appended to the record when the iteration reaches `row++`,
that is, when the column has received a pivot, on the row `row` had. -/
def pivotStep (n : Nat) (acc : (Nat × Sys) × List Nat) (col : Nat) : (Nat × Sys) × List Nat :=
  (gaussStep n acc.1 col,
    if acc.1.1 < (gaussStep n acc.1 col).1 then acc.2 ++ [col] else acc.2)

/-- The loop "Gaussian method" with the record of its pivot columns. -/
def gaussPivots (n : Nat) (s : Sys) : (Nat × Sys) × List Nat :=
  (List.range n).foldl (pivotStep n) ((0, s), [])

/-- The pivot columns of the loop "Gaussian method" on `s`, in the order of
their pivot rows: the entry `k` is the column whose pivot was put on the row
`k`. -/
def pivotCols (n : Nat) (s : Sys) : List Nat := (gaussPivots n s).2

/-- The invariant of the loop "Gaussian method" on the record `P` of the pivot
columns, at the head of the iteration for the column `col`: there is one pivot
column per row before `row`; they are columns before `col`, in increasing order;
the pivot column of the row `k` is that of the identity matrix; and the row `k`
is zero before its pivot. -/
def RInv (n col : Nat) (acc : (Nat × Sys) × List Nat) : Prop :=
  acc.2.length = acc.1.1 ∧
  (∀ k, k < acc.1.1 → acc.2.getD k 0 < col) ∧
  (∀ k l, k < l → l < acc.1.1 → acc.2.getD k 0 < acc.2.getD l 0) ∧
  (∀ k i, k < acc.1.1 → i < n →
    get2 0 acc.1.2.A i (acc.2.getD k 0) = if i = k then 1 else 0) ∧
  (∀ k j, k < acc.1.1 → j < acc.2.getD k 0 → get2 0 acc.1.2.A k j = 0)

/-- A system of three equations of rank two, used to instantiate the
statements. -/
def rankSys : Sys := { A := [[1, 1, 1], [1, 1, 0], [0, 0, 1]], B := [1, 0, 1] }

/-- The vector with a `1` at `col`, the column `col` of `A` before `col` and `0`
after it. -/
def kernelVec (n col : Nat) (A : List (List Nat)) : List Nat :=
  (List.range n).map (fun k => if k < col then get2 0 A k col else if k = col then 1 else 0)

/-- The matrix of the 2 by 2 grid: the row of a cell has a `1` for the cell, for
the other cell of its row and for the other cell of its column. -/
def crossTwo : List (List Nat) := [[1, 1, 1, 0], [1, 1, 0, 1], [1, 0, 1, 1], [0, 1, 1, 1]]

/-- A 2 by 2 box with the two cells of its diagonal locked. -/
def diagBox : SecureBox := { box := [[true, false], [false, true]], ySize := 2, xSize := 2 }

/-! ## Lemmas on vectors of vectors -/

theorem getD_set_eq {α : Type} (l : List α) (i k : Nat) (a d : α) :
    (l.set i a).getD k d = if k = i ∧ i < l.length then a else l.getD k d := by
  simp only [List.getD_eq_getElem?_getD, List.getElem?_set]
  by_cases hk : i = k
  · subst hk
    by_cases hlen : i < l.length
    · simp [hlen]
    · simp [hlen, List.getElem?_eq_none (Nat.le_of_not_lt hlen)]
  · have hk2 : ¬ k = i := fun h => hk h.symm
    simp [hk, hk2]

theorem getD_nil_length {α : Type} (m : List (List α)) (i : Nat) (h : m.length ≤ i) :
    m.getD i [] = [] := List.getD_eq_default _ _ h

theorem get2_set2 {α : Type} (d : α) (m : List (List α)) (i j i2 j2 : Nat) (v : α) :
    get2 d (set2 m i j v) i2 j2 =
      if i2 = i ∧ j2 = j ∧ i < m.length ∧ j < (m.getD i []).length then v
      else get2 d m i2 j2 := by
  unfold get2 set2
  rw [getD_set_eq]
  by_cases hi : i2 = i ∧ i < m.length
  · rw [if_pos hi, getD_set_eq]
    obtain ⟨rfl, hlen⟩ := hi
    by_cases hj : j2 = j ∧ j < (m.getD i2 []).length
    · rw [if_pos hj, if_pos ⟨rfl, hj.1, hlen, hj.2⟩]
    · rw [if_neg hj, if_neg (fun h => hj ⟨h.2.1, h.2.2.2⟩)]
  · rw [if_neg hi, if_neg (fun h => hi ⟨h.1, h.2.2.1⟩)]

theorem length_set2 {α : Type} (m : List (List α)) (i j : Nat) (v : α) :
    (set2 m i j v).length = m.length := by
  simp [set2]

theorem rowLength_set2 {α : Type} (m : List (List α)) (i j k : Nat) (v : α) :
    ((set2 m i j v).getD k []).length = (m.getD k []).length := by
  unfold set2
  rw [getD_set_eq]
  by_cases hk : k = i ∧ i < m.length
  · rw [if_pos hk, List.length_set, hk.1]
  · rw [if_neg hk]

theorem Shaped.set2 {α : Type} {m : List (List α)} {y x : Nat} (h : Shaped m y x)
    (i j : Nat) (v : α) : Shaped (set2 m i j v) y x := by
  refine ⟨by rw [length_set2]; exact h.1, fun k hk => ?_⟩
  rw [rowLength_set2]
  exact h.2 k hk

theorem Shaped.ext {α : Type} (d : α) {m m2 : List (List α)} {y x : Nat}
    (h : Shaped m y x) (h2 : Shaped m2 y x)
    (hc : ∀ i j, i < y → j < x → get2 d m i j = get2 d m2 i j) : m = m2 := by
  apply List.ext_getElem (h.1.trans h2.1.symm)
  intro i hi hi2
  have hiy : i < y := h.1 ▸ hi
  have e1 : m.getD i [] = m[i] := List.getD_eq_getElem _ _ hi
  have e2 : m2.getD i [] = m2[i] := List.getD_eq_getElem _ _ hi2
  have l1 : m[i].length = x := e1 ▸ h.2 i hiy
  have l2 : m2[i].length = x := e2 ▸ h2.2 i hiy
  apply List.ext_getElem (l1.trans l2.symm)
  intro j hj hj2
  have hjx : j < x := l1 ▸ hj
  have := hc i j hiy hjx
  unfold get2 at this
  rw [e1, e2, List.getD_eq_getElem _ _ hj, List.getD_eq_getElem _ _ hj2] at this
  exact this

/-! ## Lemmas on `toggle` -/

theorem decide_lt_succ (P : Prop) [Decidable P] (j n : Nat) :
    decide (P ∧ j < n + 1) = (decide (P ∧ j < n) ^^ decide (P ∧ j = n)) := by
  by_cases hP : P
  · rcases Nat.lt_trichotomy j n with h | h | h
    · have h1 : j < n + 1 := by omega
      have h2 : ¬ j = n := by omega
      simp [hP, h, h1, h2]
    · subst h
      simp [hP]
    · have h1 : ¬ j < n + 1 := by omega
      have h2 : ¬ j = n := by omega
      have h3 : ¬ j < n := by omega
      simp [hP, h1, h2, h3]
  · simp [hP]

theorem decide_succ_lt (P : Prop) [Decidable P] (j n : Nat) :
    decide (j < n + 1 ∧ P) = (decide (j < n ∧ P) ^^ decide (j = n ∧ P)) := by
  have := decide_lt_succ P j n
  simpa [and_comm] using this

namespace SecureBox

theorem flip_ySize (s : SecureBox) (r c : Nat) : (s.flip r c).ySize = s.ySize := rfl

theorem flip_xSize (s : SecureBox) (r c : Nat) : (s.flip r c).xSize = s.xSize := rfl

theorem flip_WF {s : SecureBox} (h : s.WF) (r c : Nat) : (s.flip r c).WF :=
  Shaped.set2 h r c _

theorem cell_flip {s : SecureBox} (h : s.WF) (r c : Nat) (hr : r < s.ySize)
    (hc : c < s.xSize) (i j : Nat) :
    (s.flip r c).cell i j = (s.cell i j ^^ decide (i = r ∧ j = c)) := by
  unfold cell flip
  simp only
  rw [get2_set2]
  have h1 : r < s.box.length := by rw [h.1]; exact hr
  have h2 : c < (s.box.getD r []).length := by rw [h.2 r hr]; exact hc
  by_cases hij : i = r ∧ j = c
  · rw [if_pos ⟨hij.1, hij.2, h1, h2⟩]
    obtain ⟨rfl, rfl⟩ := hij
    simp
  · rw [if_neg (fun hh => hij ⟨hh.1, hh.2.1⟩)]
    simp [hij]

/-- The row loop of `toggle`, run for the first `n` columns. -/
theorem rowLoop_spec {s : SecureBox} (h : s.WF) (r : Nat) (hr : r < s.ySize) (n : Nat)
    (hn : n ≤ s.xSize) :
    ((List.range n).foldl (fun b i => b.flip r i) s).WF ∧
    ((List.range n).foldl (fun b i => b.flip r i) s).ySize = s.ySize ∧
    ((List.range n).foldl (fun b i => b.flip r i) s).xSize = s.xSize ∧
    ∀ i j, ((List.range n).foldl (fun b i => b.flip r i) s).cell i j =
      (s.cell i j ^^ decide (i = r ∧ j < n)) := by
  induction n with
  | zero => simp [h]
  | succ n ih =>
    obtain ⟨hw, hy, hx, hcell⟩ := ih (Nat.le_of_succ_le hn)
    rw [List.range_succ, List.foldl_append]
    simp only [List.foldl_cons, List.foldl_nil]
    refine ⟨flip_WF hw r n, by rw [flip_ySize, hy], by rw [flip_xSize, hx], fun i j => ?_⟩
    rw [cell_flip hw r n (by rw [hy]; exact hr) (by rw [hx]; exact hn), hcell,
      decide_lt_succ, Bool.xor_assoc]

/-- The column loop of `toggle`, run for the first `n` rows. -/
theorem colLoop_spec {s : SecureBox} (h : s.WF) (c : Nat) (hc : c < s.xSize) (n : Nat)
    (hn : n ≤ s.ySize) :
    ((List.range n).foldl (fun b i => b.flip i c) s).WF ∧
    ((List.range n).foldl (fun b i => b.flip i c) s).ySize = s.ySize ∧
    ((List.range n).foldl (fun b i => b.flip i c) s).xSize = s.xSize ∧
    ∀ i j, ((List.range n).foldl (fun b i => b.flip i c) s).cell i j =
      (s.cell i j ^^ decide (i < n ∧ j = c)) := by
  induction n with
  | zero => simp [h]
  | succ n ih =>
    obtain ⟨hw, hy, hx, hcell⟩ := ih (Nat.le_of_succ_le hn)
    rw [List.range_succ, List.foldl_append]
    simp only [List.foldl_cons, List.foldl_nil]
    refine ⟨flip_WF hw n c, by rw [flip_ySize, hy], by rw [flip_xSize, hx], fun i j => ?_⟩
    rw [cell_flip hw n c (by rw [hy]; exact hn) (by rw [hx]; exact hc), hcell,
      decide_succ_lt, Bool.xor_assoc]

/-- What `toggle r c` does to each cell, as the exclusive or of its three passes. -/
theorem toggle_spec {s : SecureBox} (h : s.WF) (r c : Nat) (hr : r < s.ySize)
    (hc : c < s.xSize) :
    (s.toggle r c).WF ∧ (s.toggle r c).ySize = s.ySize ∧ (s.toggle r c).xSize = s.xSize ∧
    ∀ i j, (s.toggle r c).cell i j = (s.cell i j ^^ s.passes r c i j) := by
  have h1 := flip_WF h r c
  obtain ⟨hw2, hy2, hx2, hc2⟩ :=
    rowLoop_spec h1 r hr (s.flip r c).xSize (Nat.le_refl _)
  obtain ⟨hw3, hy3, hx3, hc3⟩ :=
    colLoop_spec hw2 c (by rw [hx2]; exact hc)
      ((List.range (s.flip r c).xSize).foldl (fun b i => b.flip r i) (s.flip r c)).ySize
      (Nat.le_refl _)
  unfold toggle
  simp only
  refine ⟨hw3, by rw [hy3, hy2, flip_ySize], by rw [hx3, hx2, flip_xSize], fun i j => ?_⟩
  rw [hc3, hc2, cell_flip h r c hr hc, hy2, flip_ySize, flip_xSize]
  unfold passes
  simp only [Bool.xor_assoc]

theorem passes_inside (s : SecureBox) (r c i j : Nat) (hi : i < s.ySize) (hj : j < s.xSize) :
    s.passes r c i j = decide (i = r ∨ j = c) := by
  unfold passes
  by_cases h1 : i = r
  · subst h1
    by_cases h2 : j = c
    · subst h2
      simp [hi, hj]
    · simp [h2, hj]
  · by_cases h2 : j = c
    · subst h2
      simp [h1, hi]
    · simp [h1, h2]

/-- Inside the grid the three passes amount to one flip of the row and column. -/
theorem toggle_cell {s : SecureBox} (h : s.WF) (r c : Nat) (hr : r < s.ySize)
    (hc : c < s.xSize) (i j : Nat) (hi : i < s.ySize) (hj : j < s.xSize) :
    (s.toggle r c).cell i j = (s.cell i j ^^ decide (i = r ∨ j = c)) := by
  rw [(toggle_spec h r c hr hc).2.2.2 i j, passes_inside s r c i j hi hj]

theorem ext_cells {s t : SecureBox} (hs : s.WF) (ht : t.WF) (hy : s.ySize = t.ySize)
    (hx : s.xSize = t.xSize)
    (h : ∀ i j, i < s.ySize → j < s.xSize → s.cell i j = t.cell i j) : s = t := by
  cases s with
  | mk b1 y1 x1 =>
    cases t with
    | mk b2 y2 x2 =>
      simp only at hy hx
      subst hy hx
      have hb : b1 = b2 := Shaped.ext false hs ht h
      rw [hb]

theorem toggle_toggle_cell {s : SecureBox} (h : s.WF) (r c p q : Nat) (hr : r < s.ySize)
    (hc : c < s.xSize) (hp : p < s.ySize) (hq : q < s.xSize) (i j : Nat) :
    ((s.toggle r c).toggle p q).cell i j =
      ((s.cell i j ^^ s.passes r c i j) ^^ s.passes p q i j) := by
  obtain ⟨hw, hy, hx, hcell⟩ := toggle_spec h r c hr hc
  rw [(toggle_spec hw p q (by rw [hy]; exact hp) (by rw [hx]; exact hq)).2.2.2 i j, hcell]
  unfold passes
  rw [hy, hx]

theorem toggle_toggle_WF {s : SecureBox} (h : s.WF) (r c p q : Nat) (hr : r < s.ySize)
    (hc : c < s.xSize) (hp : p < s.ySize) (hq : q < s.xSize) :
    ((s.toggle r c).toggle p q).WF ∧ ((s.toggle r c).toggle p q).ySize = s.ySize ∧
      ((s.toggle r c).toggle p q).xSize = s.xSize := by
  obtain ⟨hw, hy, hx, _⟩ := toggle_spec h r c hr hc
  obtain ⟨hw2, hy2, hx2, _⟩ := toggle_spec hw p q (by rw [hy]; exact hp) (by rw [hx]; exact hq)
  exact ⟨hw2, hy2.trans hy, hx2.trans hx⟩

theorem toggle_twice {s : SecureBox} (h : s.WF) (r c : Nat) (hr : r < s.ySize)
    (hc : c < s.xSize) : (s.toggle r c).toggle r c = s := by
  obtain ⟨hw, hy, hx⟩ := toggle_toggle_WF h r c r c hr hc hr hc
  apply ext_cells hw h hy hx
  intro i j _ _
  rw [toggle_toggle_cell h r c r c hr hc hr hc, Bool.xor_assoc, Bool.xor_self, Bool.xor_false]

theorem toggle_comm {s : SecureBox} (h : s.WF) (r c p q : Nat) (hr : r < s.ySize)
    (hc : c < s.xSize) (hp : p < s.ySize) (hq : q < s.xSize) :
    (s.toggle r c).toggle p q = (s.toggle p q).toggle r c := by
  obtain ⟨hw, hy, hx⟩ := toggle_toggle_WF h r c p q hr hc hp hq
  obtain ⟨hw2, hy2, hx2⟩ := toggle_toggle_WF h p q r c hp hq hr hc
  apply ext_cells hw hw2 (hy.trans hy2.symm) (hx.trans hx2.symm)
  intro i j _ _
  rw [toggle_toggle_cell h r c p q hr hc hp hq, toggle_toggle_cell h p q r c hp hq hr hc,
    Bool.xor_assoc, Bool.xor_assoc, Bool.xor_comm (s.passes r c i j)]

/-- A list of toggle positions, applied in order. -/
theorem toggles_WF {s : SecureBox} (h : s.WF) (l : List (Nat × Nat))
    (hl : ∀ p ∈ l, p.1 < s.ySize ∧ p.2 < s.xSize) :
    (l.foldl (fun b p => b.toggle p.1 p.2) s).WF ∧
    (l.foldl (fun b p => b.toggle p.1 p.2) s).ySize = s.ySize ∧
    (l.foldl (fun b p => b.toggle p.1 p.2) s).xSize = s.xSize := by
  induction l generalizing s with
  | nil => exact ⟨h, rfl, rfl⟩
  | cons a l ih =>
    have ha := hl a (List.mem_cons_self a l)
    obtain ⟨hw, hy, hx, _⟩ := toggle_spec h a.1 a.2 ha.1 ha.2
    have := ih hw (fun p hp => by
      rw [hy, hx]; exact hl p (List.mem_cons_of_mem a hp))
    simp only [List.foldl_cons]
    exact ⟨this.1, this.2.1.trans hy, this.2.2.trans hx⟩

theorem toggles_perm {l1 l2 : List (Nat × Nat)} (hperm : l1.Perm l2) :
    ∀ (s : SecureBox), s.WF → (∀ p ∈ l1, p.1 < s.ySize ∧ p.2 < s.xSize) →
      l1.foldl (fun b p => b.toggle p.1 p.2) s = l2.foldl (fun b p => b.toggle p.1 p.2) s := by
  induction hperm with
  | nil => intro s _ _; rfl
  | cons a _ ih =>
    intro s h hl
    have ha := hl a (List.mem_cons_self a _)
    obtain ⟨hw, hy, hx, _⟩ := toggle_spec h a.1 a.2 ha.1 ha.2
    simp only [List.foldl_cons]
    exact ih _ hw (fun p hp => by rw [hy, hx]; exact hl p (List.mem_cons_of_mem a hp))
  | swap a b l =>
    intro s h hl
    have ha := hl a (by simp)
    have hb := hl b (by simp)
    simp only [List.foldl_cons]
    rw [toggle_comm h b.1 b.2 a.1 a.2 hb.1 hb.2 ha.1 ha.2]
  | trans h12 _ ih1 ih2 =>
    intro s h hl
    rw [ih1 s h hl]
    exact ih2 s h (fun p hp => hl p (h12.mem_iff.mpr hp))

end SecureBox

/-! ## Loops as folds: the invariant rule -/

/-- A loop over `0 .. n-1` establishes `P n` when `P 0` holds at entry and the
body takes `P k` to `P (k + 1)`. -/
theorem foldl_range_inv {β : Type} (f : β → Nat → β) (P : Nat → β → Prop) (b0 : β)
    (n : Nat) (h0 : P 0 b0) (hstep : ∀ k b, k < n → P k b → P (k + 1) (f b k)) :
    P n ((List.range n).foldl f b0) := by
  have key : ∀ m, m ≤ n → P m ((List.range m).foldl f b0) := by
    intro m
    induction m with
    | zero => intro _; exact h0
    | succ m ih =>
      intro hm
      rw [List.range_succ, List.foldl_append]
      exact hstep m _ hm (ih (Nat.le_of_succ_le hm))
  exact key n (Nat.le_refl n)

/-! ## The encoder -/

theorem set2_idem {α : Type} (A : List (List α)) (i j : Nat) (v : α) :
    set2 (set2 A i j v) i j v = set2 A i j v := by
  unfold set2
  rw [List.set_set, getD_set_eq]
  by_cases hi : i < A.length
  · rw [if_pos ⟨rfl, hi⟩, List.set_set]
  · rw [if_neg (fun h => hi h.2)]

/-- The condition under which the encoder stores a `1` at `(i, j)`. -/
theorem encodeEntry_eq (x i j : Nat) (A : List (List Nat)) :
    encodeEntry x i A j =
      if i = j ∨ j / x = i / x ∨ j % x = i % x then set2 A i j 1 else A := by
  unfold encodeEntry
  by_cases h1 : i = j <;> by_cases h2 : j / x = i / x <;> by_cases h3 : j % x = i % x <;>
    simp only [h1, h2, h3, if_true, if_false, true_or, or_true, or_self, set2_idem]

theorem encodeEntry_spec (x i j n : Nat) (A : List (List Nat)) (hA : Shaped A n n)
    (hi : i < n) (hj : j < n) :
    Shaped (encodeEntry x i A j) n n ∧
    ∀ a b, get2 0 (encodeEntry x i A j) a b =
      if a = i ∧ b = j ∧ (i = j ∨ j / x = i / x ∨ j % x = i % x) then 1 else get2 0 A a b := by
  rw [encodeEntry_eq]
  by_cases hc : i = j ∨ j / x = i / x ∨ j % x = i % x
  · rw [if_pos hc]
    refine ⟨hA.set2 i j 1, fun a b => ?_⟩
    rw [get2_set2]
    have h1 : i < A.length := by rw [hA.1]; exact hi
    have h2 : j < (A.getD i []).length := by rw [hA.2 i hi]; exact hj
    by_cases hab : a = i ∧ b = j
    · rw [if_pos ⟨hab.1, hab.2, h1, h2⟩, if_pos ⟨hab.1, hab.2, hc⟩]
    · rw [if_neg (fun h => hab ⟨h.1, h.2.1⟩), if_neg (fun h => hab ⟨h.1, h.2.1⟩)]
  · rw [if_neg hc]
    refine ⟨hA, fun a b => ?_⟩
    rw [if_neg (fun h => hc h.2.2)]

/-- The inner encoder loop on the row `i`. -/
theorem encodeInner_spec (x i n : Nat) (A : List (List Nat)) (hA : Shaped A n n)
    (hi : i < n) :
    Shaped ((List.range n).foldl (encodeEntry x i) A) n n ∧
    ∀ a b, get2 0 ((List.range n).foldl (encodeEntry x i) A) a b =
      if a = i ∧ b < n ∧ (i = b ∨ b / x = i / x ∨ b % x = i % x) then 1 else get2 0 A a b := by
  refine foldl_range_inv (encodeEntry x i)
    (fun m M => Shaped M n n ∧ ∀ a b, get2 0 M a b =
      if a = i ∧ b < m ∧ (i = b ∨ b / x = i / x ∨ b % x = i % x) then 1 else get2 0 A a b)
    A n ⟨hA, fun a b => by simp⟩ ?_
  intro k M hk ⟨hM, hcell⟩
  obtain ⟨hM2, hcell2⟩ := encodeEntry_spec x i k n M hM hi hk
  refine ⟨hM2, fun a b => ?_⟩
  rw [hcell2, hcell]
  by_cases ha : a = i
  · subst ha
    rcases Nat.lt_trichotomy b k with hb | hb | hb
    · have h1 : b ≠ k := by omega
      have h2 : b < k + 1 := by omega
      simp [h1, h2, hb]
    · subst hb
      simp
    · have h1 : b ≠ k := by omega
      have h2 : ¬ b < k + 1 := by omega
      have h3 : ¬ b < k := by omega
      simp [h1, h2, h3]
  · simp [ha]

theorem getD_replicate {α : Type} (n : Nat) (a d : α) (i : Nat) :
    (List.replicate n a).getD i d = if i < n then a else d := by
  by_cases hi : i < n
  · rw [if_pos hi, List.getD_eq_getElem _ _ (by simpa using hi)]
    simp
  · rw [if_neg hi, List.getD_eq_default _ _ (by simpa using hi)]

theorem shaped_replicate {α : Type} (y x : Nat) (a : α) :
    Shaped (List.replicate y (List.replicate x a)) y x := by
  refine ⟨by simp, fun i hi => ?_⟩
  rw [getD_replicate, if_pos hi]
  simp

theorem get2_replicate {α : Type} (y x : Nat) (a : α) (i j : Nat) :
    get2 a (List.replicate y (List.replicate x a)) i j = a := by
  unfold get2
  rw [getD_replicate]
  by_cases hi : i < y
  · rw [if_pos hi, getD_replicate]
    by_cases hj : j < x
    · rw [if_pos hj]
    · rw [if_neg hj]
  · rw [if_neg hi]
    rfl

/-- The encoder loop: the matrix and the vector it builds, entry by entry. -/
theorem encode_spec (n x : Nat) (state : List (List Bool)) :
    Shaped (encodeRows n x state).1 n n ∧ (encodeRows n x state).2.length = n ∧
    (∀ a b, get2 0 (encodeRows n x state).1 a b =
      if a < n ∧ b < n then affectsBit x a b else 0) ∧
    (∀ a, (encodeRows n x state).2.getD a 0 = if a < n then lockedBit x state a else 0) := by
  unfold encodeRows
  refine foldl_range_inv (encodeRow n x state)
    (fun m AB => Shaped AB.1 n n ∧ AB.2.length = n ∧
      (∀ a b, get2 0 AB.1 a b = if a < m ∧ b < n then affectsBit x a b else 0) ∧
      (∀ a, AB.2.getD a 0 = if a < m then lockedBit x state a else 0))
    _ n ⟨shaped_replicate n n 0, by simp, fun a b => by simp [get2_replicate],
      fun a => ?_⟩ ?_
  · by_cases ha : a < n
    · rw [List.getD_eq_getElem _ _ (by simpa using ha)]
      simp
    · rw [List.getD_eq_default _ _ (by simpa using ha)]
      simp
  · intro k AB hk ⟨hA, hB, hcell, hvec⟩
    obtain ⟨hA2, hcell2⟩ := encodeInner_spec x k n AB.1 hA hk
    unfold encodeRow
    refine ⟨hA2, by simp [hB], fun a b => ?_, fun a => ?_⟩
    · simp only
      rw [hcell2, hcell]
      unfold affectsBit
      rcases Nat.lt_trichotomy a k with h | h | h
      · have h1 : a ≠ k := by omega
        have h2 : a < k + 1 := by omega
        simp [h1, h2, h]
      · subst h
        by_cases hb : b < n <;> simp [hb]
      · have h1 : a ≠ k := by omega
        have h2 : ¬ a < k + 1 := by omega
        have h3 : ¬ a < k := by omega
        simp [h1, h2, h3]
    · simp only
      rw [getD_set_eq, hvec]
      unfold lockedBit
      rcases Nat.lt_trichotomy a k with h | h | h
      · have h1 : a ≠ k := by omega
        have h2 : a < k + 1 := by omega
        simp [h1, h2, h]
      · subst h
        simp [hB, hk]
      · have h1 : a ≠ k := by omega
        have h2 : ¬ a < k + 1 := by omega
        have h3 : ¬ a < k := by omega
        simp [h1, h2, h3]

/-! ## The elimination: row operations -/

theorem xor_bit_lt {a b : Nat} (ha : a < 2) (hb : b < 2) : a ^^^ b < 2 := by
  interval_cases a <;> interval_cases b <;> decide

theorem xor_mul_mod2 {a b : Nat} (ha : a < 2) (hb : b < 2) (c : Nat) :
    ((a ^^^ b) * c) % 2 = (a * c + b * c) % 2 := by
  interval_cases a <;> interval_cases b <;> simp
  omega

theorem xor_bit_mod2 {a b : Nat} (ha : a < 2) (hb : b < 2) : a ^^^ b = (a + b) % 2 := by
  interval_cases a <;> interval_cases b <;> decide

/-- The innermost loop replaces the row `i` by its entrywise exclusive or with
the row `row`. -/
theorem xorRow_spec (n i row : Nat) (A : List (List Nat)) (hA : Shaped A n n) (hi : i < n)
    (hne : i ≠ row) :
    Shaped (xorRow n A i row) n n ∧
    ∀ a b, get2 0 (xorRow n A i row) a b =
      if a = i ∧ b < n then get2 0 A i b ^^^ get2 0 A row b else get2 0 A a b := by
  unfold xorRow
  refine foldl_range_inv (fun M j => set2 M i j (get2 0 M i j ^^^ get2 0 M row j))
    (fun m M => Shaped M n n ∧ ∀ a b, get2 0 M a b =
      if a = i ∧ b < m then get2 0 A i b ^^^ get2 0 A row b else get2 0 A a b)
    A n ⟨hA, fun a b => by simp⟩ ?_
  intro k M hk ⟨hM, hcell⟩
  refine ⟨hM.set2 i k _, fun a b => ?_⟩
  have h1 : i < M.length := by rw [hM.1]; exact hi
  have h2 : k < (M.getD i []).length := by rw [hM.2 i hi]; exact hk
  have e1 : get2 0 M i k = get2 0 A i k := by
    rw [hcell, if_neg (fun h => Nat.lt_irrefl k h.2)]
  have e2 : get2 0 M row k = get2 0 A row k := by
    rw [hcell, if_neg (fun h => hne h.1.symm)]
  rw [get2_set2, e1, e2, hcell]
  by_cases ha : a = i
  · subst ha
    rcases Nat.lt_trichotomy b k with hb | hb | hb
    · have h3 : b ≠ k := by omega
      have h4 : b < k + 1 := by omega
      simp [h3, h4, hb]
    · subst hb
      rw [if_pos ⟨rfl, rfl, h1, h2⟩, if_pos ⟨rfl, Nat.lt_succ_self _⟩]
    · have h3 : b ≠ k := by omega
      have h4 : ¬ b < k + 1 := by omega
      have h5 : ¬ b < k := by omega
      simp [h3, h4, h5]
  · simp [ha]

/-- The elimination loop adds the pivot row to every other row that has a
nonzero entry in the pivot column, and to no other row. -/
theorem eliminate_spec (n col row : Nat) (s : Sys) (hA : Shaped s.A n n)
    (hB : s.B.length = n) :
    Shaped (eliminate n col row s).A n n ∧ (eliminate n col row s).B.length = n ∧
    (∀ a b, get2 0 (eliminate n col row s).A a b =
      if a < n ∧ elimHit s col row a ∧ b < n then get2 0 s.A a b ^^^ get2 0 s.A row b
      else get2 0 s.A a b) ∧
    (∀ a, (eliminate n col row s).B.getD a 0 =
      if a < n ∧ elimHit s col row a then s.B.getD a 0 ^^^ s.B.getD row 0
      else s.B.getD a 0) := by
  unfold eliminate
  refine foldl_range_inv (eliminateStep n col row)
    (fun m t => Shaped t.A n n ∧ t.B.length = n ∧
      (∀ a b, get2 0 t.A a b =
        if a < m ∧ elimHit s col row a ∧ b < n then get2 0 s.A a b ^^^ get2 0 s.A row b
        else get2 0 s.A a b) ∧
      (∀ a, t.B.getD a 0 =
        if a < m ∧ elimHit s col row a then s.B.getD a 0 ^^^ s.B.getD row 0
        else s.B.getD a 0))
    s n ⟨hA, hB, fun a b => by simp, fun a => by simp⟩ ?_
  intro k t hk ⟨htA, htB, hcell, hvec⟩
  have ek : ∀ b, get2 0 t.A k b = get2 0 s.A k b := fun b => by
    rw [hcell, if_neg (fun h => Nat.lt_irrefl k h.1)]
  have er : ∀ b, get2 0 t.A row b = get2 0 s.A row b := fun b => by
    rw [hcell, if_neg (fun h => h.2.1.1 rfl)]
  have ebk : t.B.getD k 0 = s.B.getD k 0 := by
    rw [hvec, if_neg (fun h => Nat.lt_irrefl k h.1)]
  have ebr : t.B.getD row 0 = s.B.getD row 0 := by
    rw [hvec, if_neg (fun h => h.2.1 rfl)]
  unfold eliminateStep
  by_cases hit : k ≠ row ∧ get2 0 t.A k col ≠ 0
  · have hit2 : elimHit s col row k := ⟨hit.1, by rw [← ek]; exact hit.2⟩
    rw [if_pos hit]
    obtain ⟨hx, hxc⟩ := xorRow_spec n k row t.A htA hk hit.1
    refine ⟨hx, by simp [htB], fun a b => ?_, fun a => ?_⟩
    · simp only
      rw [hxc, ek, er, hcell]
      rcases Nat.lt_trichotomy a k with h | h | h
      · have h3 : a ≠ k := by omega
        have h4 : a < k + 1 := by omega
        simp [h3, h4, h]
      · subst h
        by_cases hb : b < n <;> simp [hb, hit2]
      · have h3 : a ≠ k := by omega
        have h4 : ¬ a < k + 1 := by omega
        have h5 : ¬ a < k := by omega
        simp [h3, h4, h5]
    · simp only
      rw [getD_set_eq, ebk, ebr, hvec]
      rcases Nat.lt_trichotomy a k with h | h | h
      · have h3 : a ≠ k := by omega
        have h4 : a < k + 1 := by omega
        simp [h3, h4, h]
      · subst h
        simp [htB, hk, hit2]
      · have h3 : a ≠ k := by omega
        have h4 : ¬ a < k + 1 := by omega
        have h5 : ¬ a < k := by omega
        simp [h3, h4, h5]
  · have hit2 : ¬ elimHit s col row k := fun h => hit ⟨h.1, by rw [ek]; exact h.2⟩
    rw [if_neg hit]
    refine ⟨htA, htB, fun a b => ?_, fun a => ?_⟩
    · rw [hcell]
      rcases Nat.lt_trichotomy a k with h | h | h
      · have h4 : a < k + 1 := by omega
        simp [h4, h]
      · subst h
        simp [hit2]
      · have h4 : ¬ a < k + 1 := by omega
        have h5 : ¬ a < k := by omega
        simp [h4, h5]
    · rw [hvec]
      rcases Nat.lt_trichotomy a k with h | h | h
      · have h4 : a < k + 1 := by omega
        simp [h4, h]
      · subst h
        simp [hit2]
      · have h4 : ¬ a < k + 1 := by omega
        have h5 : ¬ a < k := by omega
        simp [h4, h5]

/-! ## Sums over `0 .. n-1` and the product over GF(2) -/

theorem sum_range_congr (f g : Nat → Nat) (n : Nat) (h : ∀ k, k < n → f k = g k) :
    ((List.range n).map f).sum = ((List.range n).map g).sum := by
  congr 1
  apply List.map_congr_left
  intro k hk
  exact h k (List.mem_range.mp hk)

theorem sum_range_zero (f : Nat → Nat) (n : Nat) (h : ∀ k, k < n → f k = 0) :
    ((List.range n).map f).sum = 0 := by
  induction n with
  | zero => simp
  | succ n ih =>
    rw [List.sum_range_succ, ih (fun k hk => h k (Nat.lt_succ_of_lt hk)),
      h n (Nat.lt_succ_self n)]

theorem sum_range_single (f : Nat → Nat) (n i : Nat) (hi : i < n)
    (h : ∀ k, k < n → k ≠ i → f k = 0) : ((List.range n).map f).sum = f i := by
  induction n with
  | zero => exact absurd hi (Nat.not_lt_zero i)
  | succ n ih =>
    rw [List.sum_range_succ]
    by_cases hin : i = n
    · subst hin
      rw [sum_range_zero f i (fun k hk => h k (Nat.lt_succ_of_lt hk) (Nat.ne_of_lt hk))]
      simp
    · have hlt : i < n := by omega
      rw [ih hlt (fun k hk hne => h k (Nat.lt_succ_of_lt hk) hne),
        h n (Nat.lt_succ_self n) (fun e => hin e.symm)]
      simp

theorem sum_range_mod2_add (f g h : Nat → Nat) (n : Nat)
    (hk : ∀ k, k < n → f k % 2 = (g k + h k) % 2) :
    ((List.range n).map f).sum % 2 =
      (((List.range n).map g).sum + ((List.range n).map h).sum) % 2 := by
  induction n with
  | zero => simp
  | succ n ih =>
    have ih2 := ih (fun k hlt => hk k (Nat.lt_succ_of_lt hlt))
    have h3 := hk n (Nat.lt_succ_self n)
    rw [List.sum_range_succ, List.sum_range_succ, List.sum_range_succ]
    omega

theorem dot2_lt (n : Nat) (r X : List Nat) : dot2 n r X < 2 := by
  unfold dot2
  omega

theorem dot2_congr (n : Nat) (r1 r2 X : List Nat)
    (h : ∀ k, k < n → r1.getD k 0 = r2.getD k 0) : dot2 n r1 X = dot2 n r2 X := by
  unfold dot2
  rw [sum_range_congr _ _ n (fun k hk => by rw [h k hk])]

/-- The product with the exclusive or of two rows of bits. -/
theorem dot2_xor (n : Nat) (r1 r2 r3 X : List Nat) (h1 : ∀ k, k < n → r1.getD k 0 < 2)
    (h2 : ∀ k, k < n → r2.getD k 0 < 2)
    (h : ∀ k, k < n → r3.getD k 0 = r1.getD k 0 ^^^ r2.getD k 0) :
    dot2 n r3 X = (dot2 n r1 X + dot2 n r2 X) % 2 := by
  unfold dot2
  rw [sum_range_mod2_add _ (fun k => r1.getD k 0 * X.getD k 0)
    (fun k => r2.getD k 0 * X.getD k 0) n
    (fun k hk => by rw [h k hk]; exact xor_mul_mod2 (h1 k hk) (h2 k hk) _)]
  omega

/-- The product with the row `i` of the identity matrix. -/
theorem dot2_unit (n i : Nat) (r X : List Nat) (hi : i < n)
    (h : ∀ k, k < n → r.getD k 0 = if i = k then 1 else 0) :
    dot2 n r X = X.getD i 0 % 2 := by
  unfold dot2
  rw [sum_range_single _ n i hi (fun k hk hne => by
    rw [h k hk, if_neg (fun e => hne e.symm)]; simp), h i hi]
  simp

/-! ## The elimination: the pivot search -/

theorem getD_swapAt {α : Type} (d : α) (v : List α) (i k a : Nat) (hi : i < v.length)
    (hk : k < v.length) : (swapAt d v i k).getD a d = v.getD (swapIdx i k a) d := by
  unfold swapAt swapIdx
  rw [getD_set_eq, getD_set_eq]
  by_cases h1 : a = k
  · rw [if_pos ⟨h1, by rw [List.length_set]; exact hk⟩, if_pos h1]
  · rw [if_neg (fun h => h1 h.1), if_neg h1]
    by_cases h2 : a = i
    · rw [if_pos ⟨h2, hi⟩, if_pos h2]
    · rw [if_neg (fun h => h2 h.1), if_neg h2]

theorem length_swapAt {α : Type} (d : α) (v : List α) (i k : Nat) :
    (swapAt d v i k).length = v.length := by
  simp [swapAt]

theorem swapIdx_lt {n i k a : Nat} (hi : i < n) (hk : k < n) (ha : a < n) :
    swapIdx i k a < n := by
  unfold swapIdx
  split
  · exact hi
  · split
    · exact hk
    · exact ha

theorem swapIdx_swapIdx (i k a : Nat) : swapIdx i k (swapIdx i k a) = a := by
  unfold swapIdx
  by_cases h1 : a = k
  · by_cases h2 : i = k
    · simp [h1, h2]
    · simp [h1, h2]
  · by_cases h2 : a = i
    · simp [h1, h2]
    · simp [h1, h2]

/-- The pivot search either finds no nonzero entry in the rows `row .. n-1` of
the column and changes nothing, or swaps one such row into the place `row`. -/
theorem pivotSearch_cases (n col row : Nat) (s : Sys) :
    (pivotSearch n col row s = s ∧ ∀ i, row ≤ i → i < n → get2 0 s.A i col = 0) ∨
    (∃ i, row ≤ i ∧ i < n ∧ get2 0 s.A i col ≠ 0 ∧
      pivotSearch n col row s = { A := swapAt [] s.A i row, B := swapAt 0 s.B i row }) := by
  unfold pivotSearch
  cases h : (List.range' row (n - row)).find? (fun i => get2 0 s.A i col != 0) with
  | none =>
    left
    refine ⟨rfl, fun i hi hin => ?_⟩
    have := List.find?_eq_none.mp h i (List.mem_range'_1.mpr ⟨hi, by omega⟩)
    simpa using this
  | some i =>
    right
    have hp := List.find?_some h
    have hm := List.mem_of_find?_eq_some h
    rw [List.mem_range'_1] at hm
    exact ⟨i, hm.1, by omega, by simpa using hp, rfl⟩

/-- The system after the swap of the rows `i` and `row`. -/
theorem swapSys_spec (n : Nat) (s : Sys) (hS : SquareBits n s) (i row : Nat) (hi : i < n)
    (hr : row < n) :
    SquareBits n { A := swapAt [] s.A i row, B := swapAt 0 s.B i row } ∧
    (∀ a b, get2 0 (swapAt [] s.A i row) a b = get2 0 s.A (swapIdx i row a) b) ∧
    (∀ a, (swapAt 0 s.B i row).getD a 0 = s.B.getD (swapIdx i row a) 0) ∧
    (∀ X, Solves n s X ↔
      Solves n { A := swapAt [] s.A i row, B := swapAt 0 s.B i row } X) := by
  obtain ⟨hA, hB, hbitA, hbitB⟩ := hS
  have hiA : i < s.A.length := by rw [hA.1]; exact hi
  have hrA : row < s.A.length := by rw [hA.1]; exact hr
  have hiB : i < s.B.length := by rw [hB]; exact hi
  have hrB : row < s.B.length := by rw [hB]; exact hr
  have eA : ∀ a, (swapAt [] s.A i row).getD a [] = s.A.getD (swapIdx i row a) [] :=
    fun a => getD_swapAt [] s.A i row a hiA hrA
  have eB : ∀ a, (swapAt 0 s.B i row).getD a 0 = s.B.getD (swapIdx i row a) 0 :=
    fun a => getD_swapAt 0 s.B i row a hiB hrB
  have eC : ∀ a b, get2 0 (swapAt [] s.A i row) a b = get2 0 s.A (swapIdx i row a) b :=
    fun a b => by unfold get2; rw [eA]
  refine ⟨⟨⟨?_, ?_⟩, ?_, ?_, ?_⟩, eC, eB, ?_⟩
  · rw [length_swapAt]; exact hA.1
  · intro a ha
    rw [eA]
    exact hA.2 _ (swapIdx_lt hi hr ha)
  · simp only
    rw [length_swapAt]; exact hB
  · intro a b
    simp only
    rw [eC]
    exact hbitA _ _
  · intro a
    simp only
    rw [eB]
    exact hbitB _
  · intro X
    constructor
    · intro h a ha
      simp only
      rw [eA, eB]
      exact h _ (swapIdx_lt hi hr ha)
    · intro h a ha
      have := h _ (swapIdx_lt hi hr ha)
      simp only at this
      rw [eA, eB, swapIdx_swapIdx] at this
      exact this

/-! ## The elimination: one pivot -/

theorem bit_ne_zero {a : Nat} (h : a < 2) (h0 : a ≠ 0) : a = 1 := by omega

/-- The system after the elimination loop for a pivot at `(row, col)`. -/
theorem eliminate_sys (n col row : Nat) (s : Sys) (hS : SquareBits n s) (hr : row < n)
    (hp : get2 0 s.A row col ≠ 0) :
    SquareBits n (eliminate n col row s) ∧
    (∀ X, Solves n s X ↔ Solves n (eliminate n col row s) X) ∧
    (∀ a, a < n → get2 0 (eliminate n col row s).A a col = if a = row then 1 else 0) ∧
    (∀ a b, get2 0 s.A row b = 0 →
      get2 0 (eliminate n col row s).A a b = get2 0 s.A a b) ∧
    (∀ b, get2 0 (eliminate n col row s).A row b = get2 0 s.A row b) := by
  obtain ⟨hA, hB, hbitA, hbitB⟩ := hS
  obtain ⟨hA2, hB2, hcell, hvec⟩ := eliminate_spec n col row s hA hB
  have hcoln : col < n := by
    by_contra hcon
    apply hp
    unfold get2
    rw [List.getD_eq_default _ _ (by rw [hA.2 row hr]; omega)]
  have hrow : ∀ b, get2 0 (eliminate n col row s).A row b = get2 0 s.A row b := fun b => by
    rw [hcell, if_neg (fun h => h.2.1.1 rfl)]
  have hBrow : (eliminate n col row s).B.getD row 0 = s.B.getD row 0 := by
    rw [hvec, if_neg (fun h => h.2.1 rfl)]
  have hdot : ∀ X a, a < n → dot2 n ((eliminate n col row s).A.getD a []) X =
      if elimHit s col row a then (dot2 n (s.A.getD a []) X + dot2 n (s.A.getD row []) X) % 2
      else dot2 n (s.A.getD a []) X := by
    intro X a ha
    by_cases hit : elimHit s col row a
    · rw [if_pos hit]
      apply dot2_xor
      · intro k _; exact hbitA a k
      · intro k _; exact hbitA row k
      · intro k hk
        have := hcell a k
        rw [if_pos ⟨ha, hit, hk⟩] at this
        exact this
    · rw [if_neg hit]
      apply dot2_congr
      intro k _
      have := hcell a k
      rw [if_neg (fun h => hit h.2.1)] at this
      exact this
  refine ⟨⟨hA2, hB2, fun a b => ?_, fun a => ?_⟩, fun X => ⟨fun h a ha => ?_, fun h => ?_⟩,
    fun a ha => ?_, fun a b hz => ?_, hrow⟩
  · rw [hcell]
    split
    · exact xor_bit_lt (hbitA a b) (hbitA row b)
    · exact hbitA a b
  · rw [hvec]
    split
    · exact xor_bit_lt (hbitB a) (hbitB row)
    · exact hbitB a
  · rw [hdot X a ha, hvec]
    by_cases hit : elimHit s col row a
    · rw [if_pos hit, if_pos ⟨ha, hit⟩, h a ha, h row hr,
        xor_bit_mod2 (hbitB a) (hbitB row)]
    · rw [if_neg hit, if_neg (fun hh => hit hh.2), h a ha]
  · have hpr : dot2 n (s.A.getD row []) X = s.B.getD row 0 := by
      have := h row hr
      rw [hdot X row hr, if_neg (fun hh => hh.1 rfl), hBrow] at this
      exact this
    intro a ha
    have := h a ha
    rw [hdot X a ha, hvec] at this
    by_cases hit : elimHit s col row a
    · rw [if_pos hit, if_pos ⟨ha, hit⟩, hpr, xor_bit_mod2 (hbitB a) (hbitB row)] at this
      have h1 := dot2_lt n (s.A.getD a []) X
      have h2 := hbitB a
      omega
    · rw [if_neg hit, if_neg (fun hh => hit hh.2)] at this
      exact this
  · rw [hcell]
    by_cases har : a = row
    · subst har
      rw [if_neg (fun h => h.2.1.1 rfl), if_pos rfl]
      exact bit_ne_zero (hbitA a col) hp
    · rw [if_neg har]
      by_cases hz : get2 0 s.A a col = 0
      · rw [if_neg (fun h => h.2.1.2 hz), hz]
      · rw [if_pos ⟨ha, ⟨har, hz⟩, hcoln⟩, bit_ne_zero (hbitA a col) hz,
          bit_ne_zero (hbitA row col) hp]
        decide
  · rw [hcell]
    split
    · rw [hz]
      simp
    · rfl

/-! ## The elimination: the loop invariant -/

theorem swapIdx_self (i k : Nat) : swapIdx i k k = i := by
  unfold swapIdx
  rw [if_pos rfl]

theorem swapIdx_ge {i k a : Nat} (hi : k ≤ i) (ha : k ≤ a) : k ≤ swapIdx i k a := by
  unfold swapIdx
  split
  · exact hi
  · split
    · exact Nat.le_refl k
    · exact ha

theorem swapIdx_eq_iff {i k a j : Nat} (hi : k ≤ i) (hj : j < k) :
    swapIdx i k a = j ↔ a = j := by
  unfold swapIdx
  split
  · omega
  · split
    · omega
    · exact Iff.rfl

/-- One iteration of the loop "Gaussian method" keeps the invariant. -/
theorem gaussStep_inv (n : Nat) (s0 : Sys) (col : Nat) (st : Nat × Sys) (hcol : col < n)
    (h : GInv n s0 col st) : GInv n s0 (col + 1) (gaussStep n st col) := by
  obtain ⟨hS, hsol, hle, hzero, hid⟩ := h
  have hrn : st.1 < n := Nat.lt_of_le_of_lt hle hcol
  unfold gaussStep
  rw [if_pos hrn]
  rcases pivotSearch_cases n col st.1 st.2 with ⟨heq, hnone⟩ | ⟨i, hri, hin, hne, heq⟩
  · simp only [heq]
    rw [if_pos (hnone st.1 (Nat.le_refl _) hrn)]
    refine ⟨hS, hsol, Nat.le_succ_of_le hle, fun a j ha han hj => ?_, fun hrc => ?_⟩
    · by_cases hjc : j = col
      · subst hjc
        exact hnone a ha han
      · exact hzero a j ha han (by omega)
    · simp only at hrc
      omega
  · simp only [heq]
    obtain ⟨hS1, hc1, _, hsol1⟩ := swapSys_spec n st.2 hS i st.1 hin hrn
    have hpiv : get2 0 (swapAt [] st.2.A i st.1) st.1 col ≠ 0 := by
      rw [hc1, swapIdx_self]
      exact hne
    rw [if_neg hpiv]
    obtain ⟨hS2, hsol2, hcolumn, hkeep, _⟩ :=
      eliminate_sys n col st.1 { A := swapAt [] st.2.A i st.1, B := swapAt 0 st.2.B i st.1 }
        hS1 hrn hpiv
    have hprow : ∀ j, j < col → get2 0 (swapAt [] st.2.A i st.1) st.1 j = 0 := by
      intro j hj
      rw [hc1, swapIdx_self]
      exact hzero i j hri hin hj
    refine ⟨hS2, fun X => (hsol X).trans ((hsol1 X).trans (hsol2 X)), Nat.succ_le_succ hle,
      fun a j ha han hj => ?_, fun hrc a j han hj => ?_⟩
    · simp only at ha
      by_cases hjc : j = col
      · subst hjc
        rw [hcolumn a han, if_neg (by omega)]
      · have hj2 : j < col := by omega
        rw [hkeep a j (hprow j hj2), hc1]
        exact hzero _ j (swapIdx_ge hri (by omega)) (swapIdx_lt hin hrn han) hj2
    · simp only at hrc
      have hrc2 : st.1 = col := by omega
      by_cases hjc : j = col
      · subst hjc
        rw [hcolumn a han, hrc2]
      · have hj2 : j < col := by omega
        rw [hkeep a j (hprow j hj2), hc1, hid hrc2 _ j (swapIdx_lt hin hrn han) hj2]
        have := @swapIdx_eq_iff i st.1 a j hri (by omega)
        simp only [this]

/-- The invariant holds when the loop "Gaussian method" ends. -/
theorem gauss_inv (n : Nat) (s0 : Sys) (hS : SquareBits n s0) : GInv n s0 n (gauss n s0) := by
  unfold gauss
  refine foldl_range_inv (gaussStep n) (fun m st => GInv n s0 m st) (0, s0) n
    ⟨hS, fun X => Iff.rfl, Nat.le_refl 0, fun i j _ _ hj => absurd hj (Nat.not_lt_zero j),
      fun _ i j _ hj => absurd hj (Nat.not_lt_zero j)⟩ ?_
  intro k st hk hinv
  exact gaussStep_inv n s0 k st hk hinv

/-! ## The extraction -/

theorem getD_lt_of_forall_mem (v : List Nat) (h : ∀ a ∈ v, a < 2) (k : Nat) :
    v.getD k 0 < 2 := by
  by_cases hk : k < v.length
  · rw [List.getD_eq_getElem _ _ hk]
    exact h _ (List.getElem_mem hk)
  · rw [List.getD_eq_default _ _ (Nat.le_of_not_lt hk)]
    decide

theorem IsSystem.squareBits {n : Nat} {s : Sys} (h : IsSystem n s) : SquareBits n s := by
  obtain ⟨hlen, hrows, hB, hbits⟩ := h
  refine ⟨⟨hlen, fun i hi => ?_⟩, hB, fun i j => ?_, getD_lt_of_forall_mem s.B hbits⟩
  · have hi2 : i < s.A.length := by rw [hlen]; exact hi
    rw [List.getD_eq_getElem _ _ hi2]
    exact (hrows _ (List.getElem_mem hi2)).1
  · unfold get2
    by_cases hi : i < s.A.length
    · rw [List.getD_eq_getElem _ _ hi]
      exact getD_lt_of_forall_mem _ (hrows _ (List.getElem_mem hi)).2 j
    · rw [List.getD_eq_default _ _ (Nat.le_of_not_lt hi)]
      simp

/-- The updates `X[i] = B[i]` of the extraction loop, over any list of indices. -/
theorem extractLoop_spec (s : Sys) (l : List Nat) :
    ∀ X : List Nat, (∀ i ∈ l, i < X.length) →
      (l.foldl (fun X i => if get2 0 s.A i i ≠ 0 then X.set i (s.B.getD i 0) else X) X).length
        = X.length ∧
      ∀ k, (l.foldl (fun X i => if get2 0 s.A i i ≠ 0 then X.set i (s.B.getD i 0) else X)
          X).getD k 0 =
        if k ∈ l ∧ get2 0 s.A k k ≠ 0 then s.B.getD k 0 else X.getD k 0 := by
  induction l with
  | nil => intro X _; simp
  | cons a l ih =>
    intro X hl
    simp only [List.foldl_cons]
    have ha : a < X.length := hl a (List.mem_cons_self a l)
    by_cases hd : get2 0 s.A a a ≠ 0
    · rw [if_pos hd]
      obtain ⟨h1, h2⟩ := ih (X.set a (s.B.getD a 0)) (fun i hi => by
        rw [List.length_set]; exact hl i (List.mem_cons_of_mem a hi))
      refine ⟨by rw [h1, List.length_set], fun k => ?_⟩
      rw [h2, getD_set_eq]
      by_cases hk : k = a
      · subst hk
        simp [hd, ha]
      · simp [hk]
    · rw [if_neg hd]
      obtain ⟨h1, h2⟩ := ih X (fun i hi => hl i (List.mem_cons_of_mem a hi))
      refine ⟨h1, fun k => ?_⟩
      rw [h2]
      by_cases hk : k = a
      · subst hk
        simp [hd]
      · simp [hk]

/-- The extraction loop runs at most `n` times. -/
theorem extractStart_le (n : Nat) : (extractStart n + 1).toNat ≤ n := by
  unfold extractStart
  simp only
  split <;> omega

/-- For `n` up to `2 ^ 31` the extraction loop runs `n` times, from `n - 1` down
to `0`. -/
theorem extractStart_count (n : Nat) (hn : n ≤ 2 ^ 31) : (extractStart n + 1).toNat = n := by
  unfold extractStart
  simp only
  split <;> omega

/-- For `n` above `2 ^ 31`, below `2 ^ 32`, the extraction loop does not run. -/
theorem extractStart_negative (n : Nat) (h1 : 2 ^ 31 < n) (h2 : n < 2 ^ 32) :
    (extractStart n + 1).toNat = 0 := by
  unfold extractStart
  simp only
  split <;> omega

/-- The vector the extraction loop leaves, whatever the size. -/
theorem extract_general (n : Nat) (s : Sys) :
    (extract n s).length = n ∧
    ∀ k, (extract n s).getD k 0 =
      if k < (extractStart n + 1).toNat ∧ get2 0 s.A k k ≠ 0 then s.B.getD k 0 else 0 := by
  unfold extract
  have hle := extractStart_le n
  obtain ⟨h1, h2⟩ := extractLoop_spec s (List.range (extractStart n + 1).toNat).reverse
    (List.replicate n 0) (fun i hi => by
      rw [List.length_replicate]
      exact Nat.lt_of_lt_of_le (List.mem_range.mp (List.mem_reverse.mp hi)) hle)
  refine ⟨by rw [h1]; simp, fun k => ?_⟩
  rw [h2, getD_replicate]
  simp only [List.mem_reverse, List.mem_range, ite_self]

/-- The vector the extraction loop leaves, for the sizes up to `2 ^ 31`. -/
theorem extract_spec (n : Nat) (s : Sys) (hn : n ≤ 2 ^ 31) :
    (extract n s).length = n ∧
    ∀ k, (extract n s).getD k 0 =
      if k < n ∧ get2 0 s.A k k ≠ 0 then s.B.getD k 0 else 0 := by
  obtain ⟨h1, h2⟩ := extract_general n s
  rw [extractStart_count n hn] at h2
  exact ⟨h1, h2⟩

/-- With a pivot in every column the reduced matrix is the identity. -/
theorem gauss_identity (n : Nat) (s0 : Sys) (hS : SquareBits n s0)
    (h : (gauss n s0).1 = n ∨ ∀ i, i < n → get2 0 (gauss n s0).2.A i i = 1) :
    (gauss n s0).1 = n ∧
    (∀ i j, i < n → j < n → get2 0 (gauss n s0).2.A i j = if i = j then 1 else 0) := by
  obtain ⟨_, _, hle, hzero, hid⟩ := gauss_inv n s0 hS
  have hrow : (gauss n s0).1 = n := by
    rcases h with h | h
    · exact h
    · by_contra hne
      have hlt : (gauss n s0).1 < n := by omega
      have h0 := hzero (n - 1) (n - 1) (by omega) (by omega) (by omega)
      have h1 := h (n - 1) (by omega)
      omega
  exact ⟨hrow, hid hrow⟩

/-- With a pivot in every column the reduced matrix is the identity and, for the
sizes up to `2 ^ 31`, the extracted vector solves the system the elimination
started from. -/
theorem gauss_full_rank (n : Nat) (s0 : Sys) (hS : SquareBits n s0) (hn : n ≤ 2 ^ 31)
    (h : (gauss n s0).1 = n ∨ ∀ i, i < n → get2 0 (gauss n s0).2.A i i = 1) :
    (gauss n s0).1 = n ∧
    (∀ i j, i < n → j < n → get2 0 (gauss n s0).2.A i j = if i = j then 1 else 0) ∧
    (∀ k, k < n → (extract n (gauss n s0).2).getD k 0 = (gauss n s0).2.B.getD k 0) ∧
    Solves n s0 (extract n (gauss n s0).2) := by
  obtain ⟨hS2, hsol, hle, hzero, hid⟩ := gauss_inv n s0 hS
  have hrow : (gauss n s0).1 = n := by
    rcases h with h | h
    · exact h
    · by_contra hne
      have hlt : (gauss n s0).1 < n := by omega
      have h0 := hzero (n - 1) (n - 1) (by omega) (by omega) (by omega)
      have h1 := h (n - 1) (by omega)
      omega
  have hI := hid hrow
  obtain ⟨_, hX⟩ := extract_spec n (gauss n s0).2 hn
  have hXB : ∀ k, k < n → (extract n (gauss n s0).2).getD k 0 = (gauss n s0).2.B.getD k 0 := by
    intro k hk
    rw [hX, if_pos ⟨hk, by rw [hI k k hk hk, if_pos rfl]; decide⟩]
  refine ⟨hrow, hI, hXB, (hsol _).mpr (fun i hi => ?_)⟩
  rw [dot2_unit n i _ _ hi (fun k hk => hI i k hi hk), hXB i hi]
  have := hS2.2.2.2 i
  omega

/-! ## Facts used by the statements on the encoder -/

/-- Up to `INT_MAX` the encoder's loops run to their end. -/
theorem encode_of_lt (n x : Nat) (state : List (List Bool)) (h : n < 2 ^ 31) :
    encode n x state = some (encodeRows n x state) := by
  unfold encode
  rw [if_pos h]

/-- Above `INT_MAX` a counter of the encoder overflows. -/
theorem encode_overflow (n x : Nat) (state : List (List Bool)) (h : 2 ^ 31 ≤ n) :
    encode n x state = none := by
  unfold encode
  rw [if_neg (Nat.not_lt.mpr h)]

/-- The plan, when `extendedMatrixSize` is at most `INT_MAX`. -/
theorem plan_of_lt (y x : Nat) (state : List (List Bool))
    (h : extendedMatrixSize y x < 2 ^ 31) :
    plan y x state = some (extract (extendedMatrixSize y x) (gauss (extendedMatrixSize y x)
      { A := (encodeRows (extendedMatrixSize y x) x state).1,
        B := (encodeRows (extendedMatrixSize y x) x state).2 }).2) := by
  unfold plan
  simp only
  rw [encode_of_lt _ x state h]

/-- There is no plan when `extendedMatrixSize` is above `INT_MAX`. -/
theorem plan_overflow (y x : Nat) (state : List (List Bool))
    (h : 2 ^ 31 ≤ extendedMatrixSize y x) : plan y x state = none := by
  unfold plan
  simp only
  rw [encode_overflow _ x state h]

theorem extendedMatrixSize_eq (y x : Nat) (hn : y * x < 2 ^ 32) :
    extendedMatrixSize y x = y * x := by
  unfold extendedMatrixSize
  rw [Nat.mul_comm x y, Nat.mod_eq_of_lt hn]

theorem affectsBit_eq_one (x i j : Nat) :
    affectsBit x i j = 1 ↔ (i / x = j / x ∨ i % x = j % x ∨ i = j) := by
  unfold affectsBit
  by_cases h : i = j ∨ j / x = i / x ∨ j % x = i % x
  · rw [if_pos h]
    simp only [true_iff]
    rcases h with h | h | h
    · exact Or.inr (Or.inr h)
    · exact Or.inl h.symm
    · exact Or.inr (Or.inl h.symm)
  · rw [if_neg h]
    simp only [Nat.zero_ne_one, false_iff]
    intro h2
    apply h
    rcases h2 with h2 | h2 | h2
    · exact Or.inr (Or.inl h2.symm)
    · exact Or.inr (Or.inr h2.symm)
    · exact Or.inl h2

theorem affectsBit_lt (x i j : Nat) : affectsBit x i j < 2 := by
  unfold affectsBit
  split <;> decide

theorem affectsBit_symm (x i j : Nat) : affectsBit x i j = affectsBit x j i := by
  have h1 := affectsBit_eq_one x i j
  have h2 := affectsBit_eq_one x j i
  have h3 := affectsBit_lt x i j
  have h4 := affectsBit_lt x j i
  have h5 : (i / x = j / x ∨ i % x = j % x ∨ i = j) ↔ (j / x = i / x ∨ j % x = i % x ∨ j = i) := by
    constructor <;> (intro h; rcases h with h | h | h)
    · exact Or.inl h.symm
    · exact Or.inr (Or.inl h.symm)
    · exact Or.inr (Or.inr h.symm)
    · exact Or.inl h.symm
    · exact Or.inr (Or.inl h.symm)
    · exact Or.inr (Or.inr h.symm)
  by_cases h : affectsBit x i j = 1
  · rw [h, (h2.mpr (h5.mp (h1.mp h)))]
  · have h6 : ¬ affectsBit x j i = 1 := fun h7 => h (h1.mpr (h5.mpr (h2.mp h7)))
    omega

theorem lockedBit_eq_one (x : Nat) (state : List (List Bool)) (i : Nat) :
    lockedBit x state i = 1 ↔ get2 false state (i / x) (i % x) = true := by
  unfold lockedBit
  split <;> simp_all

theorem lockedBit_eq_zero (x : Nat) (state : List (List Bool)) (i : Nat) :
    lockedBit x state i = 0 ↔ get2 false state (i / x) (i % x) = false := by
  unfold lockedBit
  split <;> simp_all

/-! ## The plan applier -/

/-- A loop over `0 .. n-1` whose body may be undefined: it is defined and
establishes `P n` when `P 0` holds at entry and the body is defined under `P k`
and takes it to `P (k + 1)`. -/
theorem foldlM_range_inv {β : Type} (f : β → Nat → Option β) (P : Nat → β → Prop) (b0 : β)
    (n : Nat) (h0 : P 0 b0)
    (hstep : ∀ k b, k < n → P k b → ∃ b2, f b k = some b2 ∧ P (k + 1) b2) :
    ∃ b, (List.range n).foldlM f b0 = some b ∧ P n b := by
  have key : ∀ m, m ≤ n → ∃ b, (List.range m).foldlM f b0 = some b ∧ P m b := by
    intro m
    induction m with
    | zero => intro _; exact ⟨b0, rfl, h0⟩
    | succ m ih =>
      intro hm
      obtain ⟨b, hb, hP⟩ := ih (Nat.le_of_succ_le hm)
      obtain ⟨b2, hb2, hP2⟩ := hstep m b hm hP
      refine ⟨b2, ?_, hP2⟩
      rw [List.range_succ, List.foldlM_append, hb]
      simp [hb2]
  exact key n (Nat.le_refl n)

theorem get?_eq_some_getD (X : List Nat) (k : Nat) (h : k < X.length) :
    X.get? k = some (X.getD k 0) := by
  rw [List.get?_eq_getElem?, List.getElem?_eq_getElem h, List.getD_eq_getElem _ _ h]

theorem filter_map_range_succ {α : Type} (P : Nat → Bool) (g : Nat → α) (m : Nat) :
    ((List.range (m + 1)).filter P).map g =
      ((List.range m).filter P).map g ++ (if P m then [g m] else []) := by
  rw [List.range_succ, List.filter_append, List.map_append]
  congr 1
  by_cases h : P m <;> simp [List.filter_cons, h]

theorem SecureBox.toggles_append (s : SecureBox) (l1 l2 : List (Nat × Nat)) :
    s.toggles (l1 ++ l2) = (s.toggles l1).toggles l2 := by
  unfold SecureBox.toggles
  rw [List.foldl_append]

theorem flat_index_lt {y x i j : Nat} (hi : i < y) (hj : j < x) : i * x + j < y * x := by
  have h1 : (i + 1) * x ≤ y * x := Nat.mul_le_mul_right x hi
  rw [Nat.succ_mul] at h1
  omega

theorem flat_index_div {x i j : Nat} (hj : j < x) : (i * x + j) / x = i := by
  have hx : 0 < x := Nat.lt_of_le_of_lt (Nat.zero_le j) hj
  rw [Nat.mul_comm, Nat.mul_add_div hx, Nat.div_eq_of_lt hj, Nat.add_zero]

theorem flat_index_mod {x i j : Nat} (hj : j < x) : (i * x + j) % x = j := by
  rw [Nat.mul_comm, Nat.mul_add_mod, Nat.mod_eq_of_lt hj]

theorem step_calls (v : Nat) (b0 : SecureBox) (l0 l : List (Nat × Nat)) (p : Nat × Nat) :
    (if v ≠ 0 then ((b0.toggles l).toggle p.1 p.2, (l0 ++ l) ++ [p])
      else (b0.toggles l, l0 ++ l)) =
    (b0.toggles (l ++ if (v != 0) = true then [p] else []),
      l0 ++ (l ++ if (v != 0) = true then [p] else [])) := by
  by_cases hv : v = 0
  · subst hv
    simp
  · have h2 : (v != 0) = true := by simpa using hv
    rw [if_pos hv, if_pos h2, SecureBox.toggles_append, ← List.append_assoc]
    rfl

/-- The inner loop of "Solution" on the row `i`. -/
theorem applyInner_spec (y x : Nat) (X : List Nat) (i : Nat) (hi : i < y)
    (hlen : X.length = y * x) (hn : y * x ≤ 2 ^ 32) (acc : SecureBox × List (Nat × Nat)) :
    (List.range x).foldlM (fun acc j =>
      match X.get? ((i * x + j) % 2 ^ 32) with
      | none => none
      | some v => some (if v ≠ 0 then (acc.1.toggle i j, acc.2 ++ [(i, j)]) else acc)) acc
    = some (acc.1.toggles (rowCalls x X i x), acc.2 ++ rowCalls x X i x) := by
  obtain ⟨b, hb, hP⟩ := foldlM_range_inv (fun acc j =>
      match X.get? ((i * x + j) % 2 ^ 32) with
      | none => none
      | some v => some (if v ≠ 0 then (acc.1.toggle i j, acc.2 ++ [(i, j)]) else acc))
    (fun m b => b = (acc.1.toggles (rowCalls x X i m), acc.2 ++ rowCalls x X i m)) acc x
    (by simp [rowCalls, SecureBox.toggles]) (by
      intro k b hk hb
      have hlt : i * x + k < y * x := flat_index_lt hi hk
      have hmod : (i * x + k) % 2 ^ 32 = i * x + k := Nat.mod_eq_of_lt (by omega)
      simp only [hmod, get?_eq_some_getD X _ (by rw [hlen]; exact hlt)]
      refine ⟨_, rfl, ?_⟩
      subst hb
      unfold rowCalls
      rw [filter_map_range_succ]
      exact step_calls (X.getD (i * x + k) 0) acc.1 acc.2 _ (i, k))
  rw [hb, hP]

theorem planCalls_succ (x : Nat) (X : List Nat) (k : Nat) :
    planCalls x X ((k + 1) * x) = planCalls x X (k * x) ++ rowCalls x X k x := by
  unfold planCalls rowCalls
  rw [Nat.succ_mul, List.range_add, List.filter_append, List.map_append, List.filter_map,
    List.map_map]
  congr 1
  apply List.map_congr_left
  intro j hj
  have hjx : j < x := List.mem_range.mp (List.mem_of_mem_filter hj)
  simp only [Function.comp]
  rw [flat_index_div hjx, flat_index_mod hjx]

/-- The loop "Solution" is defined when the plan has one entry per cell and the
index does not wrap; it issues the calls of `planCalls`, in that order. -/
theorem applyPlan_spec (y x : Nat) (X : List Nat) (S : SecureBox) (hlen : X.length = y * x)
    (hn : y * x ≤ 2 ^ 32) :
    applyPlan y x X S = some (S.toggles (planCalls x X (y * x)), planCalls x X (y * x)) := by
  unfold applyPlan
  obtain ⟨b, hb, hP⟩ := foldlM_range_inv (fun acc i =>
      (List.range x).foldlM (fun acc j =>
        match X.get? ((i * x + j) % 2 ^ 32) with
        | none => none
        | some v => some (if v ≠ 0 then (acc.1.toggle i j, acc.2 ++ [(i, j)]) else acc)) acc)
    (fun m b => b = (S.toggles (planCalls x X (m * x)), planCalls x X (m * x))) (S, []) y
    (by simp [planCalls, SecureBox.toggles]) (by
      intro k b hk hb
      simp only
      rw [applyInner_spec y x X k hk hlen hn b]
      refine ⟨_, rfl, ?_⟩
      subst hb
      simp only
      rw [planCalls_succ, SecureBox.toggles_append])
  rw [hb, hP]

/-! ## The grid after a list of toggles -/

theorem SecureBox.toggles_shape {s : SecureBox} (h : s.WF) (l : List (Nat × Nat))
    (hl : s.Inside l) :
    (s.toggles l).WF ∧ (s.toggles l).ySize = s.ySize ∧ (s.toggles l).xSize = s.xSize :=
  SecureBox.toggles_WF h l hl

theorem parity_step (a : Bool) (Q : Prop) [Decidable Q] (n : Nat) :
    ((a ^^ decide Q) ^^ decide (n % 2 = 1)) =
      (a ^^ decide (((if Q then 1 else 0) + n) % 2 = 1)) := by
  rcases Nat.mod_two_eq_zero_or_one n with h | h
  · by_cases hQ : Q
    · have : (1 + n) % 2 = 1 := by omega
      simp [hQ, h, this]
    · simp [hQ, h]
  · by_cases hQ : Q
    · have : (1 + n) % 2 = 0 := by omega
      simp [hQ, h, this]
    · simp [hQ, h]

/-- A cell after a list of toggles: flipped once for each position of the list
in its row or in its column. -/
theorem SecureBox.toggles_cell (l : List (Nat × Nat)) :
    ∀ (s : SecureBox), s.WF → s.Inside l → ∀ r c, r < s.ySize → c < s.xSize →
      (s.toggles l).cell r c =
        (s.cell r c ^^
          decide ((l.map (fun p => if r = p.1 ∨ c = p.2 then 1 else 0)).sum % 2 = 1)) := by
  induction l with
  | nil => intro s _ _ r c _ _; simp [SecureBox.toggles]
  | cons p l ih =>
    intro s h hl r c hr hc
    have hp := hl p (List.mem_cons_self p l)
    obtain ⟨hw, hy, hx, _⟩ := SecureBox.toggle_spec h p.1 p.2 hp.1 hp.2
    have hl2 : (s.toggle p.1 p.2).Inside l := fun q hq => by
      rw [hy, hx]; exact hl q (List.mem_cons_of_mem p hq)
    have e : s.toggles (p :: l) = (s.toggle p.1 p.2).toggles l := rfl
    rw [e, ih _ hw hl2 r c (by rw [hy]; exact hr) (by rw [hx]; exact hc),
      SecureBox.toggle_cell h p.1 p.2 hp.1 hp.2 r c hr hc, List.map_cons, List.sum_cons]
    exact parity_step _ _ _

theorem sum_filter_map {α : Type} (l : List Nat) (P : Nat → Bool) (g : Nat → α)
    (f : α → Nat) :
    (((l.filter P).map g).map f).sum = (l.map (fun k => if P k then f (g k) else 0)).sum := by
  induction l with
  | nil => rfl
  | cons a l ih =>
    by_cases h : P a
    · rw [List.filter_cons, if_pos h]
      simp only [List.map_cons, List.sum_cons, h, if_true]
      rw [ih]
    · rw [List.filter_cons, if_neg h]
      simp only [List.map_cons, List.sum_cons, h]
      rw [ih]
      simp

theorem planCalls_inside (y x : Nat) (X : List Nat) (s : SecureBox) (hy : s.ySize = y)
    (hx : s.xSize = x) : s.Inside (planCalls x X (y * x)) := by
  intro p hp
  unfold planCalls at hp
  rw [List.mem_map] at hp
  obtain ⟨k, hk, rfl⟩ := hp
  have hk2 : k < y * x := List.mem_range.mp (List.mem_of_mem_filter hk)
  have hxpos : 0 < x := by
    rcases Nat.eq_zero_or_pos x with h | h
    · subst h; simp at hk2
    · exact h
  rw [hy, hx]
  exact ⟨Nat.div_lt_of_lt_mul (by rw [Nat.mul_comm]; exact hk2), Nat.mod_lt k hxpos⟩

theorem affectsBit_flat (x r c k : Nat) (hc : c < x) :
    affectsBit x (r * x + c) k = if r = k / x ∨ c = k % x then 1 else 0 := by
  unfold affectsBit
  rw [flat_index_div hc, flat_index_mod hc]
  by_cases h : r = k / x ∨ c = k % x
  · rw [if_pos h, if_pos]
    rcases h with h | h
    · exact Or.inr (Or.inl h.symm)
    · exact Or.inr (Or.inr h.symm)
  · rw [if_neg h, if_neg]
    intro h2
    apply h
    rcases h2 with h2 | h2 | h2
    · left
      rw [← h2, flat_index_div hc]
    · exact Or.inl h2.symm
    · exact Or.inr h2.symm

/-- The grid after the calls the plan asks for is the starting grid plus, over
GF(2), the product of the encoder's matrix and the plan. -/
theorem plan_cell (y x : Nat) (X : List Nat) (hbits : ∀ a ∈ X, a < 2) (S : SecureBox)
    (hwf : S.WF) (hSy : S.ySize = y) (hSx : S.xSize = x) (state : List (List Bool))
    (r c : Nat) (hr : r < y) (hc : c < x) :
    (S.toggles (planCalls x X (y * x))).cell r c =
      (S.cell r c ^^
        decide (dot2 (y * x) ((encodeRows (y * x) x state).1.getD (r * x + c) []) X = 1)) := by
  rw [SecureBox.toggles_cell _ S hwf (planCalls_inside y x X S hSy hSx) r c
    (by rw [hSy]; exact hr) (by rw [hSx]; exact hc)]
  congr 2
  unfold planCalls dot2
  rw [sum_filter_map]
  have key : ∀ k, k < y * x →
      (if (X.getD k 0 != 0) = true then (if r = (k / x, k % x).1 ∨ c = (k / x, k % x).2
        then 1 else 0) else 0) =
      ((encodeRows (y * x) x state).1.getD (r * x + c) []).getD k 0 * X.getD k 0 := by
    intro k hk
    obtain ⟨_, _, hcell, _⟩ := encode_spec (y * x) x state
    have e : ((encodeRows (y * x) x state).1.getD (r * x + c) []).getD k 0 =
        affectsBit x (r * x + c) k := by
      have := hcell (r * x + c) k
      rw [if_pos ⟨flat_index_lt hr hc, hk⟩] at this
      exact this
    rw [e, affectsBit_flat x r c k hc]
    have hb := getD_lt_of_forall_mem X hbits k
    by_cases hX : X.getD k 0 = 0
    · rw [hX]
      simp
    · have h1 : X.getD k 0 = 1 := by omega
      rw [h1]
      simp
  rw [sum_range_congr _ _ (y * x) key]

theorem planCalls_eq_of_bits (x : Nat) (X : List Nat) (hbits : ∀ a ∈ X, a < 2) (N : Nat) :
    planCalls x X N =
      ((List.range N).filter (fun k => decide (X.getD k 0 = 1))).map
        (fun k => (k / x, k % x)) := by
  unfold planCalls
  congr 1
  apply List.filter_congr
  intro k _
  have hb := getD_lt_of_forall_mem X hbits k
  by_cases hX : X.getD k 0 = 0
  · rw [hX]
    rfl
  · have h1 : X.getD k 0 = 1 := by omega
    rw [h1]
    rfl

/-- The calls asked for by a plan whose only nonzero entry is the first. -/
theorem planCalls_single (x : Nat) (X : List Nat) (h0 : X.getD 0 0 ≠ 0)
    (hrest : ∀ k, 0 < k → X.getD k 0 = 0) (N : Nat) :
    planCalls x X (N + 1) = [(0 / x, 0 % x)] := by
  induction N with
  | zero =>
    unfold planCalls
    have h1 : (X.getD 0 0 != 0) = true := by simpa using h0
    have e : List.range (0 + 1) = [0] := rfl
    rw [e, List.filter_cons, if_pos h1]
    rfl
  | succ N ih =>
    unfold planCalls at ih ⊢
    rw [filter_map_range_succ, ih]
    have : (X.getD (N + 1) 0 != 0) = false := by
      rw [hrest (N + 1) (Nat.succ_pos N)]
      rfl
    simp only [this]
    rfl

theorem dot2_nil (n : Nat) (X : List Nat) : dot2 n [] X = 0 := by
  unfold dot2
  rw [sum_range_zero _ n (fun k _ => by simp)]

theorem SecureBox.toggles_singleton (s : SecureBox) (p : Nat × Nat) :
    s.toggles [p] = s.toggle p.1 p.2 := rfl

/-! ## The shape of the box along `openBox` -/

theorem SecureBox.isLocked_iff (s : SecureBox) : s.isLocked = true ↔ s.SomeLocked := by
  unfold SecureBox.isLocked SecureBox.SomeLocked
  simp only [List.any_eq_true, List.mem_range]
  constructor
  · rintro ⟨c, hc, r, hr, h⟩
    exact ⟨r, c, hr, hc, h⟩
  · rintro ⟨r, c, hr, hc, h⟩
    exact ⟨c, hc, r, hr, h⟩

theorem SecureBox.isLocked_false_iff (s : SecureBox) :
    s.isLocked = false ↔ s.AllUnlocked := by
  rw [← Bool.not_eq_true, SecureBox.isLocked_iff]
  unfold SecureBox.SomeLocked SecureBox.AllUnlocked
  constructor
  · intro h r c hr hc
    by_contra hne
    exact h ⟨r, c, hr, hc, by simpa using hne⟩
  · rintro h ⟨r, c, hr, hc, ht⟩
    rw [h r c hr hc] at ht
    exact Bool.false_ne_true ht

theorem SecureBox.Sized.toggle {s : SecureBox} {y x : Nat} (h : s.Sized y x) (r c : Nat)
    (hr : r < y) (hc : c < x) : (s.toggle r c).Sized y x := by
  obtain ⟨hw, hy, hx⟩ := h
  obtain ⟨hw2, hy2, hx2, _⟩ :=
    SecureBox.toggle_spec hw r c (by rw [hy]; exact hr) (by rw [hx]; exact hc)
  exact ⟨hw2, hy2.trans hy, hx2.trans hx⟩

theorem SecureBox.blank_sized (y x : Nat) : (SecureBox.blank y x).Sized y x :=
  ⟨shaped_replicate y x false, rfl, rfl⟩

theorem SecureBox.shuffle_sized (draws : List (Nat × Nat)) :
    ∀ (s : SecureBox) (y x : Nat), s.Sized y x → 0 < y → 0 < x →
      (s.shuffle draws).Sized y x := by
  induction draws with
  | nil => intro s y x h _ _; exact h
  | cons p l ih =>
    intro s y x h hy hx
    have e : s.shuffle (p :: l) = (s.toggle (p.1 % s.ySize) (p.2 % s.xSize)).shuffle l := rfl
    rw [e]
    apply ih _ y x _ hy hx
    apply h.toggle
    · rw [h.2.1]; exact Nat.mod_lt _ hy
    · rw [h.2.2]; exact Nat.mod_lt _ hx

theorem SecureBox.mk0_sized (y x : Nat) (draws : List (Nat × Nat)) (box : SecureBox)
    (h : SecureBox.mk0 y x draws = some box) : box.Sized y x := by
  unfold SecureBox.mk0 at h
  by_cases hc : draws ≠ [] ∧ (y = 0 ∨ x = 0)
  · rw [if_pos hc] at h
    exact absurd h (by simp)
  · rw [if_neg hc] at h
    have e : box = (SecureBox.blank y x).shuffle draws := (Option.some.inj h).symm
    rw [e]
    by_cases hd : draws = []
    · subst hd
      exact SecureBox.blank_sized y x
    · have hy : 0 < y := by
        rcases Nat.eq_zero_or_pos y with h0 | h0
        · exact absurd ⟨hd, Or.inl h0⟩ hc
        · exact h0
      have hx : 0 < x := by
        rcases Nat.eq_zero_or_pos x with h0 | h0
        · exact absurd ⟨hd, Or.inr h0⟩ hc
        · exact h0
      exact SecureBox.shuffle_sized draws _ y x (SecureBox.blank_sized y x) hy hx

/-- A loop whose body may be undefined: whenever it is defined it establishes
`P n`, if `P 0` holds at entry and the body, where defined, takes `P k` to
`P (k + 1)`. -/
theorem foldlM_range_inv_of_some {β : Type} (f : β → Nat → Option β) (P : Nat → β → Prop)
    (b0 : β) (n : Nat) (h0 : P 0 b0)
    (hstep : ∀ k b b2, k < n → P k b → f b k = some b2 → P (k + 1) b2) :
    ∀ b, (List.range n).foldlM f b0 = some b → P n b := by
  have key : ∀ m, m ≤ n → ∀ b, (List.range m).foldlM f b0 = some b → P m b := by
    intro m
    induction m with
    | zero =>
      intro _ b hb
      have : b0 = b := Option.some.inj hb
      rw [← this]
      exact h0
    | succ m ih =>
      intro hm b hb
      rw [List.range_succ, List.foldlM_append] at hb
      cases hmid : (List.range m).foldlM f b0 with
      | none =>
        rw [hmid] at hb
        exact absurd hb (by simp)
      | some bm =>
        rw [hmid] at hb
        have hb2 : f bm m = some b := by simpa using hb
        exact hstep m bm b hm (ih (Nat.le_of_succ_le hm) bm hmid) hb2
  exact key n (Nat.le_refl n)

/-- Whatever the plan, the loop "Solution", when defined, leaves a box of the
same size: it only toggles at positions inside the grid. -/
theorem applyPlan_sized (y x : Nat) (X : List Nat) (S : SecureBox) (hS : S.Sized y x)
    (r : SecureBox × List (Nat × Nat)) (h : applyPlan y x X S = some r) : r.1.Sized y x := by
  unfold applyPlan at h
  refine foldlM_range_inv_of_some _ (fun _ acc => acc.1.Sized y x) (S, []) y hS ?_ r h
  intro i acc acc2 hi hacc hrow
  refine foldlM_range_inv_of_some _ (fun _ a => a.1.Sized y x) acc x hacc ?_ acc2 hrow
  intro j a a2 hj ha hstep
  simp only at hstep
  cases hget : X.get? ((i * x + j) % 2 ^ 32) with
  | none =>
    rw [hget] at hstep
    exact absurd hstep (by simp)
  | some v =>
    rw [hget] at hstep
    have e : a2 = (if v ≠ 0 then (a.1.toggle i j, a.2 ++ [(i, j)]) else a) :=
      (Option.some.inj hstep).symm
    rw [e]
    by_cases hv : v ≠ 0
    · rw [if_pos hv]
      exact ha.toggle i j hi hj
    · rw [if_neg hv]
      exact ha

/-- One fallback round leaves a box of the same size. -/
theorem fallbackRound_sized (y x : Nat) (state : List (List Bool)) (S : SecureBox)
    (hS : S.Sized y x) : (fallbackRound y x state S).Sized y x := by
  unfold fallbackRound
  refine foldl_range_inv _ (fun _ b => b.Sized y x) S y hS ?_
  intro i b hi hb
  refine foldl_range_inv _ (fun _ b => b.Sized y x) b x hb ?_
  intro j b2 hj hb2
  split
  · exact hb2.toggle i j hi hj
  · exact hb2

/-- The `while` loop, when it ends, ends on an unlocked box of the same size. -/
theorem whileLocked_some (y x : Nat) (state : List (List Bool)) (fuel : Nat) :
    ∀ (S b : SecureBox), S.Sized y x → whileLocked y x state fuel S = some b →
      b.Sized y x ∧ b.isLocked = false := by
  induction fuel with
  | zero =>
    intro S b _ h
    exact absurd h (by simp [whileLocked])
  | succ fuel ih =>
    intro S b hS h
    unfold whileLocked at h
    by_cases hl : S.isLocked = true
    · rw [if_pos hl] at h
      exact ih _ b (fallbackRound_sized y x state S hS) h
    · rw [if_neg hl] at h
      have e : S = b := Option.some.inj h
      rw [← e]
      exact ⟨hS, by simpa using hl⟩

/-! ## The run of `openBox` on the 4 by 5 box with the row 2 and the column 0 locked -/

theorem hang_mk0 : SecureBox.mk0 4 5 [(2, 0)] = some hangBox := by decide!

theorem hang_reach : hangBox = (SecureBox.blank 4 5).toggles [(2, 0)] := by decide!

set_option maxRecDepth 100000 in
theorem hang_encode : encodeRows 20 5 hangBox.getState = (hangSys.A, hangSys.B) := by decide!

set_option maxRecDepth 100000 in
theorem hang_gauss : gauss 20 hangSys = (17, hangReduced) := by decide!

theorem hang_extract : extract 20 hangReduced = List.replicate 20 0 := by decide!

theorem hang_encode_some : encode 20 5 hangBox.getState = some (hangSys.A, hangSys.B) := by
  rw [encode_of_lt 20 5 _ (by decide), hang_encode]

theorem hang_plan : plan 4 5 hangBox.getState = some (List.replicate 20 0) := by
  have hsize : extendedMatrixSize 4 5 = 20 := by decide
  have e : ({ A := (hangSys.A, hangSys.B).1, B := (hangSys.A, hangSys.B).2 } : Sys) = hangSys :=
    rfl
  rw [plan_of_lt 4 5 _ (by decide), hsize, hang_encode, e, hang_gauss, hang_extract]

theorem hang_apply : applyPlan 4 5 (List.replicate 20 0) hangBox = some (hangBox, []) := by
  decide!

theorem hang_round1 : fallbackRound 4 5 hangBox.getState hangBox = hangBox2 := by decide!

theorem hang_round2 : fallbackRound 4 5 hangBox.getState hangBox2 = hangBox := by decide!

theorem hang_locked : hangBox.isLocked = true ∧ hangBox2.isLocked = true := by decide

/-- The fallback rounds alternate between the two locked boxes. -/
theorem hang_iterate (k : Nat) :
    Nat.iterate (fallbackRound 4 5 hangBox.getState) k hangBox = hangBox ∨
    Nat.iterate (fallbackRound 4 5 hangBox.getState) k hangBox = hangBox2 := by
  induction k with
  | zero => exact Or.inl rfl
  | succ k ih =>
    rw [Function.iterate_succ_apply']
    rcases ih with h | h
    · rw [h, hang_round1]; exact Or.inr rfl
    · rw [h, hang_round2]; exact Or.inl rfl

theorem hang_iterate_locked (k : Nat) :
    (Nat.iterate (fallbackRound 4 5 hangBox.getState) k hangBox).isLocked = true := by
  rcases hang_iterate k with h | h
  · rw [h]; exact hang_locked.1
  · rw [h]; exact hang_locked.2

theorem hang_while (fuel : Nat) :
    ∀ b, b = hangBox ∨ b = hangBox2 → whileLocked 4 5 hangBox.getState fuel b = none := by
  induction fuel with
  | zero => intro b _; rfl
  | succ fuel ih =>
    intro b hb
    unfold whileLocked
    rcases hb with h | h
    · rw [h, if_pos hang_locked.1, hang_round1]
      exact ih _ (Or.inr rfl)
    · rw [h, if_pos hang_locked.2, hang_round2]
      exact ih _ (Or.inl rfl)

/-- The run of `solveBox` once the plan and the box after the plan are known. -/
theorem solveBox_of_plan (fuel y x : Nat) (box : SecureBox) (X : List Nat)
    (r : SecureBox × List (Nat × Nat)) (hX : plan y x box.getState = some X)
    (ha : applyPlan y x X box = some r) :
    solveBox fuel y x box =
      (match whileLocked y x box.getState fuel r.1 with
        | none => Outcome.stillLooping
        | some b => Outcome.returned b.isLocked b) := by
  unfold solveBox
  simp only
  rw [hX]
  simp only
  rw [ha]

/-- The run of `openBox` on dimensions already in order, once the box is built. -/
theorem openBox_of_mk0 (fuel y x : Nat) (draws : List (Nat × Nat)) (box : SecureBox)
    (hle : ¬ y > x) (h : SecureBox.mk0 y x draws = some box) :
    openBox fuel y x draws = solveBox fuel y x box := by
  unfold openBox
  simp only [if_neg hle]
  rw [h]

theorem hang_openBox (fuel : Nat) : openBox fuel 4 5 [(2, 0)] = Outcome.stillLooping := by
  rw [openBox_of_mk0 fuel 4 5 [(2, 0)] hangBox (by decide) hang_mk0,
    solveBox_of_plan fuel 4 5 hangBox _ (hangBox, []) hang_plan hang_apply]
  simp only
  rw [hang_while fuel hangBox (Or.inl rfl)]

/-! ## The ways `openBox` can return -/

/-- When `openBox` returns, the box it leaves has the size of the box it built
and is unlocked, and the value returned is the `isLocked` of that box. -/
theorem openBox_returned_inv (fuel y x : Nat) (draws : List (Nat × Nat)) (b : Bool)
    (box : SecureBox) (h : openBox fuel y x draws = Outcome.returned b box) :
    box.Sized (if y > x then x else y) (if y > x then y else x) ∧ box.isLocked = false ∧
    b = box.isLocked := by
  unfold openBox at h
  simp only at h
  cases hmk : SecureBox.mk0 (if y > x then x else y) (if y > x then y else x) draws with
  | none =>
    rw [hmk] at h
    exact Outcome.noConfusion h
  | some box0 =>
    rw [hmk] at h
    simp only at h
    have hs0 := SecureBox.mk0_sized _ _ draws box0 hmk
    unfold solveBox at h
    simp only at h
    cases hpl : plan (if y > x then x else y) (if y > x then y else x) box0.getState with
    | none =>
      rw [hpl] at h
      exact Outcome.noConfusion h
    | some X =>
      rw [hpl] at h
      simp only at h
      cases hap : applyPlan (if y > x then x else y) (if y > x then y else x) X box0 with
      | none =>
        rw [hap] at h
        exact Outcome.noConfusion h
      | some r =>
        rw [hap] at h
        simp only at h
        have hs1 := applyPlan_sized _ _ _ box0 hs0 r hap
        cases hwl : whileLocked (if y > x then x else y) (if y > x then y else x)
            box0.getState fuel r.1 with
        | none =>
          rw [hwl] at h
          exact Outcome.noConfusion h
        | some b2 =>
          rw [hwl] at h
          simp only at h
          have hs2 := whileLocked_some _ _ _ fuel r.1 b2 hs1 hwl
          injection h with hb hbox
          subst hbox
          exact ⟨hs2.1, hs2.2, hb.symm⟩

/-- The dimensions after the swap of `openBox` are the smaller and the larger. -/
theorem swap_eq_min_max (y x : Nat) :
    (if y > x then x else y) = min y x ∧ (if y > x then y else x) = max y x := by
  by_cases h : y > x
  · rw [if_pos h, if_pos h]
    exact ⟨(Nat.min_eq_right (Nat.le_of_lt h)).symm, (Nat.max_eq_left (Nat.le_of_lt h)).symm⟩
  · rw [if_neg h, if_neg h]
    have h2 : y ≤ x := Nat.le_of_not_lt h
    exact ⟨(Nat.min_eq_left h2).symm, (Nat.max_eq_right h2).symm⟩

theorem openBox_eq_normalized (fuel y x : Nat) (draws : List (Nat × Nat)) :
    openBox fuel y x draws =
      (match SecureBox.mk0 (min y x) (max y x) draws with
        | none => Outcome.undefinedBehaviour
        | some box => solveBox fuel (min y x) (max y x) box) := by
  unfold openBox
  simp only
  rw [(swap_eq_min_max y x).1, (swap_eq_min_max y x).2]

/-! ## The run of `openBox` on a grid without cells -/

theorem isLocked_blank_zero (x : Nat) : (SecureBox.blank 0 x).isLocked = false := by
  rw [SecureBox.isLocked_false_iff]
  intro r c hr _
  exact absurd hr (Nat.not_lt_zero r)

theorem extendedMatrixSize_zero (x : Nat) : extendedMatrixSize 0 x = 0 := by
  unfold extendedMatrixSize
  simp

theorem plan_zero (x : Nat) (state : List (List Bool)) : plan 0 x state = some [] := by
  rw [plan_of_lt 0 x state (by rw [extendedMatrixSize_zero]; decide), extendedMatrixSize_zero]
  rfl

theorem solveBox_blank_zero (fuel x : Nat) :
    solveBox (fuel + 1) 0 x (SecureBox.blank 0 x) =
      Outcome.returned false (SecureBox.blank 0 x) := by
  rw [solveBox_of_plan (fuel + 1) 0 x (SecureBox.blank 0 x) [] (SecureBox.blank 0 x, [])
    (plan_zero x _) rfl]
  simp only
  unfold whileLocked
  rw [isLocked_blank_zero]
  simp only [Bool.false_eq_true, if_false]
  rw [isLocked_blank_zero]

/-! ## The fallback round as a fixed list of toggles -/

theorem fallbackInner_spec (x : Nat) (state : List (List Bool)) (i : Nat) (b : SecureBox) :
    (List.range x).foldl (fun b j => if get2 false state i j then b.toggle i j else b) b =
      b.toggles (((List.range x).filter (fun j => get2 false state i j)).map
        (fun j => (i, j))) := by
  refine foldl_range_inv (fun b j => if get2 false state i j then b.toggle i j else b)
    (fun m b2 => b2 = b.toggles (((List.range m).filter (fun j => get2 false state i j)).map
      (fun j => (i, j)))) b x rfl ?_
  intro k b2 _ hb2
  rw [filter_map_range_succ, SecureBox.toggles_append, ← hb2]
  by_cases hs : get2 false state i k = true
  · simp only [hs, if_true]
    rfl
  · simp only [hs, if_false]
    rfl

theorem snapshotCalls_succ (m x : Nat) (state : List (List Bool)) :
    snapshotCalls (m + 1) x state = snapshotCalls m x state ++
      ((List.range x).filter (fun j => get2 false state m j)).map (fun j => (m, j)) := by
  unfold snapshotCalls
  rw [List.range_succ, List.foldl_append]
  rfl

theorem fallbackRound_eq_toggles (y x : Nat) (state : List (List Bool)) (b : SecureBox) :
    fallbackRound y x state b = b.toggles (snapshotCalls y x state) := by
  unfold fallbackRound
  refine foldl_range_inv _ (fun m b2 => b2 = b.toggles (snapshotCalls m x state)) b y rfl ?_
  intro k b2 _ hb2
  rw [snapshotCalls_succ, SecureBox.toggles_append, ← hb2]
  exact fallbackInner_spec x state k b2

theorem snapshotCalls_inside (y x : Nat) (state : List (List Bool)) :
    ∀ p ∈ snapshotCalls y x state, p.1 < y ∧ p.2 < x := by
  induction y with
  | zero => intro p hp; simp [snapshotCalls] at hp
  | succ m ih =>
    intro p hp
    rw [snapshotCalls_succ, List.mem_append] at hp
    rcases hp with hp | hp
    · have := ih p hp
      exact ⟨Nat.lt_succ_of_lt this.1, this.2⟩
    · rw [List.mem_map] at hp
      obtain ⟨j, hj, rfl⟩ := hp
      exact ⟨Nat.lt_succ_self m, List.mem_range.mp (List.mem_of_mem_filter hj)⟩

/-- A list of toggles inside the grid, applied twice, gives back the grid. -/
theorem SecureBox.toggles_twice {s : SecureBox} (h : s.WF) (l : List (Nat × Nat))
    (hl : s.Inside l) : (s.toggles l).toggles l = s := by
  obtain ⟨hw, hy, hx⟩ := SecureBox.toggles_shape h l hl
  have hl2 : (s.toggles l).Inside l := fun p hp => by rw [hy, hx]; exact hl p hp
  obtain ⟨hw2, hy2, hx2⟩ := SecureBox.toggles_shape hw l hl2
  apply SecureBox.ext_cells hw2 h (hy2.trans hy) (hx2.trans hx)
  intro i j hi hj
  rw [hy2, hy] at hi
  rw [hx2, hx] at hj
  rw [SecureBox.toggles_cell l _ hw hl2 i j (by rw [hy]; exact hi) (by rw [hx]; exact hj),
    SecureBox.toggles_cell l s h hl i j hi hj, Bool.xor_assoc, Bool.xor_self, Bool.xor_false]

/-- Two fallback rounds in a row give back the box. -/
theorem fallbackRound_twice (y x : Nat) (state : List (List Bool)) (b : SecureBox)
    (hb : b.Sized y x) : fallbackRound y x state (fallbackRound y x state b) = b := by
  rw [fallbackRound_eq_toggles, fallbackRound_eq_toggles]
  apply SecureBox.toggles_twice hb.1
  intro p hp
  rw [hb.2.1, hb.2.2]
  exact snapshotCalls_inside y x state p hp

theorem fallback_iterate (y x : Nat) (state : List (List Bool)) (b : SecureBox)
    (hb : b.Sized y x) (k : Nat) :
    Nat.iterate (fallbackRound y x state) k b = b ∨
    Nat.iterate (fallbackRound y x state) k b = fallbackRound y x state b := by
  induction k with
  | zero => exact Or.inl rfl
  | succ k ih =>
    rw [Function.iterate_succ_apply']
    rcases ih with h | h
    · rw [h]; exact Or.inr rfl
    · rw [h, fallbackRound_twice y x state b hb]; exact Or.inl rfl

theorem whileLocked_never (y x : Nat) (state : List (List Bool)) (b : SecureBox)
    (hb : b.Sized y x) (h1 : b.isLocked = true)
    (h2 : (fallbackRound y x state b).isLocked = true) (fuel : Nat) :
    whileLocked y x state fuel b = none ∧
    whileLocked y x state fuel (fallbackRound y x state b) = none := by
  induction fuel with
  | zero => exact ⟨rfl, rfl⟩
  | succ fuel ih =>
    constructor
    · unfold whileLocked
      rw [if_pos h1]
      exact ih.2
    · unfold whileLocked
      rw [if_pos h2, fallbackRound_twice y x state b hb]
      exact ih.1

/-! ## Three runs of the plan applier side by side -/

/-- Three loops over `0 .. n-1`, run side by side: they are all defined and end
in `R n` when `R 0` holds at entry and, under `R k`, the three bodies are defined
and lead to `R (k + 1)`. -/
theorem foldlM_range_rel3 {β : Type} (f1 f2 f3 : β → Nat → Option β)
    (R : Nat → β → β → β → Prop) (a b c : β) (n : Nat) (h0 : R 0 a b c)
    (hstep : ∀ k a b c, k < n → R k a b c →
      ∃ a2 b2 c2, f1 a k = some a2 ∧ f2 b k = some b2 ∧ f3 c k = some c2 ∧
        R (k + 1) a2 b2 c2) :
    ∃ a2 b2 c2, (List.range n).foldlM f1 a = some a2 ∧ (List.range n).foldlM f2 b = some b2 ∧
      (List.range n).foldlM f3 c = some c2 ∧ R n a2 b2 c2 := by
  have key : ∀ m, m ≤ n → ∃ a2 b2 c2, (List.range m).foldlM f1 a = some a2 ∧
      (List.range m).foldlM f2 b = some b2 ∧ (List.range m).foldlM f3 c = some c2 ∧
      R m a2 b2 c2 := by
    intro m
    induction m with
    | zero => intro _; exact ⟨a, b, c, rfl, rfl, rfl, h0⟩
    | succ m ih =>
      intro hm
      obtain ⟨a1, b1, c1, ha, hb, hc, hR⟩ := ih (Nat.le_of_succ_le hm)
      obtain ⟨a2, b2, c2, ha2, hb2, hc2, hR2⟩ := hstep m a1 b1 c1 hm hR
      refine ⟨a2, b2, c2, ?_, ?_, ?_, hR2⟩
      · rw [List.range_succ, List.foldlM_append, ha]
        simp [ha2]
      · rw [List.range_succ, List.foldlM_append, hb]
        simp [hb2]
      · rw [List.range_succ, List.foldlM_append, hc]
        simp [hc2]
  exact key n (Nat.le_refl n)

/-- The index `i * x + j`, reduced modulo `2 ^ 32`, stays below the cell count. -/
theorem wrap_index_lt {y x i j : Nat} (hi : i < y) (hj : j < x) :
    (i * x + j) % 2 ^ 32 < y * x :=
  Nat.lt_of_le_of_lt (Nat.mod_le _ _) (flat_index_lt hi hj)

theorem length_xorPlan (X1 X2 : List Nat) (n : Nat) (h1 : X1.length = n)
    (h2 : X2.length = n) : (xorPlan X1 X2).length = n := by
  unfold xorPlan
  rw [List.length_zipWith, h1, h2, Nat.min_self]

theorem getD_xorPlan (X1 X2 : List Nat) (k : Nat) (h1 : k < X1.length) (h2 : k < X2.length) :
    (xorPlan X1 X2).getD k 0 = X1.getD k 0 ^^^ X2.getD k 0 := by
  have hl : k < (xorPlan X1 X2).length := by
    unfold xorPlan
    rw [List.length_zipWith]
    exact Nat.lt_min.mpr ⟨h1, h2⟩
  rw [List.getD_eq_getElem _ _ hl, List.getD_eq_getElem _ _ h1, List.getD_eq_getElem _ _ h2]
  unfold xorPlan
  rw [List.getElem_zipWith]

theorem xor_ne_zero_of_bits {a b : Nat} (ha : a < 2) (hb : b < 2) :
    (a ^^^ b ≠ 0) ↔ ¬ (a ≠ 0 ↔ b ≠ 0) := by
  interval_cases a <;> interval_cases b <;> decide

theorem xor3_step_left (t s a b c : Bool) (h : c = ((s ^^ a) ^^ b)) :
    (c ^^ t) = ((s ^^ (a ^^ t)) ^^ b) := by
  subst h
  cases s <;> cases a <;> cases b <;> cases t <;> rfl

theorem xor3_step_right (t s a b c : Bool) (h : c = ((s ^^ a) ^^ b)) :
    (c ^^ t) = ((s ^^ a) ^^ (b ^^ t)) := by
  subst h
  cases s <;> cases a <;> cases b <;> cases t <;> rfl

theorem xor3_step_both (t s a b c : Bool) (h : c = ((s ^^ a) ^^ b)) :
    c = ((s ^^ (a ^^ t)) ^^ (b ^^ t)) := by
  subst h
  cases s <;> cases a <;> cases b <;> cases t <;> rfl

theorem affine3_step (y x : Nat) (S : SecureBox) (X1 X2 : List Nat) (h1 : X1.length = y * x)
    (h2 : X2.length = y * x) (hb1 : ∀ v ∈ X1, v < 2) (hb2 : ∀ v ∈ X2, v < 2) (i j : Nat)
    (hi : i < y) (hj : j < x) (a b c : SecureBox × List (Nat × Nat))
    (hR : Affine3 y x S a b c) :
    ∃ a2 b2 c2,
      (match X1.get? ((i * x + j) % 2 ^ 32) with
        | none => none
        | some v => some (if v ≠ 0 then (a.1.toggle i j, a.2 ++ [(i, j)]) else a)) = some a2 ∧
      (match X2.get? ((i * x + j) % 2 ^ 32) with
        | none => none
        | some v => some (if v ≠ 0 then (b.1.toggle i j, b.2 ++ [(i, j)]) else b)) = some b2 ∧
      (match (xorPlan X1 X2).get? ((i * x + j) % 2 ^ 32) with
        | none => none
        | some v => some (if v ≠ 0 then (c.1.toggle i j, c.2 ++ [(i, j)]) else c)) = some c2 ∧
      Affine3 y x S a2 b2 c2 := by
  obtain ⟨ha, hb, hc, hcell⟩ := hR
  have hk := @wrap_index_lt y x i j hi hj
  have hk1 : (i * x + j) % 2 ^ 32 < X1.length := by rw [h1]; exact hk
  have hk2 : (i * x + j) % 2 ^ 32 < X2.length := by rw [h2]; exact hk
  have hk3 : (i * x + j) % 2 ^ 32 < (xorPlan X1 X2).length := by
    rw [length_xorPlan X1 X2 (y * x) h1 h2]; exact hk
  rw [get?_eq_some_getD X1 _ hk1, get?_eq_some_getD X2 _ hk2, get?_eq_some_getD _ _ hk3,
    getD_xorPlan X1 X2 _ hk1 hk2]
  have hv1 := getD_lt_of_forall_mem X1 hb1 ((i * x + j) % 2 ^ 32)
  have hv2 := getD_lt_of_forall_mem X2 hb2 ((i * x + j) % 2 ^ 32)
  have hx := xor_ne_zero_of_bits hv1 hv2
  have tcell : ∀ (s : SecureBox), s.Sized y x → ∀ r k, r < y → k < x →
      (s.toggle i j).cell r k = (s.cell r k ^^ decide (r = i ∨ k = j)) := by
    intro s hs r k hr hk
    exact SecureBox.toggle_cell hs.1 i j (by rw [hs.2.1]; exact hi) (by rw [hs.2.2]; exact hj)
      r k (by rw [hs.2.1]; exact hr) (by rw [hs.2.2]; exact hk)
  by_cases e1 : X1.getD ((i * x + j) % 2 ^ 32) 0 ≠ 0
  · by_cases e2 : X2.getD ((i * x + j) % 2 ^ 32) 0 ≠ 0
    · have e3 : ¬ (X1.getD ((i * x + j) % 2 ^ 32) 0 ^^^ X2.getD ((i * x + j) % 2 ^ 32) 0 ≠ 0) :=
        fun h => (hx.mp h) ⟨fun _ => e2, fun _ => e1⟩
      refine ⟨_, _, _, rfl, rfl, rfl, ?_⟩
      simp only [if_pos e1, if_pos e2, if_neg e3]
      refine ⟨ha.toggle i j hi hj, hb.toggle i j hi hj, hc, fun r k hr hk => ?_⟩
      rw [tcell a.1 ha r k hr hk, tcell b.1 hb r k hr hk]
      exact xor3_step_both _ _ _ _ _ (hcell r k hr hk)
    · have e3 : X1.getD ((i * x + j) % 2 ^ 32) 0 ^^^ X2.getD ((i * x + j) % 2 ^ 32) 0 ≠ 0 :=
        hx.mpr (fun h => e2 (h.mp e1))
      refine ⟨_, _, _, rfl, rfl, rfl, ?_⟩
      simp only [if_pos e1, if_neg e2, if_pos e3]
      refine ⟨ha.toggle i j hi hj, hb, hc.toggle i j hi hj, fun r k hr hk => ?_⟩
      rw [tcell a.1 ha r k hr hk, tcell c.1 hc r k hr hk]
      exact xor3_step_left _ _ _ _ _ (hcell r k hr hk)
  · by_cases e2 : X2.getD ((i * x + j) % 2 ^ 32) 0 ≠ 0
    · have e3 : X1.getD ((i * x + j) % 2 ^ 32) 0 ^^^ X2.getD ((i * x + j) % 2 ^ 32) 0 ≠ 0 :=
        hx.mpr (fun h => e1 (h.mpr e2))
      refine ⟨_, _, _, rfl, rfl, rfl, ?_⟩
      simp only [if_neg e1, if_pos e2, if_pos e3]
      refine ⟨ha, hb.toggle i j hi hj, hc.toggle i j hi hj, fun r k hr hk => ?_⟩
      rw [tcell b.1 hb r k hr hk, tcell c.1 hc r k hr hk]
      exact xor3_step_right _ _ _ _ _ (hcell r k hr hk)
    · have e3 : ¬ (X1.getD ((i * x + j) % 2 ^ 32) 0 ^^^ X2.getD ((i * x + j) % 2 ^ 32) 0 ≠ 0) :=
        fun h => (hx.mp h) ⟨fun h1 => absurd h1 e1, fun h2 => absurd h2 e2⟩
      refine ⟨_, _, _, rfl, rfl, rfl, ?_⟩
      simp only [if_neg e1, if_neg e2, if_neg e3]
      exact ⟨ha, hb, hc, hcell⟩

/-- The loop "Solution" on two plans and on their exclusive or, from one box:
the three runs are defined and the third box is, cell by cell, the exclusive or
of the starting box and the two other boxes. -/
theorem applyPlan_affine (y x : Nat) (S : SecureBox) (hS : S.Sized y x) (X1 X2 : List Nat)
    (h1 : X1.length = y * x) (h2 : X2.length = y * x) (hb1 : ∀ v ∈ X1, v < 2)
    (hb2 : ∀ v ∈ X2, v < 2) :
    ∃ a b c, applyPlan y x X1 S = some a ∧ applyPlan y x X2 S = some b ∧
      applyPlan y x (xorPlan X1 X2) S = some c ∧ Affine3 y x S a b c := by
  unfold applyPlan
  refine foldlM_range_rel3 _ _ _ (fun _ a b c => Affine3 y x S a b c) (S, []) (S, []) (S, []) y
    ⟨hS, hS, hS, fun r k _ _ => by simp⟩ ?_
  intro i a b c hi hR
  refine foldlM_range_rel3 _ _ _ (fun _ a b c => Affine3 y x S a b c) a b c x hR ?_
  intro j a b c hj hR
  exact affine3_step y x S X1 X2 h1 h2 hb1 hb2 i j hi hj a b c hR

/-! ## The pivot columns and the reduced row-echelon form -/

theorem foldl_pivotStep_fst (n : Nat) (l : List Nat) (acc : (Nat × Sys) × List Nat) :
    (l.foldl (pivotStep n) acc).1 = l.foldl (gaussStep n) acc.1 := by
  induction l generalizing acc with
  | nil => rfl
  | cons c l ih =>
    rw [List.foldl_cons, List.foldl_cons, ih]
    rfl

theorem gaussPivots_fst (n : Nat) (s : Sys) : (gaussPivots n s).1 = gauss n s :=
  foldl_pivotStep_fst n (List.range n) ((0, s), [])

theorem getD_append_last (P : List Nat) (c k : Nat) (h : k = P.length) :
    (P ++ [c]).getD k 0 = c := by
  subst h
  rw [List.getD_append_right _ _ _ _ (Nat.le_refl _), Nat.sub_self]
  rfl

theorem getD_append_init (P : List Nat) (c k : Nat) (h : k < P.length) :
    (P ++ [c]).getD k 0 = P.getD k 0 :=
  List.getD_append _ _ _ _ h

theorem pivotStep_inv (n : Nat) (s0 : Sys) (col : Nat) (acc : (Nat × Sys) × List Nat)
    (hcol : col < n) (hG : GInv n s0 col acc.1) (hR : RInv n col acc) :
    RInv n (col + 1) (pivotStep n acc col) := by
  obtain ⟨⟨row, s⟩, P⟩ := acc
  unfold GInv at hG
  unfold RInv at hR
  dsimp only at hG hR
  obtain ⟨hS, _, hle, hzero, _⟩ := hG
  obtain ⟨hlen, hlt, hmono, hunit, hleft⟩ := hR
  have hrn : row < n := Nat.lt_of_le_of_lt hle hcol
  unfold pivotStep gaussStep
  simp only [if_pos hrn]
  rcases pivotSearch_cases n col row s with ⟨heq, hnone⟩ | ⟨i, hri, hin, hne, heq⟩
  · simp only [heq]
    rw [if_pos (hnone row (Nat.le_refl _) hrn)]
    simp only [Nat.lt_irrefl, if_false]
    unfold RInv
    dsimp only
    exact ⟨hlen, fun k hk => Nat.lt_succ_of_lt (hlt k hk), hmono, hunit, hleft⟩
  · simp only [heq]
    obtain ⟨hS1, hc1, _, _⟩ := swapSys_spec n s hS i row hin hrn
    have hpiv : get2 0 (swapAt [] s.A i row) row col ≠ 0 := by
      rw [hc1, swapIdx_self]
      exact hne
    rw [if_neg hpiv]
    simp only [Nat.lt_succ_self, if_true]
    obtain ⟨_, _, hcolumn, hkeep, hprow⟩ :=
      eliminate_sys n col row { A := swapAt [] s.A i row, B := swapAt 0 s.B i row } hS1 hrn hpiv
    simp only at hcolumn hkeep hprow
    have hrow0 : ∀ j, j < col → get2 0 (swapAt [] s.A i row) row j = 0 := by
      intro j hj
      rw [hc1, swapIdx_self]
      exact hzero i j hri hin hj
    unfold RInv
    dsimp only
    refine ⟨?_, fun k hk => ?_, fun k l hkl hl => ?_, fun k a hk ha => ?_, fun k j hk hj => ?_⟩
    · rw [List.length_append, hlen]
      rfl
    · by_cases hkr : k = row
      · rw [getD_append_last P col k (by omega)]
        exact Nat.lt_succ_self col
      · rw [getD_append_init P col k (by omega)]
        exact Nat.lt_succ_of_lt (hlt k (by omega))
    · rw [getD_append_init P col k (by omega)]
      by_cases hlr : l = row
      · rw [getD_append_last P col l (by omega)]
        exact hlt k (by omega)
      · rw [getD_append_init P col l (by omega)]
        exact hmono k l hkl (by omega)
    · by_cases hkr : k = row
      · rw [getD_append_last P col k (by omega), hcolumn a ha, hkr]
      · have hk2 : k < row := by omega
        rw [getD_append_init P col k (by omega)]
        have hz : get2 0 (swapAt [] s.A i row) row (P.getD k 0) = 0 := by
          rw [hc1, swapIdx_self, hunit k i hk2 hin, if_neg (by omega)]
        rw [hkeep a _ hz, hc1, hunit k _ hk2 (swapIdx_lt hin hrn ha)]
        have := @swapIdx_eq_iff i row a k hri hk2
        simp only [this]
    · by_cases hkr : k = row
      · rw [getD_append_last P col k (by omega)] at hj
        rw [hkr, hprow j]
        exact hrow0 j hj
      · have hk2 : k < row := by omega
        rw [getD_append_init P col k (by omega)] at hj
        have hjc : j < col := Nat.lt_trans hj (hlt k hk2)
        rw [hkeep k j (hrow0 j hjc), hc1]
        have e : swapIdx i row k = k := (@swapIdx_eq_iff i row k k hri hk2).mpr rfl
        rw [e]
        exact hleft k j hk2 hj

/-- The loop "Gaussian method" with its record of pivot columns keeps both
invariants. -/
theorem gaussPivots_inv (n : Nat) (s0 : Sys) (hS : SquareBits n s0) :
    GInv n s0 n (gaussPivots n s0).1 ∧ RInv n n (gaussPivots n s0) := by
  unfold gaussPivots
  refine foldl_range_inv (pivotStep n) (fun m acc => GInv n s0 m acc.1 ∧ RInv n m acc)
    ((0, s0), []) n ⟨⟨hS, fun X => Iff.rfl, Nat.le_refl 0,
      fun i j _ _ hj => absurd hj (Nat.not_lt_zero j),
      fun _ i j _ hj => absurd hj (Nat.not_lt_zero j)⟩,
      rfl, fun k hk => absurd hk (Nat.not_lt_zero k), fun k l _ hl => absurd hl (Nat.not_lt_zero l),
      fun k i hk _ => absurd hk (Nat.not_lt_zero k),
      fun k j hk _ => absurd hk (Nat.not_lt_zero k)⟩ ?_
  intro k acc hk hinv
  exact ⟨gaussStep_inv n s0 k acc.1 hk hinv.1, pivotStep_inv n s0 k acc hk hinv.1 hinv.2⟩

/-- The matrix left by the loop "Gaussian method" is in reduced row-echelon
form, with the pivot of the row `k` in the column `pivotCols[k]`. -/
theorem gauss_rref (n : Nat) (s : Sys) (hS : SquareBits n s) :
    (pivotCols n s).length = (gauss n s).1 ∧ (gauss n s).1 ≤ n ∧
    (∀ k, k < (gauss n s).1 → (pivotCols n s).getD k 0 < n) ∧
    (∀ k l, k < l → l < (gauss n s).1 →
      (pivotCols n s).getD k 0 < (pivotCols n s).getD l 0) ∧
    (∀ k i, k < (gauss n s).1 → i < n →
      get2 0 (gauss n s).2.A i ((pivotCols n s).getD k 0) = if i = k then 1 else 0) ∧
    (∀ k j, k < (gauss n s).1 → j < (pivotCols n s).getD k 0 →
      get2 0 (gauss n s).2.A k j = 0) ∧
    (∀ i j, (gauss n s).1 ≤ i → i < n → j < n → get2 0 (gauss n s).2.A i j = 0) := by
  obtain ⟨hG, hR⟩ := gaussPivots_inv n s hS
  rw [gaussPivots_fst] at hG
  unfold RInv at hR
  rw [gaussPivots_fst] at hR
  exact ⟨hR.1, hG.2.2.1, hR.2.1, hR.2.2.1, hR.2.2.2.1, hR.2.2.2.2, hG.2.2.2.1⟩

/-- On the 4 by 5 grid the pivot of the column `10` is on the row `9`. -/
theorem hang_pivot : 9 < (gauss 20 hangSys).1 ∧ (pivotCols 20 hangSys).getD 9 0 = 10 := by
  have hsys : IsSystem 20 hangSys := by decide
  obtain ⟨_, _, _, _, hunit, hleft, _⟩ := gauss_rref 20 hangSys hsys.squareBits
  rw [hang_gauss] at hunit hleft
  dsimp only at hunit hleft
  have h9 : 9 < 17 := by decide
  have h1 := hunit 9 9 h9 (by decide)
  rw [if_pos rfl] at h1
  have h2 := hleft 9 10 h9
  have hz : ∀ j, j < 10 → get2 0 hangReduced.A 9 j = 0 := by decide
  have ho : get2 0 hangReduced.A 9 10 = 1 := by decide
  rw [hang_gauss]
  refine ⟨h9, ?_⟩
  rcases Nat.lt_trichotomy ((pivotCols 20 hangSys).getD 9 0) 10 with h | h | h
  · rw [hz _ h] at h1
    exact absurd h1 (by decide)
  · exact h
  · rw [h2 h] at ho
    exact absurd ho (by decide)

/-! ## The pivots do not depend on the right-hand side -/

theorem pivotSearch_A (n col row : Nat) (s t : Sys) (h : s.A = t.A) :
    (pivotSearch n col row s).A = (pivotSearch n col row t).A := by
  unfold pivotSearch
  rw [h]
  cases (List.range' row (n - row)).find? (fun i => get2 0 t.A i col != 0) with
  | none => exact h
  | some i => rfl

theorem eliminateStep_A (n col row : Nat) (s t : Sys) (h : s.A = t.A) (i : Nat) :
    (eliminateStep n col row s i).A = (eliminateStep n col row t i).A := by
  unfold eliminateStep
  rw [h]
  by_cases hc : i ≠ row ∧ get2 0 t.A i col ≠ 0
  · rw [if_pos hc, if_pos hc]
  · rw [if_neg hc, if_neg hc]
    exact h

theorem eliminate_A (n col row : Nat) (s t : Sys) (h : s.A = t.A) :
    (eliminate n col row s).A = (eliminate n col row t).A := by
  unfold eliminate
  generalize List.range n = l
  induction l generalizing s t with
  | nil => exact h
  | cons i l ih =>
    rw [List.foldl_cons, List.foldl_cons]
    exact ih _ _ (eliminateStep_A n col row s t h i)

theorem gaussStep_A (n : Nat) (st su : Nat × Sys) (col : Nat) (h1 : st.1 = su.1)
    (h2 : st.2.A = su.2.A) :
    (gaussStep n st col).1 = (gaussStep n su col).1 ∧
    (gaussStep n st col).2.A = (gaussStep n su col).2.A := by
  obtain ⟨r, s⟩ := st
  obtain ⟨r2, t⟩ := su
  dsimp only at h1 h2
  subst h1
  unfold gaussStep
  dsimp only
  have hp := pivotSearch_A n col r s t h2
  by_cases hr : r < n
  · rw [if_pos hr, if_pos hr, hp]
    by_cases hz : get2 0 (pivotSearch n col r t).A r col = 0
    · rw [if_pos hz, if_pos hz]
      exact ⟨rfl, hp⟩
    · rw [if_neg hz, if_neg hz]
      exact ⟨rfl, eliminate_A n col r _ _ hp⟩
  · rw [if_neg hr, if_neg hr]
    exact ⟨rfl, h2⟩

/-- The final value of `row` and the final matrix of the loop "Gaussian method"
depend on the matrix alone, not on `B`. -/
theorem gauss_A (n : Nat) (s t : Sys) (h : s.A = t.A) :
    (gauss n s).1 = (gauss n t).1 ∧ (gauss n s).2.A = (gauss n t).2.A := by
  unfold gauss
  have key : ∀ (l : List Nat) (st su : Nat × Sys), st.1 = su.1 → st.2.A = su.2.A →
      (l.foldl (gaussStep n) st).1 = (l.foldl (gaussStep n) su).1 ∧
      (l.foldl (gaussStep n) st).2.A = (l.foldl (gaussStep n) su).2.A := by
    intro l
    induction l with
    | nil => intro st su h1 h2; exact ⟨h1, h2⟩
    | cons c l ih =>
      intro st su h1 h2
      rw [List.foldl_cons, List.foldl_cons]
      exact ih _ _ (gaussStep_A n st su c h1 h2).1 (gaussStep_A n st su c h1 h2).2
  exact key (List.range n) (0, s) (0, t) rfl h

/-! ## A matrix of trivial kernel gets a pivot in every column -/

theorem getD_map_range (f : Nat → Nat) (n k : Nat) (hk : k < n) :
    ((List.range n).map f).getD k 0 = f k := by
  rw [List.getD_eq_getElem _ _ (by simpa using hk)]
  simp

theorem dot2_zero_plan (n : Nat) (row : List Nat) : dot2 n row [] = 0 := by
  unfold dot2
  rw [sum_range_zero _ n (fun k _ => by simp)]

/-- When the columns before `col` are those of the identity matrix and the
column `col` is zero from the row `col` on, `kernelVec` is sent to zero by every
row. -/
theorem kernelVec_spec (n col : Nat) (A : List (List Nat)) (hcol : col < n)
    (hid : ∀ i j, i < n → j < col → get2 0 A i j = if i = j then 1 else 0)
    (hnone : ∀ i, col ≤ i → i < n → get2 0 A i col = 0) (i : Nat) (hi : i < n) :
    dot2 n (A.getD i []) (kernelVec n col A) = 0 := by
  unfold dot2
  have hterm : ∀ k, k < n → (A.getD i []).getD k 0 * (kernelVec n col A).getD k 0 =
      get2 0 A i k * (if k < col then get2 0 A k col else if k = col then 1 else 0) := by
    intro k hk
    unfold kernelVec
    rw [getD_map_range _ n k hk]
    rfl
  rw [sum_range_congr _ _ n hterm]
  by_cases hic : i < col
  · have h2 := sum_range_mod2_add
      (fun k => get2 0 A i k * (if k < col then get2 0 A k col else if k = col then 1 else 0))
      (fun k => if k = i then get2 0 A i col else 0)
      (fun k => if k = col then get2 0 A i col else 0) n (by
        intro k hk
        congr 1
        dsimp only
        by_cases hkc : k < col
        · rw [if_pos hkc, hid i k hi hkc, if_neg (by omega : ¬ k = col)]
          by_cases hki : k = i
          · subst hki
            simp
          · rw [if_neg (fun h => hki h.symm), if_neg hki]
            simp
        · rw [if_neg hkc, if_neg (by omega : ¬ k = i)]
          by_cases hkc2 : k = col
          · subst hkc2
            simp
          · rw [if_neg hkc2, if_neg hkc2]
            simp)
    rw [h2, sum_range_single _ n i hi (fun k _ hk => if_neg hk),
      sum_range_single _ n col hcol (fun k _ hk => if_neg hk)]
    simp only [if_true]
    omega
  · rw [sum_range_zero _ n (fun k hk => ?_)]
    by_cases hkc : k < col
    · rw [hid i k hi hkc, if_neg (by omega)]
      simp
    · by_cases hkc2 : k = col
      · subst hkc2
        rw [hnone i (by omega) hi]
        simp
      · rw [if_neg hkc, if_neg hkc2]
        simp

/-- A system with `B = 0` whose matrix sends to zero only the vectors of even
entries: the loop "Gaussian method" puts a pivot in every column. -/
theorem gauss_row_of_injective (n : Nat) (s0 : Sys) (hS : SquareBits n s0)
    (hB : ∀ i, i < n → s0.B.getD i 0 = 0)
    (hinj : ∀ X : List Nat, (∀ i, i < n → dot2 n (s0.A.getD i []) X = 0) →
      ∀ k, k < n → X.getD k 0 % 2 = 0) :
    (gauss n s0).1 = n := by
  have key : GInv n s0 n (gauss n s0) ∧ (gauss n s0).1 = n := by
    unfold gauss
    refine foldl_range_inv (gaussStep n) (fun m st => GInv n s0 m st ∧ st.1 = m) (0, s0) n
      ⟨⟨hS, fun X => Iff.rfl, Nat.le_refl 0, fun i j _ _ hj => absurd hj (Nat.not_lt_zero j),
        fun _ i j _ hj => absurd hj (Nat.not_lt_zero j)⟩, rfl⟩ ?_
    intro col st hcol hinv
    refine ⟨gaussStep_inv n s0 col st hcol hinv.1, ?_⟩
    obtain ⟨⟨hS1, hsol, _, _, hid⟩, hrow⟩ := hinv
    unfold gaussStep
    rw [if_pos (by omega : st.1 < n)]
    dsimp only
    by_cases hz : get2 0 (pivotSearch n col st.1 st.2).A st.1 col = 0
    · exfalso
      rcases pivotSearch_cases n col st.1 st.2 with ⟨_, hnone⟩ | ⟨i, hri, hin, hne, heq⟩
      · rw [hrow] at hnone
        have hB2 : ∀ i, i < n → st.2.B.getD i 0 = 0 := by
          intro i hi
          have h0 : Solves n s0 [] := fun a ha => by rw [dot2_zero_plan, hB a ha]
          have h1 := (hsol []).mp h0 i hi
          rw [dot2_zero_plan] at h1
          exact h1.symm
        have hker : Solves n st.2 (kernelVec n col st.2.A) := by
          intro i hi
          rw [kernelVec_spec n col st.2.A hcol (hid hrow) hnone i hi, hB2 i hi]
        have h2 := (hsol _).mpr hker
        have h3 := hinj (kernelVec n col st.2.A) (fun i hi => by rw [h2 i hi, hB i hi]) col hcol
        unfold kernelVec at h3
        rw [getD_map_range _ n col hcol, if_neg (Nat.lt_irrefl col), if_pos rfl] at h3
        exact absurd h3 (by decide)
      · rw [heq] at hz
        dsimp only at hz
        obtain ⟨_, hc1, _, _⟩ := swapSys_spec n st.2 hS1 i st.1 hin (by omega)
        rw [hc1, swapIdx_self] at hz
        exact hne hz
    · rw [if_neg hz]
      dsimp only
      omega
  exact key.2

/-! ## The encoder's matrix of a grid with even sides has a trivial kernel -/

theorem sum_range_eq_finset (f : Nat → Nat) (n : Nat) :
    ((List.range n).map f).sum = Finset.sum (Finset.range n) f := by
  induction n with
  | zero => rfl
  | succ n ih =>
    rw [List.range_succ, List.map_append, List.sum_append, ih, Finset.sum_range_succ]
    simp

/-- A sum over the flattened indices `0 .. y*x-1` is the sum over the rows of the
sums over the cells of a row. -/
theorem sum_range_flat (g : Nat → Nat) (y x : Nat) :
    Finset.sum (Finset.range (y * x)) g =
      Finset.sum (Finset.range y) (fun r => Finset.sum (Finset.range x) (fun c => g (r * x + c))) := by
  induction y with
  | zero => simp
  | succ y ih =>
    rw [Finset.sum_range_succ, ← ih, Nat.succ_mul, Finset.sum_range_add]

theorem even_sum_of_even (f : Nat → Nat) (n : Nat) (h : ∀ k, k < n → f k % 2 = 0) :
    Finset.sum (Finset.range n) f % 2 = 0 := by
  apply Nat.mod_eq_zero_of_dvd
  apply Finset.dvd_sum
  intro k hk
  exact Nat.dvd_of_mod_eq_zero (h k (Finset.mem_range.mp hk))

/-- On a grid with an even number of rows and of columns, a pattern `f` in which
every cell, its row and its column add up to an even number has only even
entries. -/
theorem cross_kernel (y x : Nat) (f : Nat → Nat → Nat) (hy : y % 2 = 0) (hx : x % 2 = 0)
    (h : ∀ r c, r < y → c < x →
      (Finset.sum (Finset.range x) (fun c2 => f r c2) +
        Finset.sum (Finset.range y) (fun r2 => f r2 c) + f r c) % 2 = 0) :
    ∀ r c, r < y → c < x → f r c % 2 = 0 := by
  set R : Nat → Nat := fun r => Finset.sum (Finset.range x) (fun c2 => f r c2) with hR
  set C : Nat → Nat := fun c => Finset.sum (Finset.range y) (fun r2 => f r2 c) with hC
  set TR := Finset.sum (Finset.range y) R with hTR
  set TC := Finset.sum (Finset.range x) C with hTC
  have h1 : ∀ r, r < y → (TC + R r) % 2 = 0 := by
    intro r hr
    have e := even_sum_of_even (fun c => R r + C c + f r c) x (fun c hc => h r c hr hc)
    rw [Finset.sum_add_distrib, Finset.sum_add_distrib, Finset.sum_const, Finset.card_range,
      smul_eq_mul] at e
    obtain ⟨m, hm⟩ : ∃ m, x = 2 * m := ⟨x / 2, by omega⟩
    rw [hm, Nat.mul_assoc] at e
    have e2 : Finset.sum (Finset.range (2 * m)) (fun c => f r c) = R r := by rw [← hm]
    rw [e2] at e
    have e3 : Finset.sum (Finset.range (2 * m)) (fun c => C c) = TC := by rw [← hm]
    rw [e3] at e
    omega
  have h2 : ∀ c, c < x → (TR + C c) % 2 = 0 := by
    intro c hc
    have e := even_sum_of_even (fun r => R r + C c + f r c) y (fun r hr => h r c hr hc)
    rw [Finset.sum_add_distrib, Finset.sum_add_distrib, Finset.sum_const, Finset.card_range,
      smul_eq_mul] at e
    obtain ⟨m, hm⟩ : ∃ m, y = 2 * m := ⟨y / 2, by omega⟩
    rw [hm, Nat.mul_assoc] at e
    have e2 : Finset.sum (Finset.range (2 * m)) (fun r => f r c) = C c := by rw [← hm]
    rw [e2] at e
    have e3 : Finset.sum (Finset.range (2 * m)) (fun r => R r) = TR := by rw [← hm]
    rw [e3] at e
    omega
  have h3 : TR % 2 = 0 := by
    have e := even_sum_of_even (fun r => TC + R r) y h1
    rw [Finset.sum_add_distrib, Finset.sum_const, Finset.card_range, smul_eq_mul] at e
    obtain ⟨m, hm⟩ : ∃ m, y = 2 * m := ⟨y / 2, by omega⟩
    rw [hm, Nat.mul_assoc] at e
    have e3 : Finset.sum (Finset.range (2 * m)) (fun r => R r) = TR := by rw [← hm]
    rw [e3] at e
    omega
  have h4 : TC % 2 = 0 := by
    have e := even_sum_of_even (fun c => TR + C c) x h2
    rw [Finset.sum_add_distrib, Finset.sum_const, Finset.card_range, smul_eq_mul] at e
    obtain ⟨m, hm⟩ : ∃ m, x = 2 * m := ⟨x / 2, by omega⟩
    rw [hm, Nat.mul_assoc] at e
    have e3 : Finset.sum (Finset.range (2 * m)) (fun c => C c) = TC := by rw [← hm]
    rw [e3] at e
    omega
  intro r c hr hc
  have a := h r c hr hc
  have b := h1 r hr
  have d := h2 c hc
  change (R r + C c + f r c) % 2 = 0 at a
  omega

/-- The sum over the cross of the cell `(r, c)`, with the cell itself added once
more, is the sum over its row plus the sum over its column. -/
theorem cross_sum (y x r c : Nat) (hr : r < y) (hc : c < x) (a X : Nat → Nat)
    (ha : ∀ r2 c2, r2 < y → c2 < x → a (r2 * x + c2) = if r = r2 ∨ c = c2 then 1 else 0) :
    Finset.sum (Finset.range (y * x)) (fun k => a k * X k) + X (r * x + c) =
      Finset.sum (Finset.range x) (fun c2 => X (r * x + c2)) +
        Finset.sum (Finset.range y) (fun r2 => X (r2 * x + c)) := by
  rw [sum_range_flat]
  have inner : ∀ r2, r2 ∈ Finset.range y →
      Finset.sum (Finset.range x) (fun c2 => a (r2 * x + c2) * X (r2 * x + c2)) =
        (if r = r2 then Finset.sum (Finset.range x) (fun c2 => X (r * x + c2)) else 0) +
          (if r = r2 then 0 else X (r2 * x + c)) := by
    intro r2 hr2
    have hr2 := Finset.mem_range.mp hr2
    by_cases e : r = r2
    · subst e
      rw [if_pos rfl, if_pos rfl, Nat.add_zero]
      apply Finset.sum_congr rfl
      intro c2 hc2
      rw [ha r c2 hr2 (Finset.mem_range.mp hc2), if_pos (Or.inl rfl), Nat.one_mul]
    · rw [if_neg e, if_neg e, Nat.zero_add]
      have : ∀ c2, c2 ∈ Finset.range x → a (r2 * x + c2) * X (r2 * x + c2) =
          if c = c2 then X (r2 * x + c2) else 0 := by
        intro c2 hc2
        rw [ha r2 c2 hr2 (Finset.mem_range.mp hc2)]
        by_cases e2 : c = c2
        · rw [if_pos (Or.inr e2), if_pos e2, Nat.one_mul]
        · rw [if_neg (fun h => h.elim e e2), if_neg e2, Nat.zero_mul]
      rw [Finset.sum_congr rfl this, Finset.sum_ite_eq, if_pos (Finset.mem_range.mpr hc)]
  rw [Finset.sum_congr rfl inner, Finset.sum_add_distrib, Finset.sum_ite_eq,
    if_pos (Finset.mem_range.mpr hr), Nat.add_assoc]
  congr 1
  have split : ∀ r2, r2 ∈ Finset.range y →
      X (r2 * x + c) = (if r = r2 then 0 else X (r2 * x + c)) +
        (if r = r2 then X (r2 * x + c) else 0) := by
    intro r2 _
    by_cases e : r = r2
    · rw [if_pos e, if_pos e, Nat.zero_add]
    · rw [if_neg e, if_neg e, Nat.add_zero]
  rw [Finset.sum_congr rfl split, Finset.sum_add_distrib, Finset.sum_ite_eq,
    if_pos (Finset.mem_range.mpr hr)]

/-- On a grid of `y` by `x` cells with `y` and `x` even, the encoder's matrix
sends to zero only the vectors of even entries. -/
theorem encode_injective (y x : Nat) (hy : y % 2 = 0) (hx : x % 2 = 0)
    (state : List (List Bool)) (X : List Nat)
    (h : ∀ i, i < y * x → dot2 (y * x) ((encodeRows (y * x) x state).1.getD i []) X = 0) :
    ∀ k, k < y * x → X.getD k 0 % 2 = 0 := by
  have hcross : ∀ r c, r < y → c < x →
      (Finset.sum (Finset.range x) (fun c2 => X.getD (r * x + c2) 0) +
        Finset.sum (Finset.range y) (fun r2 => X.getD (r2 * x + c) 0) +
          X.getD (r * x + c) 0) % 2 = 0 := by
    intro r c hr hc
    have hd := h (r * x + c) (flat_index_lt hr hc)
    unfold dot2 at hd
    obtain ⟨_, _, hcell, _⟩ := encode_spec (y * x) x state
    have hterm : ∀ k, k < y * x →
        ((encodeRows (y * x) x state).1.getD (r * x + c) []).getD k 0 * X.getD k 0 =
          affectsBit x (r * x + c) k * X.getD k 0 := by
      intro k hk
      have e := hcell (r * x + c) k
      rw [if_pos ⟨flat_index_lt hr hc, hk⟩] at e
      unfold get2 at e
      rw [e]
    rw [sum_range_congr _ _ (y * x) hterm, sum_range_eq_finset] at hd
    have hs := cross_sum y x r c hr hc (fun k => affectsBit x (r * x + c) k)
      (fun k => X.getD k 0) (by
        intro r2 c2 _ hc2
        dsimp only
        rw [affectsBit_flat x r c _ hc, flat_index_div hc2, flat_index_mod hc2])
    dsimp only at hs
    omega
  intro k hk
  have hx0 : 0 < x := by
    rcases Nat.eq_zero_or_pos x with h0 | h0
    · rw [h0, Nat.mul_zero] at hk
      exact absurd hk (Nat.not_lt_zero k)
    · exact h0
  have hk2 : k < x * y := by rw [Nat.mul_comm]; exact hk
  have e := cross_kernel y x (fun r c => X.getD (r * x + c) 0) hy hx hcross (k / x) (k % x)
    (Nat.div_lt_of_lt_mul hk2) (Nat.mod_lt _ hx0)
  dsimp only at e
  rw [Nat.div_add_mod'] at e
  exact e

theorem encode_squareBits (n x : Nat) (state : List (List Bool)) (B : List Nat)
    (hB : B.length = n) (hbits : Bits B) :
    SquareBits n { A := (encodeRows n x state).1, B := B } := by
  obtain ⟨hshape, _, hcell, _⟩ := encode_spec n x state
  refine ⟨hshape, hB, fun i j => ?_, hbits⟩
  dsimp only
  rw [hcell i j]
  split
  · exact affectsBit_lt x _ _
  · decide

theorem encode_system (n x : Nat) (state : List (List Bool)) :
    SquareBits n { A := (encodeRows n x state).1, B := (encodeRows n x state).2 } := by
  obtain ⟨_, hlen, _, hB⟩ := encode_spec n x state
  refine encode_squareBits n x state _ hlen (fun k => ?_)
  rw [hB k]
  unfold lockedBit
  split
  · split <;> decide
  · decide

/-- On a grid with even sides the loop "Gaussian method", run on the encoder's
system, puts a pivot in every column. -/
theorem gauss_encode_even (y x : Nat) (hy : y % 2 = 0) (hx : x % 2 = 0)
    (state : List (List Bool)) :
    (gauss (y * x) { A := (encodeRows (y * x) x state).1, B := (encodeRows (y * x) x state).2 }).1 =
      y * x := by
  rw [(gauss_A (y * x) { A := (encodeRows (y * x) x state).1, B := (encodeRows (y * x) x state).2 }
    { A := (encodeRows (y * x) x state).1, B := List.replicate (y * x) 0 } rfl).1]
  refine gauss_row_of_injective (y * x) _ (encode_squareBits (y * x) x state _
    (List.length_replicate _ _) (fun k => ?_)) (fun i hi => ?_)
    (fun X hX => encode_injective y x hy hx state X hX)
  · rw [getD_replicate]
    split <;> decide
  · dsimp only
    rw [getD_replicate, if_pos hi]

/-! ## The run of the solver when every column has a pivot -/

/-- With a pivot in every column, applying the plan leaves every cell unlocked,
the `while` loop ends at its first test and the solver returns `false`. -/
theorem solveBox_of_full_pivots (fuel y x : Nat) (box : SecureBox) (hS : box.Sized y x)
    (hn : y * x < 2 ^ 31)
    (hp : (gauss (y * x)
      { A := (encodeRows (y * x) x box.getState).1,
        B := (encodeRows (y * x) x box.getState).2 }).1 = y * x) :
    ∃ X r, plan y x box.getState = some X ∧ applyPlan y x X box = some r ∧ r.1.Sized y x ∧
      r.1.AllUnlocked ∧ whileLocked y x box.getState (fuel + 1) r.1 = some r.1 ∧
      solveBox (fuel + 1) y x box = Outcome.returned false r.1 := by
  have hsys := encode_system (y * x) x box.getState
  have hn2 : y * x < 2 ^ 32 := by omega
  have hsz : extendedMatrixSize y x = y * x := extendedMatrixSize_eq y x hn2
  have hplan : plan y x box.getState = some (extract (y * x) (gauss (y * x)
      { A := (encodeRows (y * x) x box.getState).1,
        B := (encodeRows (y * x) x box.getState).2 }).2) := by
    rw [plan_of_lt y x _ (by rw [hsz]; exact hn), hsz]
  obtain ⟨_, _, hXB, hsolves⟩ := gauss_full_rank (y * x) _ hsys (Nat.le_of_lt hn) (Or.inl hp)
  obtain ⟨hS2, _, _, _, _⟩ := gauss_inv (y * x) _ hsys
  obtain ⟨hlen, _⟩ := extract_spec (y * x) (gauss (y * x)
      { A := (encodeRows (y * x) x box.getState).1,
        B := (encodeRows (y * x) x box.getState).2 }).2 (Nat.le_of_lt hn)
  generalize extract (y * x) (gauss (y * x)
      { A := (encodeRows (y * x) x box.getState).1,
        B := (encodeRows (y * x) x box.getState).2 }).2 = X at hplan hXB hsolves hlen
  have hbits : ∀ a ∈ X, a < 2 := by
    intro a ha
    obtain ⟨k, hk, e⟩ := List.mem_iff_getElem.mp ha
    rw [← e, ← List.getD_eq_getElem _ 0 hk, hXB k (by rw [← hlen]; exact hk)]
    exact hS2.2.2.2 k
  have happly := applyPlan_spec y x X box hlen (Nat.le_of_lt hn2)
  have hsized := applyPlan_sized y x _ box hS _ happly
  have hcell : ∀ r c, r < y → c < x →
      (box.toggles (planCalls x X (y * x))).cell r c = false := by
    intro r c hr hc
    rw [plan_cell y x _ hbits box hS.1 hS.2.1 hS.2.2 box.getState r c hr hc]
    have h1 := hsolves (r * x + c) (flat_index_lt hr hc)
    dsimp only at h1
    obtain ⟨_, _, _, hB⟩ := encode_spec (y * x) x box.getState
    rw [hB, if_pos (flat_index_lt hr hc)] at h1
    unfold lockedBit at h1
    rw [flat_index_div hc, flat_index_mod hc] at h1
    rw [h1]
    have e : get2 false box.getState r c = box.cell r c := rfl
    rw [e]
    cases box.cell r c <;> rfl
  have hun : (box.toggles (planCalls x X (y * x))).AllUnlocked := by
    intro r c hr hc
    rw [hsized.2.1] at hr
    rw [hsized.2.2] at hc
    exact hcell r c hr hc
  have hlock := (SecureBox.isLocked_false_iff _).mpr hun
  have hwhile : whileLocked y x box.getState (fuel + 1)
      (box.toggles (planCalls x X (y * x))) =
      some (box.toggles (planCalls x X (y * x))) := by
    unfold whileLocked
    rw [hlock]
    rfl
  refine ⟨X, _, hplan, happly, hsized, hun, hwhile, ?_⟩
  rw [solveBox_of_plan (fuel + 1) y x box X _ hplan happly]
  dsimp only
  rw [hwhile]
  dsimp only
  rw [hlock]

/-- The read `X[0]` of the loop "Solution" on an empty `X`, for a grid with a
cell, is past the end of `X`. -/
theorem applyPlan_nil (y x : Nat) (hy : 0 < y) (hx : 0 < x) (S : SecureBox) :
    applyPlan y x [] S = none := by
  obtain ⟨y2, rfl⟩ : ∃ y2, y = y2 + 1 := ⟨y - 1, by omega⟩
  obtain ⟨x2, rfl⟩ : ∃ x2, x = x2 + 1 := ⟨x - 1, by omega⟩
  unfold applyPlan
  have hy2 : List.range (y2 + 1) = 0 :: (List.range y2).map Nat.succ :=
    List.range_succ_eq_map y2
  have hx2 : List.range (x2 + 1) = 0 :: (List.range x2).map Nat.succ :=
    List.range_succ_eq_map x2
  rw [hy2, List.foldlM_cons, hx2, List.foldlM_cons]
  rfl

theorem plan_of_size_zero (y x : Nat) (state : List (List Bool))
    (h : extendedMatrixSize y x = 0) : plan y x state = some [] := by
  rw [plan_of_lt y x state (by rw [h]; decide), h]
  rfl

/-- When the product `x * y` wraps to zero on a grid that has a cell, the solver
reads `X[0]` of an empty `X`. -/
theorem solveBox_wrapped (fuel y x : Nat) (box : SecureBox)
    (h0 : extendedMatrixSize y x = 0) (hy : 0 < y) (hx : 0 < x) :
    solveBox fuel y x box = Outcome.undefinedBehaviour := by
  unfold solveBox
  simp only
  rw [plan_of_size_zero y x _ h0]
  simp only
  rw [applyPlan_nil y x hy hx]

/-- When `extendedMatrixSize` is above `INT_MAX` the encoder's counters overflow
and the solver has undefined behaviour. -/
theorem solveBox_int_overflow (fuel y x : Nat) (box : SecureBox)
    (h : 2 ^ 31 ≤ extendedMatrixSize y x) :
    solveBox fuel y x box = Outcome.undefinedBehaviour := by
  unfold solveBox
  simp only
  rw [plan_overflow y x _ h]

theorem mk0_some (y x : Nat) (draws : List (Nat × Nat)) (hy : 0 < y) (hx : 0 < x) :
    SecureBox.mk0 y x draws = some ((SecureBox.blank y x).shuffle draws) := by
  unfold SecureBox.mk0
  rw [if_neg]
  rintro ⟨_, h | h⟩ <;> omega

/-- With a pivot in every column, the pivot of the column `col` is on the row
`col`. -/
theorem pivotCols_of_full (n : Nat) (s : Sys) (hS : SquareBits n s) (h : (gauss n s).1 = n)
    (k : Nat) (hk : k < n) : (pivotCols n s).getD k 0 = k := by
  obtain ⟨_, hid⟩ := gauss_identity n s hS (Or.inl h)
  obtain ⟨_, _, hlt, _, hunit, _, _⟩ := gauss_rref n s hS
  rw [h] at hlt hunit
  have h1 := hunit k _ hk (hlt k hk)
  rw [hid _ _ (hlt k hk) (hlt k hk), if_pos rfl] at h1
  by_contra hne
  rw [if_neg hne] at h1
  exact absurd h1 (by decide)

/-- The solver on a grid with even sides whose cell count is at most `INT_MAX`. -/
theorem solveBox_even (fuel y x : Nat) (box : SecureBox) (hy : y % 2 = 0) (hx : x % 2 = 0)
    (hn : y * x < 2 ^ 31) (hS : box.Sized y x) :
    ∃ X r, plan y x box.getState = some X ∧ applyPlan y x X box = some r ∧ r.1.Sized y x ∧
      r.1.AllUnlocked ∧ whileLocked y x box.getState (fuel + 1) r.1 = some r.1 ∧
      solveBox (fuel + 1) y x box = Outcome.returned false r.1 :=
  solveBox_of_full_pivots fuel y x box hS hn (gauss_encode_even y x hy hx box.getState)

/-- The run of `openBox` on a grid with even sides whose cell count is at most
`INT_MAX`: it returns `false`, with every cell unlocked. -/
theorem openBox_even (fuel y x : Nat) (draws : List (Nat × Nat)) (hy : y % 2 = 0)
    (hx : x % 2 = 0) (hy2 : 2 ≤ y) (hx2 : 2 ≤ x) (hn : y * x < 2 ^ 31) :
    ∃ b, openBox (fuel + 1) y x draws = Outcome.returned false b ∧ b.AllUnlocked := by
  rw [openBox_eq_normalized]
  rcases Nat.le_total y x with hle | hle
  · rw [Nat.min_eq_left hle, Nat.max_eq_right hle, mk0_some y x draws (by omega) (by omega)]
    obtain ⟨_, r, _, _, _, hun, _, hsolve⟩ := solveBox_even fuel y x _ hy hx hn
      (SecureBox.shuffle_sized draws _ y x (SecureBox.blank_sized y x) (by omega) (by omega))
    exact ⟨r.1, hsolve, hun⟩
  · rw [Nat.min_eq_right hle, Nat.max_eq_left hle, mk0_some x y draws (by omega) (by omega)]
    obtain ⟨_, r, _, _, _, hun, _, hsolve⟩ := solveBox_even fuel x y _ hx hy
      (by rw [Nat.mul_comm]; exact hn)
      (SecureBox.shuffle_sized draws _ x y (SecureBox.blank_sized x y) (by omega) (by omega))
    exact ⟨r.1, hsolve, hun⟩

/-- The entries the iterations of the encoder leave, for a cell count that does
not wrap. -/
theorem encodeRows_entries (y x : Nat) (_hy : 1 ≤ y) (hx : 1 ≤ x) (hn : y * x < 2 ^ 32)
    (state : List (List Bool)) (i j : Nat) (hi : i < y * x) (hj : j < y * x) :
    (get2 0 (encodeRows (extendedMatrixSize y x) x state).1 i j = 1 ↔
      (i / x = j / x ∨ i % x = j % x ∨ i = j)) ∧
    (get2 0 (encodeRows (extendedMatrixSize y x) x state).1 i j = 0 ↔
      ¬ (i / x = j / x ∨ i % x = j % x ∨ i = j)) ∧
    (∀ s : SecureBox, s.WF → s.ySize = y → s.xSize = x →
      (get2 0 (encodeRows (extendedMatrixSize y x) x state).1 i j = 1 ↔
        (s.toggle (j / x) (j % x)).cell (i / x) (i % x) = !s.cell (i / x) (i % x))) ∧
    ((encodeRows (extendedMatrixSize y x) x state).2.getD i 0 = 1 ↔
      get2 false state (i / x) (i % x) = true) ∧
    ((encodeRows (extendedMatrixSize y x) x state).2.getD i 0 = 0 ↔
      get2 false state (i / x) (i % x) = false) := by
  obtain ⟨_, _, hcell, hvec⟩ := encode_spec (extendedMatrixSize y x) x state
  have hi2 : i < extendedMatrixSize y x := by rw [extendedMatrixSize_eq y x hn]; exact hi
  have hj2 : j < extendedMatrixSize y x := by rw [extendedMatrixSize_eq y x hn]; exact hj
  have hA : get2 0 (encodeRows (extendedMatrixSize y x) x state).1 i j = affectsBit x i j := by
    rw [hcell, if_pos ⟨hi2, hj2⟩]
  have hB : (encodeRows (extendedMatrixSize y x) x state).2.getD i 0 = lockedBit x state i := by
    rw [hvec, if_pos hi2]
  have h1 := affectsBit_eq_one x i j
  have h2 := affectsBit_lt x i j
  have hxpos : 0 < x := hx
  have hiy : i / x < y := Nat.div_lt_of_lt_mul (by rw [Nat.mul_comm]; exact hi)
  have hjy : j / x < y := Nat.div_lt_of_lt_mul (by rw [Nat.mul_comm]; exact hj)
  have hix : i % x < x := Nat.mod_lt i hxpos
  have hjx : j % x < x := Nat.mod_lt j hxpos
  refine ⟨by rw [hA]; exact h1, ?_, fun s hw hsy hsx => ?_, by rw [hB]; exact lockedBit_eq_one x state i,
    by rw [hB]; exact lockedBit_eq_zero x state i⟩
  · rw [hA, ← h1]
    omega
  · rw [hA, h1, SecureBox.toggle_cell hw (j / x) (j % x) (by rw [hsy]; exact hjy)
      (by rw [hsx]; exact hjx) (i / x) (i % x) (by rw [hsy]; exact hiy) (by rw [hsx]; exact hix)]
    have hdm : i = j ↔ (i / x = j / x ∧ i % x = j % x) := by
      constructor
      · intro h; subst h; exact ⟨rfl, rfl⟩
      · intro h
        rw [← Nat.div_add_mod i x, ← Nat.div_add_mod j x, h.1, h.2]
    by_cases hd : i / x = j / x ∨ i % x = j % x
    · have : (i / x = j / x ∨ i % x = j % x ∨ i = j) := by
        rcases hd with hd | hd
        · exact Or.inl hd
        · exact Or.inr (Or.inl hd)
      simp [hd, this]
    · have : ¬ (i / x = j / x ∨ i % x = j % x ∨ i = j) := by
        intro h
        rcases h with h | h | h
        · exact hd (Or.inl h)
        · exact hd (Or.inr h)
        · exact hd (Or.inl (hdm.mp h).1)
      simp [hd, this]

/-! # The claims -/

/-- C1: on a grid of `ySize` rows and `xSize` columns and for a position `(r, c)`
inside it, `toggle r c` keeps the shape of the grid and flips a cell `(i, j)`
exactly when `i = r` or `j = c`, every other cell keeping its value. The cell
`(r, c)` itself is negated by the first statement, negated back by the row
loop and negated again by the column loop, so it ends up flipped once. -/
theorem toggle_flips_row_and_column (s : SecureBox) (r c : Nat) (hwf : s.WF)
    (hr : r < s.ySize) (hc : c < s.xSize) :
    (s.toggle r c).WF ∧ (s.toggle r c).ySize = s.ySize ∧ (s.toggle r c).xSize = s.xSize ∧
    ((s.flip r c).cell r c = (!s.cell r c) ∧
      ((List.range s.xSize).foldl (fun b i => b.flip r i) (s.flip r c)).cell r c = s.cell r c ∧
      (s.toggle r c).cell r c = (!s.cell r c)) ∧
    ∀ i j, i < s.ySize → j < s.xSize →
      (s.toggle r c).cell i j = if i = r ∨ j = c then !s.cell i j else s.cell i j := by
  obtain ⟨hw, hy, hx, _⟩ := SecureBox.toggle_spec hwf r c hr hc
  have h1 : (s.flip r c).cell r c = (!s.cell r c) := by
    rw [SecureBox.cell_flip hwf r c hr hc r c]
    simp
  refine ⟨hw, hy, hx, ⟨h1, ?_, ?_⟩, fun i j hi hj => ?_⟩
  · rw [(SecureBox.rowLoop_spec (SecureBox.flip_WF hwf r c) r hr s.xSize
      (Nat.le_refl _)).2.2.2 r c, h1]
    simp [hc]
  · rw [SecureBox.toggle_cell hwf r c hr hc r c hr hc]
    simp
  · rw [SecureBox.toggle_cell hwf r c hr hc i j hi hj]
    by_cases h : i = r ∨ j = c
    · simp [h]
    · simp [h]

/-- The statement of C1 on the 2 by 3 box `demoBox`, for the toggle at `(1, 0)`
and the cell `(0, 0)`. -/
theorem toggle_flips_row_and_column_witness :
    demoBox.WF ∧ 1 < demoBox.ySize ∧ 0 < demoBox.xSize ∧
    (demoBox.toggle 1 0).cell 0 0 =
      (if 0 = 1 ∨ 0 = 0 then !demoBox.cell 0 0 else demoBox.cell 0 0) :=
  ⟨by decide, by decide, by decide,
    (toggle_flips_row_and_column demoBox 1 0 (by decide) (by decide) (by decide)).2.2.2.2
      0 0 (by decide) (by decide)⟩

/-- C9: two calls of `toggle` in a row at the same position inside the grid give
back the very grid the first call started from. -/
theorem toggle_twice_restores (s : SecureBox) (r c : Nat) (hwf : s.WF)
    (hr : r < s.ySize) (hc : c < s.xSize) : (s.toggle r c).toggle r c = s :=
  SecureBox.toggle_twice hwf r c hr hc

/-- The statement of C9 on the 2 by 3 box `demoBox`, for the position `(1, 2)`. -/
theorem toggle_twice_restores_witness :
    demoBox.WF ∧ 1 < demoBox.ySize ∧ 2 < demoBox.xSize ∧
    (demoBox.toggle 1 2).toggle 1 2 = demoBox :=
  ⟨by decide, by decide, by decide,
    toggle_twice_restores demoBox 1 2 (by decide) (by decide) (by decide)⟩

/-- C10: two toggles at positions inside the grid commute, and two lists of
such positions that are permutations of each other, applied from the same grid,
leave the same grid. -/
theorem toggles_commute (s : SecureBox) (hwf : s.WF) (p q : Nat × Nat)
    (hp : p.1 < s.ySize ∧ p.2 < s.xSize) (hq : q.1 < s.ySize ∧ q.2 < s.xSize)
    (l1 l2 : List (Nat × Nat)) (hl : s.Inside l1) (hperm : l1.Perm l2) :
    (s.toggle p.1 p.2).toggle q.1 q.2 = (s.toggle q.1 q.2).toggle p.1 p.2 ∧
    s.toggles l1 = s.toggles l2 :=
  ⟨SecureBox.toggle_comm hwf p.1 p.2 q.1 q.2 hp.1 hp.2 hq.1 hq.2,
    SecureBox.toggles_perm hperm s hwf hl⟩

/-- The statement of C10 on the 2 by 3 box `demoBox`, for the positions `(0, 1)`
and `(1, 2)` and a list of three positions and one of its permutations. -/
theorem toggles_commute_witness :
    demoBox.WF ∧ demoBox.Inside [(0, 0), (1, 1), (0, 2)] ∧
    [(0, 0), (1, 1), (0, 2)].Perm [(1, 1), (0, 2), (0, 0)] ∧
    ((demoBox.toggle 0 1).toggle 1 2 = (demoBox.toggle 1 2).toggle 0 1 ∧
      demoBox.toggles [(0, 0), (1, 1), (0, 2)] = demoBox.toggles [(1, 1), (0, 2), (0, 0)]) :=
  ⟨by decide, by unfold SecureBox.Inside; decide, by decide,
    toggles_commute demoBox (by decide) (0, 1) (1, 2) (by decide) (by decide)
      [(0, 0), (1, 1), (0, 2)] [(1, 1), (0, 2), (0, 0)]
      (by unfold SecureBox.Inside; decide) (by decide)⟩

/-- C2, as amended: for `y, x ≥ 1` with `y * x < 2 ^ 31`, so that the product
`x * y` does not wrap and the `int` counters of the encoder do not overflow,
and for every snapshot, the encoder ends and leaves an `A` and a `B` such that,
for all flattened indices `i, j < y * x`: `A[i][j] = 1` exactly when `i` and `j`
are in the same row, or in the same column, or equal, which is exactly when a
toggle at `(j / x, j % x)` flips the cell `(i / x, i % x)` of a `y` by `x`
puzzle, and `A[i][j] = 0` otherwise; and `B[i] = 1` exactly when the cell
`(i / x, i % x)` of the snapshot is locked, and `B[i] = 0` otherwise. -/
theorem encoder_entries (y x : Nat) (hy : 1 ≤ y) (hx : 1 ≤ x) (hn : y * x < 2 ^ 31)
    (state : List (List Bool)) :
    ∃ A B, encode (extendedMatrixSize y x) x state = some (A, B) ∧
      ∀ i j, i < y * x → j < y * x →
        (get2 0 A i j = 1 ↔ (i / x = j / x ∨ i % x = j % x ∨ i = j)) ∧
        (get2 0 A i j = 0 ↔ ¬ (i / x = j / x ∨ i % x = j % x ∨ i = j)) ∧
        (∀ s : SecureBox, s.WF → s.ySize = y → s.xSize = x →
          (get2 0 A i j = 1 ↔
            (s.toggle (j / x) (j % x)).cell (i / x) (i % x) = !s.cell (i / x) (i % x))) ∧
        (B.getD i 0 = 1 ↔ get2 false state (i / x) (i % x) = true) ∧
        (B.getD i 0 = 0 ↔ get2 false state (i / x) (i % x) = false) := by
  have hn2 : y * x < 2 ^ 32 := by omega
  refine ⟨(encodeRows (extendedMatrixSize y x) x state).1,
    (encodeRows (extendedMatrixSize y x) x state).2,
    encode_of_lt _ x state (by rw [extendedMatrixSize_eq y x hn2]; exact hn),
    fun i j hi hj => encodeRows_entries y x hy hx hn2 state i j hi hj⟩

/-- The statement of C2 on the 2 by 3 grid, for the flattened indices `4` and `1`,
which share a column. -/
theorem encoder_entries_witness :
    1 ≤ 2 ∧ 1 ≤ 3 ∧ 2 * 3 < 2 ^ 31 ∧ 4 < 2 * 3 ∧ 1 < 2 * 3 ∧
    ∃ A B, encode (extendedMatrixSize 2 3) 3 demoBox.getState = some (A, B) ∧
      (get2 0 A 4 1 = 1 ↔ (4 / 3 = 1 / 3 ∨ 4 % 3 = 1 % 3 ∨ 4 = 1)) ∧
      (B.getD 4 0 = 0 ↔ get2 false demoBox.getState (4 / 3) (4 % 3) = false) :=
  ⟨by decide, by decide, by decide, by decide, by decide,
    match encoder_entries 2 3 (by decide) (by decide) (by decide) demoBox.getState with
    | ⟨A, B, h1, h2⟩ =>
      ⟨A, B, h1, (h2 4 1 (by decide) (by decide)).1,
        (h2 4 1 (by decide) (by decide)).2.2.2.2⟩⟩

/-- C2 as stated fails where the `uint32_t` product `x * y` wraps: for the
65536 by 65536 grid with every cell locked `extendedMatrixSize` is `0`, the
encoder builds an empty matrix and an empty vector, so there is no entry
`A[0][0]` equal to `1` and no entry `B[0]` equal to `1`, although `0` is a
flattened index below `y * x` and the cell `(0, 0)` is locked. It fails as well
where the product exceeds `INT_MAX` without wrapping: for the 32768 by 65536
grid `extendedMatrixSize` is `2 ^ 31`, a counter of the encoder overflows and
no matrix is left. -/
theorem encoder_entries_overflow :
    (1 ≤ 65536 ∧ 0 < 65536 * 65536) ∧
    get2 false (List.replicate 65536 (List.replicate 65536 true)) (0 / 65536) (0 % 65536)
      = true ∧
    encode (extendedMatrixSize 65536 65536) 65536
      (List.replicate 65536 (List.replicate 65536 true)) = some ([], []) ∧
    ¬ (get2 0 ([] : List (List Nat)) 0 0 = 1 ↔
      (0 / 65536 = 0 / 65536 ∨ 0 % 65536 = 0 % 65536 ∨ 0 = 0)) ∧
    ¬ (([] : List Nat).getD 0 0 = 1 ↔
      get2 false (List.replicate 65536 (List.replicate 65536 true)) (0 / 65536) (0 % 65536)
        = true) ∧
    (1 ≤ 32768 ∧ extendedMatrixSize 32768 65536 = 2 ^ 31 ∧
      ∀ state, encode (extendedMatrixSize 32768 65536) 65536 state = none) := by
  have hsize : extendedMatrixSize 65536 65536 = 0 := by decide
  have hcell : get2 false (List.replicate 65536 (List.replicate 65536 true))
      (0 / 65536) (0 % 65536) = true := by
    unfold get2
    rw [getD_replicate, if_pos (by decide), getD_replicate, if_pos (by decide)]
  have hsize2 : extendedMatrixSize 32768 65536 = 2 ^ 31 := by decide
  rw [hsize]
  refine ⟨⟨by decide, by decide⟩, hcell, ?_, ?_, ?_, by decide, hsize2, fun state => ?_⟩
  · rw [encode_of_lt 0 _ _ (by decide)]
    rfl
  · intro h
    have := h.mpr (Or.inr (Or.inr rfl))
    revert this
    decide
  · intro h
    have := h.mpr hcell
    revert this
    decide
  · exact encode_overflow _ _ state (by rw [hsize2])

/-- C8, as amended: for `y, x ≥ 1` with `y * x < 2 ^ 31` (the sizes `y = 1` and
`x = 1` included), so that the product `x * y` does not wrap and the `int`
counters of the encoder do not overflow, the encoder ends and the matrix it
leaves is symmetric and has ones on its diagonal. -/
theorem encoder_symmetric (y x : Nat) (_hy : 1 ≤ y) (_hx : 1 ≤ x) (hn : y * x < 2 ^ 31)
    (state : List (List Bool)) :
    ∃ A B, encode (extendedMatrixSize y x) x state = some (A, B) ∧
      ∀ i j, i < y * x → j < y * x →
        get2 0 A i j = get2 0 A j i ∧ get2 0 A i i = 1 := by
  have hn2 : y * x < 2 ^ 32 := by omega
  have hsz := extendedMatrixSize_eq y x hn2
  refine ⟨(encodeRows (extendedMatrixSize y x) x state).1,
    (encodeRows (extendedMatrixSize y x) x state).2,
    encode_of_lt _ x state (by rw [hsz]; exact hn), fun i j hi hj => ?_⟩
  obtain ⟨_, _, hcell, _⟩ := encode_spec (extendedMatrixSize y x) x state
  have hi2 : i < extendedMatrixSize y x := by rw [hsz]; exact hi
  have hj2 : j < extendedMatrixSize y x := by rw [hsz]; exact hj
  refine ⟨?_, ?_⟩
  · rw [hcell, hcell, if_pos ⟨hi2, hj2⟩, if_pos ⟨hj2, hi2⟩]
    exact affectsBit_symm x i j
  · rw [hcell, if_pos ⟨hi2, hi2⟩]
    exact (affectsBit_eq_one x i i).mpr (Or.inl rfl)

/-- The statement of C8 on the 1 by 3 grid, for the flattened indices `0` and `2`. -/
theorem encoder_symmetric_witness :
    1 ≤ 1 ∧ 1 ≤ 3 ∧ 1 * 3 < 2 ^ 31 ∧ 0 < 1 * 3 ∧ 2 < 1 * 3 ∧
    ∃ A B, encode (extendedMatrixSize 1 3) 3 [[true, false, true]] = some (A, B) ∧
      get2 0 A 0 2 = get2 0 A 2 0 ∧ get2 0 A 0 0 = 1 :=
  ⟨by decide, by decide, by decide, by decide, by decide,
    match encoder_symmetric 1 3 (by decide) (by decide) (by decide) [[true, false, true]] with
    | ⟨A, B, h1, h2⟩ => ⟨A, B, h1, h2 0 2 (by decide) (by decide)⟩⟩

/-- C8 as stated fails where the `uint32_t` product `x * y` wraps: for the
131072 by 32768 grid `extendedMatrixSize` is `0` and the encoder builds an empty
matrix, so its diagonal has no entry `A[0][0]` equal to `1`, although `0` is a
flattened index below `y * x`. It fails as well where the product exceeds
`INT_MAX` without wrapping: for the 1 by 2147483648 grid `extendedMatrixSize` is
`2 ^ 31`, a counter of the encoder overflows and no matrix is left. -/
theorem encoder_diagonal_overflow :
    (1 ≤ 32768 ∧ 32768 ≤ 131072 ∧ 0 < 32768 * 131072) ∧
    encode (extendedMatrixSize 32768 131072) 131072 [] = some ([], []) ∧
    get2 0 ([] : List (List Nat)) 0 0 ≠ 1 ∧
    (1 ≤ 1 ∧ extendedMatrixSize 1 2147483648 = 2 ^ 31 ∧
      ∀ state, encode (extendedMatrixSize 1 2147483648) 2147483648 state = none) := by
  have hsize : extendedMatrixSize 32768 131072 = 0 := by decide
  have hsize2 : extendedMatrixSize 1 2147483648 = 2 ^ 31 := by decide
  rw [hsize]
  refine ⟨⟨by decide, by decide, by decide⟩, ?_, by decide, by decide, hsize2,
    fun state => encode_overflow _ _ state (by rw [hsize2])⟩
  rw [encode_of_lt 0 _ _ (by decide)]
  rfl

/-- C4: for a square system of `n` equations over GF(2) given to the elimination
loop and the extraction loop, when the elimination finds a pivot for every
column, that is, when it ends with `row = n`, or, which is the same, when every
diagonal entry of the reduced matrix is `1`, the vector `X` read off by the
extraction loop satisfies `A * X = B` over GF(2) for the system the elimination
started from. The size `n` is at most `2 ^ 31`, as is that of every system the
encoder hands to these loops, its counters being `int`; up to that size the
`int` counter of the extraction loop starts at `n - 1`. -/
theorem full_rank_solution (n : Nat) (s : Sys) (hs : IsSystem n s) (hn : n ≤ 2 ^ 31)
    (hpiv : (gauss n s).1 = n ∨ ∀ i, i < n → get2 0 (gauss n s).2.A i i = 1) :
    Solves n s (extract n (gauss n s).2) :=
  (gauss_full_rank n s hs.squareBits hn hpiv).2.2.2

/-- The statement of C4 on the system `demoSys`, where both columns get a pivot. -/
theorem full_rank_solution_witness :
    IsSystem 2 demoSys ∧ 2 ≤ 2 ^ 31 ∧ (gauss 2 demoSys).1 = 2 ∧
    Solves 2 demoSys (extract 2 (gauss 2 demoSys).2) :=
  ⟨by decide, by decide, by decide,
    full_rank_solution 2 demoSys (by decide) (by decide) (Or.inl (by decide))⟩

/-- C7, as amended: for `y, x ≥ 1` with `y * x < 2 ^ 31`, so that the product
`x * y` does not wrap and the `int` counters of the encoder do not overflow,
every starting grid `S` of `y` rows and `x` columns and every plan `X` of
`y * x` bits, the loop "Solution" is defined, issues one toggle at
`(k / x, k % x)` for each flattened index `k` with `X[k] = 1`, by increasing `k`,
and no other toggle, and the grid it leaves is `S` plus `A * X` over GF(2) cell
by cell, `A` being the matrix the encoder builds and the cell `(r, c)` being
flattened to `r * x + c`. -/
theorem plan_applier_effect (y x : Nat) (_hy : 1 ≤ y) (_hx : 1 ≤ x) (hn : y * x < 2 ^ 31)
    (S : SecureBox) (hwf : S.WF) (hSy : S.ySize = y) (hSx : S.xSize = x)
    (X : List Nat) (hlen : X.length = y * x) (hbits : ∀ a ∈ X, a < 2) :
    X.length = extendedMatrixSize y x ∧
    ∃ box calls, applyPlan y x X S = some (box, calls) ∧
      calls = ((List.range (y * x)).filter (fun k => decide (X.getD k 0 = 1))).map
        (fun k => (k / x, k % x)) ∧
      box = S.toggles calls ∧ box.WF ∧ box.ySize = y ∧ box.xSize = x ∧
      ∀ state, ∃ A B, encode (extendedMatrixSize y x) x state = some (A, B) ∧
        ∀ r c, r < y → c < x →
          box.cell r c =
            (S.cell r c ^^ decide (dot2 (y * x) (A.getD (r * x + c) []) X = 1)) := by
  have hn2 : y * x < 2 ^ 32 := by omega
  have hsz := extendedMatrixSize_eq y x hn2
  obtain ⟨hw, hy2, hx2⟩ :=
    SecureBox.toggles_shape hwf (planCalls x X (y * x)) (planCalls_inside y x X S hSy hSx)
  refine ⟨by rw [hsz]; exact hlen, S.toggles (planCalls x X (y * x)), planCalls x X (y * x),
    applyPlan_spec y x X S hlen (Nat.le_of_lt hn2), planCalls_eq_of_bits x X hbits (y * x),
    rfl, hw, hy2.trans hSy, hx2.trans hSx, fun state => ?_⟩
  refine ⟨(encodeRows (extendedMatrixSize y x) x state).1,
    (encodeRows (extendedMatrixSize y x) x state).2,
    encode_of_lt _ x state (by rw [hsz]; exact hn), fun r c hr hc => ?_⟩
  rw [hsz]
  exact plan_cell y x X hbits S hwf hSy hSx state r c hr hc

/-- The statement of C7 on the 2 by 3 box `demoBox` and the plan with ones at the
flattened indices `0` and `4`: two toggles, at `(0, 0)` and `(1, 1)`. -/
theorem plan_applier_effect_witness :
    1 ≤ 2 ∧ 1 ≤ 3 ∧ 2 * 3 < 2 ^ 31 ∧ demoBox.WF ∧
    [1, 0, 0, 0, 1, 0].length = 2 * 3 ∧
    ∃ box calls, applyPlan 2 3 [1, 0, 0, 0, 1, 0] demoBox = some (box, calls) ∧
      calls = [(0, 0), (1, 1)] :=
  ⟨by decide, by decide, by decide, by decide, by decide,
    match plan_applier_effect 2 3 (by decide) (by decide) (by decide) demoBox (by decide)
      rfl rfl [1, 0, 0, 0, 1, 0] (by decide) (by decide) with
    | ⟨_, box, calls, h1, h2, _⟩ => ⟨box, calls, h1, h2.trans (by decide)⟩⟩

/-- C7 as stated fails where the `uint32_t` product `x * y` wraps: on the 65536 by
65536 grid `extendedMatrixSize` is `0`, so the `X` that `openBox` holds has no
entry, not `y * x` of them, and the first pass of the loop "Solution" reads
`X[0]` past the end of `X`, whatever the grid: no toggle is issued in a defined
way and no grid is left. It fails as well where the product exceeds `INT_MAX`
without wrapping: for the 32768 by 65536 grid a counter of the encoder
overflows, so that there is no matrix `A` and no plan. -/
theorem plan_applier_overflow :
    (1 ≤ 65536 ∧ extendedMatrixSize 65536 65536 = 0) ∧
    (∀ state, plan 65536 65536 state = some []) ∧
    ([] : List Nat).length ≠ 65536 * 65536 ∧
    (∀ S, applyPlan 65536 65536 [] S = none) ∧
    (1 ≤ 32768 ∧ extendedMatrixSize 32768 65536 = 2 ^ 31 ∧
      ∀ state, encode (extendedMatrixSize 32768 65536) 65536 state = none ∧
        plan 32768 65536 state = none) := by
  have hsize : extendedMatrixSize 65536 65536 = 0 := by decide
  have hsize2 : extendedMatrixSize 32768 65536 = 2 ^ 31 := by decide
  exact ⟨⟨by decide, hsize⟩, fun state => plan_of_size_zero _ _ state hsize, by decide,
    fun S => applyPlan_nil _ _ (by decide) (by decide) S, by decide, hsize2,
    fun state => ⟨encode_overflow _ _ state (by rw [hsize2]),
      plan_overflow _ _ state (by rw [hsize2])⟩⟩

/-- C3 fails on the code at `y = 4`, `x = 5`: the grid reached from the all-false
grid by the one toggle `(2, 0)` gets the all-zero plan, which leaves it as it
is, and after no number of fallback rounds is every cell false. -/
theorem solver_fails_on_4x5 :
    (1 ≤ 4 ∧ 4 ≤ 5) ∧ (SecureBox.blank 4 5).Inside [(2, 0)] ∧
    hangBox = (SecureBox.blank 4 5).toggles [(2, 0)] ∧
    plan 4 5 hangBox.getState = some (List.replicate 20 0) ∧
    applyPlan 4 5 (List.replicate 20 0) hangBox = some (hangBox, []) ∧
    ¬ ∃ k, (Nat.iterate (fallbackRound 4 5 hangBox.getState) k hangBox).AllUnlocked := by
  refine ⟨⟨by decide, by decide⟩, by unfold SecureBox.Inside; decide, hang_reach, hang_plan,
    hang_apply, ?_⟩
  · rintro ⟨k, hk⟩
    have h1 := (SecureBox.isLocked_false_iff _).mpr hk
    rw [hang_iterate_locked k] at h1
    exact Bool.noConfusion h1

/-- C5: there are dimensions and an initial state, reachable from the all-false
grid by toggles and built by the constructor from fewer than 1000 draws, on
which the plan leaves the grid locked and the grid is locked after every
number of fallback rounds, so that `openBox` has not returned after any number
of tests of the loop condition. -/
theorem fallback_never_terminates :
    ∃ (y x : Nat) (moves draws : List (Nat × Nat)) (box : SecureBox),
      1 ≤ y ∧ y ≤ x ∧ (SecureBox.blank y x).Inside moves ∧
      box = (SecureBox.blank y x).toggles moves ∧
      draws.length < 1000 ∧ SecureBox.mk0 y x draws = some box ∧
      ∃ X after calls, plan y x box.getState = some X ∧
        applyPlan y x X box = some (after, calls) ∧
        after.isLocked = true ∧
        (∀ k, (Nat.iterate (fallbackRound y x box.getState) k after).isLocked = true) ∧
        ∀ fuel, openBox fuel y x draws = Outcome.stillLooping :=
  ⟨4, 5, [(2, 0)], [(2, 0)], hangBox, by decide, by decide,
    by unfold SecureBox.Inside; decide, hang_reach, by decide, hang_mk0, List.replicate 20 0,
    hangBox, [], hang_plan, hang_apply, hang_locked.1, hang_iterate_locked, hang_openBox⟩

/-- C6: when `openBox` returns, the box it leaves has the size of the box it
built, and the value returned is `true` exactly when some cell of that box is
locked and `false` exactly when every cell of it is unlocked. -/
theorem return_value_reports_lock (fuel y x : Nat) (draws : List (Nat × Nat)) (b : Bool)
    (box : SecureBox) (h : openBox fuel y x draws = Outcome.returned b box) :
    box.Sized (if y > x then x else y) (if y > x then y else x) ∧
    (b = true ↔ box.SomeLocked) ∧ (b = false ↔ box.AllUnlocked) := by
  obtain ⟨hs, _, hb⟩ := openBox_returned_inv fuel y x draws b box h
  subst hb
  exact ⟨hs, SecureBox.isLocked_iff box, SecureBox.isLocked_false_iff box⟩

/-- The statement of C6 on the run `openBox(3, 2)` whose shuffle draws two
toggles: the run returns `false` on the all-false 2 by 3 box. -/
theorem return_value_reports_lock_witness :
    openBox 3 3 2 [(1, 0), (0, 2)] = Outcome.returned false (SecureBox.blank 2 3) ∧
    (false = false ↔ (SecureBox.blank 2 3).AllUnlocked) :=
  ⟨by decide!,
    (return_value_reports_lock 3 3 2 [(1, 0), (0, 2)] false (SecureBox.blank 2 3)
      (by decide!)).2.2⟩

/-- C12: `openBox` replaces `(y, x)` by `(min y x, max y x)` before it builds the
puzzle, so that the row count is at most the column count; the cell count and
`extendedMatrixSize` are unchanged. `openBox(y, x)` and `openBox(x, y)` are then
one and the same run of the solver on the box built with these dimensions: with
the same draws of the generator they build the same `A` and `B`, extract the
same `X`, issue the same toggles and end the same way. -/
theorem dimension_normalization (fuel y x : Nat) (draws : List (Nat × Nat)) :
    ((if y > x then x else y) = min y x ∧ (if y > x then y else x) = max y x) ∧
    min y x ≤ max y x ∧ min y x * max y x = y * x ∧
    extendedMatrixSize (min y x) (max y x) = extendedMatrixSize y x ∧
    openBox fuel y x draws =
      (match SecureBox.mk0 (min y x) (max y x) draws with
        | none => Outcome.undefinedBehaviour
        | some box => solveBox fuel (min y x) (max y x) box) ∧
    openBox fuel x y draws =
      (match SecureBox.mk0 (min y x) (max y x) draws with
        | none => Outcome.undefinedBehaviour
        | some box => solveBox fuel (min y x) (max y x) box) ∧
    openBox fuel y x draws = openBox fuel x y draws := by
  have e1 := openBox_eq_normalized fuel y x draws
  have e2 := openBox_eq_normalized fuel x y draws
  rw [Nat.min_comm x y, Nat.max_comm x y] at e2
  have hprod : min y x * max y x = y * x := by
    rcases Nat.le_total y x with h | h
    · rw [Nat.min_eq_left h, Nat.max_eq_right h]
    · rw [Nat.min_eq_right h, Nat.max_eq_left h, Nat.mul_comm]
  refine ⟨swap_eq_min_max y x, Nat.le_trans (Nat.min_le_left y x) (Nat.le_max_left y x),
    hprod, ?_, e1, e2, e1.trans e2.symm⟩
  unfold extendedMatrixSize
  rw [Nat.mul_comm (max y x), hprod, Nat.mul_comm]

/-- C20: whenever `openBox` returns, every cell of the box it leaves is unlocked
and the value returned is `false`; it never returns `true`. -/
theorem never_returns_true (fuel y x : Nat) (draws : List (Nat × Nat)) (b : Bool)
    (box : SecureBox) (h : openBox fuel y x draws = Outcome.returned b box) :
    b = false ∧ box.AllUnlocked ∧ b ≠ true := by
  obtain ⟨_, hl, hb⟩ := openBox_returned_inv fuel y x draws b box h
  have hb2 : b = false := hb.trans hl
  exact ⟨hb2, (SecureBox.isLocked_false_iff box).mp hl, by rw [hb2]; exact Bool.false_ne_true⟩

/-- The statement of C20 on the run `openBox(2, 2)` whose shuffle draws the
toggle `(0, 1)`. -/
theorem never_returns_true_witness :
    openBox 1 2 2 [(0, 1)] = Outcome.returned false (SecureBox.blank 2 2) ∧
    (false = false ∧ (SecureBox.blank 2 2).AllUnlocked ∧ false ≠ true) :=
  ⟨by decide!,
    never_returns_true 1 2 2 [(0, 1)] false (SecureBox.blank 2 2) (by decide!)⟩

/-- C17: the elimination loop keeps the solution set: a vector `X` satisfies
`A * X = B` over GF(2) for the system given to the loop exactly when it does so
for the system the loop leaves. -/
theorem elimination_preserves_solutions (n : Nat) (s : Sys) (hs : IsSystem n s)
    (X : List Nat) : Solves n s X ↔ Solves n (gauss n s).2 X :=
  (gauss_inv n s hs.squareBits).2.1 X

/-- The statement of C17 on the system `demoSys` and the vector `[0, 1]`. -/
theorem elimination_preserves_solutions_witness :
    IsSystem 2 demoSys ∧ (Solves 2 demoSys [0, 1] ↔ Solves 2 (gauss 2 demoSys).2 [0, 1]) :=
  ⟨by decide, elimination_preserves_solutions 2 demoSys (by decide) [0, 1]⟩

/-- C14, as amended: `openBox` has no check of its dimensions. When `y * x = 0`
and the shuffle of the constructor draws no toggle, `extendedMatrixSize` is `0`,
the matrix, `B` and `X` are built with no entry, and `openBox` returns `false`,
which reports the box, of no cell, as unlocked. -/
theorem degenerate_input_reported_unlocked (fuel y x : Nat) (h0 : y * x = 0) :
    min y x = 0 ∧ extendedMatrixSize (min y x) (max y x) = 0 ∧
    encode (extendedMatrixSize (min y x) (max y x)) (max y x)
      (SecureBox.blank (min y x) (max y x)).getState = some ([], []) ∧
    plan (min y x) (max y x) (SecureBox.blank (min y x) (max y x)).getState = some [] ∧
    openBox (fuel + 1) y x [] =
      Outcome.returned false (SecureBox.blank (min y x) (max y x)) := by
  have hmin : min y x = 0 := by
    rcases Nat.mul_eq_zero.mp h0 with h | h
    · rw [h]; exact Nat.zero_min x
    · rw [h]; exact Nat.min_zero y
  rw [openBox_eq_normalized, hmin]
  refine ⟨rfl, extendedMatrixSize_zero _, ?_, plan_zero _ _, ?_⟩
  · rw [extendedMatrixSize_zero, encode_of_lt 0 _ _ (by decide)]
    rfl
  · have e : SecureBox.mk0 0 (max y x) [] = some (SecureBox.blank 0 (max y x)) := rfl
    rw [e]
    exact solveBox_blank_zero fuel (max y x)

/-- The statement of C14, as amended, on `openBox(2, 0)`. -/
theorem degenerate_input_reported_unlocked_witness :
    2 * 0 = 0 ∧ openBox (0 + 1) 2 0 [] =
      Outcome.returned false (SecureBox.blank (min 2 0) (max 2 0)) :=
  ⟨by decide, (degenerate_input_reported_unlocked 0 2 0 (by decide)).2.2.2.2⟩

/-- C14 as stated fails: `openBox(0, 3)`, when the shuffle draws no toggle, does
not fail; it builds a matrix, a `B` and an `X` of size zero and returns `false`,
the value that reports the box as unlocked. -/
theorem degenerate_input_not_rejected :
    0 * 3 = 0 ∧ SecureBox.mk0 0 3 [] = some (SecureBox.blank 0 3) ∧
    encode (extendedMatrixSize 0 3) 3 (SecureBox.blank 0 3).getState = some ([], []) ∧
    plan 0 3 (SecureBox.blank 0 3).getState = some [] ∧
    openBox 1 0 3 [] = Outcome.returned false (SecureBox.blank 0 3) := by
  decide

/-- C13: on the 2 by 2 grid the encoder ends and builds the matrix `crossTwo` of
four rows of four entries, each row with at least three ones, next to the `B`
of the four cells; and for each of the sixteen initial states, the all-locked
one among them, there is a plan, and applying the plan that the elimination
and the extraction produce leaves the four cells false: the condition of the
`while` loop is false at its first test, the body of the loop is never entered,
and the run returns `false`. -/
theorem two_by_two_solved (a b c d : Bool) :
    encode (extendedMatrixSize 2 2) 2 [[a, b], [c, d]] =
      some (crossTwo, [if a then 1 else 0, if b then 1 else 0, if c then 1 else 0,
        if d then 1 else 0]) ∧
    Shaped crossTwo 4 4 ∧ (∀ row ∈ crossTwo, 3 ≤ row.sum) ∧
    (plan 2 2 [[a, b], [c, d]]).bind (fun X =>
      (applyPlan 2 2 X { box := [[a, b], [c, d]], ySize := 2, xSize := 2 }).map
        (fun r => r.1)) = some (SecureBox.blank 2 2) ∧
    (SecureBox.blank 2 2).isLocked = false ∧
    solveBox 1 2 2 { box := [[a, b], [c, d]], ySize := 2, xSize := 2 } =
      Outcome.returned false (SecureBox.blank 2 2) := by
  revert a b c d
  decide

/-- C19: one round of the fallback loop toggles at the positions of
`snapshotCalls`, a list fixed by the snapshot in which the current grid does
not enter, so two rounds in a row give back the grid. Hence the body of the
loop runs zero times, or exactly once, or the loop never ends: when the grid
is locked at entry and still locked after the first round, it is locked after
every number of rounds and the loop has not ended after any number of tests of
its condition. -/
theorem fallback_rounds_alternate (y x : Nat) (state : List (List Bool)) (box : SecureBox)
    (hS : box.Sized y x) :
    fallbackRound y x state box = box.toggles (snapshotCalls y x state) ∧
    fallbackRound y x state (fallbackRound y x state box) = box ∧
    (box.isLocked = false → ∀ fuel, whileLocked y x state (fuel + 1) box = some box) ∧
    (box.isLocked = true → (fallbackRound y x state box).isLocked = false →
      ∀ fuel, whileLocked y x state (fuel + 2) box = some (fallbackRound y x state box)) ∧
    (box.isLocked = true → (fallbackRound y x state box).isLocked = true →
      (∀ k, (Nat.iterate (fallbackRound y x state) k box).isLocked = true) ∧
      ∀ fuel, whileLocked y x state fuel box = none) := by
  refine ⟨fallbackRound_eq_toggles y x state box, fallbackRound_twice y x state box hS,
    fun h0 fuel => ?_, fun h1 h2 fuel => ?_, fun h1 h2 => ⟨fun k => ?_, fun fuel => ?_⟩⟩
  · unfold whileLocked
    rw [h0]
    rfl
  · unfold whileLocked
    rw [if_pos h1]
    unfold whileLocked
    rw [h2]
    rfl
  · rcases fallback_iterate y x state box hS k with h | h
    · rw [h]; exact h1
    · rw [h]; exact h2
  · exact (whileLocked_never y x state box hS h1 h2 fuel).1

/-- The statement of C19 on the 2 by 3 box `demoBox` with its own cells as the
snapshot. -/
theorem fallback_rounds_alternate_witness :
    demoBox.Sized 2 3 ∧
    fallbackRound 2 3 demoBox.getState (fallbackRound 2 3 demoBox.getState demoBox) = demoBox :=
  ⟨by unfold SecureBox.Sized; decide,
    (fallback_rounds_alternate 2 3 demoBox.getState demoBox
      (by unfold SecureBox.Sized; decide)).2.1⟩

/-- C11 as stated fails on a starting state with a locked cell: on the 2 by 3 box
`demoBox`, whose cell `(0, 0)` is locked, the two plans of six zeros and their
exclusive or all leave the box as it is, so the state reached by the combined
plan has the cell `(0, 0)` locked while the cell-wise exclusive or of the two
reached states has it unlocked. -/
theorem linearity_fails_on_locked_state :
    xorPlan (List.replicate 6 0) (List.replicate 6 0) = List.replicate 6 0 ∧
    applyPlan 2 3 (List.replicate 6 0) demoBox = some (demoBox, []) ∧
    applyPlan 2 3 (xorPlan (List.replicate 6 0) (List.replicate 6 0)) demoBox =
      some (demoBox, []) ∧
    demoBox.cell 0 0 = true ∧ (demoBox.cell 0 0 ^^ demoBox.cell 0 0) = false := by
  decide

/-- C11, amended: the loop "Solution" is affine in the plan, not linear. For
every grid of `y` rows and `x` columns, every starting state `S` and every two
plans `X1`, `X2` of `y * x` bits, the three runs from `S` on `X1`, on `X2` and on
the entry-wise exclusive or of the two are defined, and each cell of the state
reached by the combined plan is the exclusive or of that cell in `S`, in the
state reached by `X1` and in the state reached by `X2`; it is the exclusive or
of the two reached states exactly at the cells where `S` is unlocked. -/
theorem plan_applier_affine (y x : Nat) (S : SecureBox) (X1 X2 : List Nat)
    (hS : S.Sized y x) (h1 : X1.length = y * x) (h2 : X2.length = y * x)
    (hb1 : ∀ v ∈ X1, v < 2) (hb2 : ∀ v ∈ X2, v < 2) :
    ∃ r1 r2 r12, applyPlan y x X1 S = some r1 ∧ applyPlan y x X2 S = some r2 ∧
      applyPlan y x (xorPlan X1 X2) S = some r12 ∧
      (∀ r c, r < y → c < x →
        r12.1.cell r c = ((S.cell r c ^^ r1.1.cell r c) ^^ r2.1.cell r c)) ∧
      (∀ r c, r < y → c < x →
        (r12.1.cell r c = (r1.1.cell r c ^^ r2.1.cell r c) ↔ S.cell r c = false)) := by
  obtain ⟨a, b, c, ha, hb, hc, _, _, _, hcell⟩ :=
    applyPlan_affine y x S hS X1 X2 h1 h2 hb1 hb2
  refine ⟨a, b, c, ha, hb, hc, hcell, fun r k hr hk => ?_⟩
  rw [hcell r k hr hk]
  cases S.cell r k <;> cases a.1.cell r k <;> cases b.1.cell r k <;> decide

/-- The statement of the amended C11 on the 2 by 3 box `demoBox`, for the plans
`[1, 0, 0, 0, 1, 0]` and `[1, 1, 0, 0, 0, 0]`. -/
theorem plan_applier_affine_witness :
    demoBox.Sized 2 3 ∧ [1, 0, 0, 0, 1, 0].length = 2 * 3 ∧ [1, 1, 0, 0, 0, 0].length = 2 * 3 ∧
    (∀ v ∈ [1, 0, 0, 0, 1, 0], v < 2) ∧ (∀ v ∈ [1, 1, 0, 0, 0, 0], v < 2) ∧
    ∃ r1 r2 r12, applyPlan 2 3 [1, 0, 0, 0, 1, 0] demoBox = some r1 ∧
      applyPlan 2 3 [1, 1, 0, 0, 0, 0] demoBox = some r2 ∧
      applyPlan 2 3 (xorPlan [1, 0, 0, 0, 1, 0] [1, 1, 0, 0, 0, 0]) demoBox = some r12 ∧
      (∀ r c, r < 2 → c < 3 →
        r12.1.cell r c = ((demoBox.cell r c ^^ r1.1.cell r c) ^^ r2.1.cell r c)) ∧
      (∀ r c, r < 2 → c < 3 →
        (r12.1.cell r c = (r1.1.cell r c ^^ r2.1.cell r c) ↔ demoBox.cell r c = false)) :=
  ⟨by unfold SecureBox.Sized; decide, by decide, by decide, by decide, by decide,
    plan_applier_affine 2 3 demoBox [1, 0, 0, 0, 1, 0] [1, 1, 0, 0, 0, 0]
      (by unfold SecureBox.Sized; decide) (by decide) (by decide) (by decide) (by decide)⟩

/-- C15: the matrix left by the elimination loop is in reduced row-echelon form.
With `pivotCols` the columns that received a pivot, listed by pivot row, and
`(gauss n s).1` the final value of `row`, the number of pivots: there is one
pivot column per row before `row`, they are columns of the matrix and strictly
increase with the pivot row; the pivot column of the row `k` has a `1` on the
row `k` and `0` on every other row; the row `k` is `0` to the left of its pivot;
and every row from `row` on is all zero. -/
theorem elimination_gives_rref (n : Nat) (s : Sys) (hs : IsSystem n s) :
    (pivotCols n s).length = (gauss n s).1 ∧ (gauss n s).1 ≤ n ∧
    (∀ k, k < (gauss n s).1 → (pivotCols n s).getD k 0 < n) ∧
    (∀ k l, k < l → l < (gauss n s).1 →
      (pivotCols n s).getD k 0 < (pivotCols n s).getD l 0) ∧
    (∀ k i, k < (gauss n s).1 → i < n →
      get2 0 (gauss n s).2.A i ((pivotCols n s).getD k 0) = if i = k then 1 else 0) ∧
    (∀ k j, k < (gauss n s).1 → j < (pivotCols n s).getD k 0 →
      get2 0 (gauss n s).2.A k j = 0) ∧
    (∀ i j, (gauss n s).1 ≤ i → i < n → j < n → get2 0 (gauss n s).2.A i j = 0) :=
  gauss_rref n s hs.squareBits

/-- The statement of C15 on the system `rankSys` of three equations, of rank two
with the pivots in the columns `0` and `2`. -/
theorem elimination_gives_rref_witness :
    IsSystem 3 rankSys ∧ pivotCols 3 rankSys = [0, 2] ∧ (gauss 3 rankSys).1 = 2 ∧
    (gauss 3 rankSys).2.A = [[1, 1, 0], [0, 0, 1], [0, 0, 0]] ∧
    (∀ k i, k < (gauss 3 rankSys).1 → i < 3 →
      get2 0 (gauss 3 rankSys).2.A i ((pivotCols 3 rankSys).getD k 0) =
        if i = k then 1 else 0) :=
  ⟨by decide, by decide, by decide, by decide,
    (elimination_gives_rref 3 rankSys (by decide)).2.2.2.2.1⟩

/-- C16 fails on the code at `y = 4`, `x = 5`: on the encoder's matrix of the 4 by
5 grid the elimination finds 17 pivots, none in the column `9`, and the column
`10` has its pivot on the row `9`, not on the row `10`. For the grid reached by
the one toggle `(2, 0)` the pivot row `9` ends with `B[9] = 1`, while the rule
of the extractor reads the diagonal entry `A[10][10]`, which is `0`, and sets
`X[10] = 0`. -/
theorem pivot_alignment_fails_on_4x5 :
    (1 ≤ 4 ∧ 4 ≤ 5) ∧
    encode (extendedMatrixSize 4 5) 5 hangBox.getState = some (hangSys.A, hangSys.B) ∧
    (gauss 20 hangSys).1 = 17 ∧ 9 < (gauss 20 hangSys).1 ∧
    (pivotCols 20 hangSys).getD 9 0 = 10 ∧
    get2 0 (gauss 20 hangSys).2.A 10 10 = 0 ∧
    (gauss 20 hangSys).2.B.getD 9 0 = 1 ∧
    (extract 20 (gauss 20 hangSys).2).getD 10 0 = 0 := by
  refine ⟨⟨by decide, by decide⟩, hang_encode_some, ?_, hang_pivot.1, hang_pivot.2, ?_, ?_, ?_⟩
  · rw [hang_gauss]
  · rw [hang_gauss]
    decide
  · rw [hang_gauss]
    decide
  · rw [hang_gauss, hang_extract]
    decide

/-- C18 as stated fails where the `uint32_t` product `x * y` wraps: on the 65536
by 65536 grid, both sides even, `extendedMatrixSize` is `0`, the matrix has no
column and `X` no entry, and the loop "Solution" reads `X[0]` past the end of
`X`, whatever the state of the grid: the run has undefined behaviour and does
not return `false`. It fails as well where the product exceeds `INT_MAX`
without wrapping: on the 2 by 1073741824 grid `extendedMatrixSize` is `2 ^ 31`
and a counter of the encoder overflows. -/
theorem even_grid_overflow :
    (65536 % 2 = 0 ∧ 2 ≤ 65536) ∧ extendedMatrixSize 65536 65536 = 0 ∧
    (∀ state, plan 65536 65536 state = some []) ∧
    (∀ fuel box, solveBox fuel 65536 65536 box = Outcome.undefinedBehaviour) ∧
    (∀ fuel draws, openBox fuel 65536 65536 draws = Outcome.undefinedBehaviour) ∧
    ((2 % 2 = 0 ∧ 1073741824 % 2 = 0 ∧ 2 ≤ 1073741824) ∧
      extendedMatrixSize 2 1073741824 = 2 ^ 31 ∧
      (∀ state, plan 2 1073741824 state = none) ∧
      (∀ fuel box, solveBox fuel 2 1073741824 box = Outcome.undefinedBehaviour) ∧
      ∀ fuel draws, openBox fuel 2 1073741824 draws = Outcome.undefinedBehaviour) := by
  have h0 : extendedMatrixSize 65536 65536 = 0 := by decide
  have h1 : extendedMatrixSize 2 1073741824 = 2 ^ 31 := by decide
  have h2 : 2 ^ 31 ≤ extendedMatrixSize 2 1073741824 := by rw [h1]
  refine ⟨⟨by decide, by decide⟩, h0, fun state => plan_of_size_zero _ _ state h0,
    fun fuel box => solveBox_wrapped fuel _ _ box h0 (by decide) (by decide),
    fun fuel draws => ?_, ⟨by decide, by decide, by decide⟩, h1,
    fun state => plan_overflow _ _ state h2,
    fun fuel box => solveBox_int_overflow fuel _ _ box h2, fun fuel draws => ?_⟩
  · rw [openBox_of_mk0 fuel 65536 65536 draws _ (by decide)
      (mk0_some 65536 65536 draws (by decide) (by decide))]
    exact solveBox_wrapped fuel _ _ _ h0 (by decide) (by decide)
  · rw [openBox_of_mk0 fuel 2 1073741824 draws _ (by decide)
      (mk0_some 2 1073741824 draws (by decide) (by decide))]
    exact solveBox_int_overflow fuel _ _ _ h2

/-- C18, amended with the bound that keeps `x * y` from wrapping and the `int`
counters of the encoder from overflowing: for every grid whose sides `y` and
`x` are both even and at least 2 with `y * x < 2 ^ 31`, and for every state
`box` of the grid, reachable or not, the encoder ends, the elimination on the
encoder's system puts a pivot in every one of the `y * x` columns, the pivot of
the column `col` on the row `col`; there is a plan, and applying it leaves
every cell unlocked; the `while` loop ends at the first test of its condition,
so its body is never entered; and the solver returns `false`. So does
`openBox(y, x)`, whatever the shuffle draws. -/
theorem even_grid_solved (fuel y x : Nat) (box : SecureBox) (draws : List (Nat × Nat))
    (hy : y % 2 = 0) (hx : x % 2 = 0) (hy2 : 2 ≤ y) (hx2 : 2 ≤ x) (hn : y * x < 2 ^ 31)
    (hS : box.Sized y x) :
    (∃ A B, encode (extendedMatrixSize y x) x box.getState = some (A, B) ∧
      (gauss (extendedMatrixSize y x) { A := A, B := B }).1 = y * x ∧
      ∀ col, col < y * x →
        (pivotCols (extendedMatrixSize y x) { A := A, B := B }).getD col 0 = col) ∧
    (∃ X r, plan y x box.getState = some X ∧ applyPlan y x X box = some r ∧
      r.1.AllUnlocked ∧ whileLocked y x box.getState (fuel + 1) r.1 = some r.1 ∧
      solveBox (fuel + 1) y x box = Outcome.returned false r.1) ∧
    ∃ b, openBox (fuel + 1) y x draws = Outcome.returned false b ∧ b.AllUnlocked := by
  have hn2 : y * x < 2 ^ 32 := by omega
  have hsz := extendedMatrixSize_eq y x hn2
  have hp := gauss_encode_even y x hy hx box.getState
  refine ⟨⟨(encodeRows (extendedMatrixSize y x) x box.getState).1,
    (encodeRows (extendedMatrixSize y x) x box.getState).2,
    encode_of_lt _ x _ (by rw [hsz]; exact hn), ?_, ?_⟩, ?_,
    openBox_even fuel y x draws hy hx hy2 hx2 hn⟩
  · rw [hsz]
    exact hp
  · rw [hsz]
    exact fun col hcol => pivotCols_of_full (y * x) _
      (encode_system (y * x) x box.getState) hp col hcol
  · obtain ⟨X, r, hX, ha, _, hun, hw, hsolve⟩ := solveBox_even fuel y x box hy hx hn hS
    exact ⟨X, r, hX, ha, hun, hw, hsolve⟩

/-- The statement of the amended C18 on the 2 by 2 grid, for the state with the
two cells of the diagonal locked and the shuffle that draws the toggle
`(0, 1)`. -/
theorem even_grid_solved_witness :
    (2 % 2 = 0 ∧ 2 ≤ 2 ∧ 2 * 2 < 2 ^ 31) ∧ diagBox.Sized 2 2 ∧
    (∃ X r, plan 2 2 diagBox.getState = some X ∧ applyPlan 2 2 X diagBox = some r ∧
      r.1.AllUnlocked ∧ whileLocked 2 2 diagBox.getState (0 + 1) r.1 = some r.1 ∧
      solveBox (0 + 1) 2 2 diagBox = Outcome.returned false r.1) ∧
    ∃ b, openBox (0 + 1) 2 2 [(0, 1)] = Outcome.returned false b ∧ b.AllUnlocked :=
  ⟨⟨by decide, by decide, by decide⟩, by unfold SecureBox.Sized; decide,
    (even_grid_solved 0 2 2 diagBox [(0, 1)] (by decide) (by decide) (by decide) (by decide)
      (by decide) (by unfold SecureBox.Sized; decide)).2⟩

end IndigoBox
